import Mathlib

/-!
# elz code generator: specialization, type inference and lowering

A shallow embedding of `codegen/codegen.go`.  Go objects that the generator
reaches through pointers are kept in explicit state: the module, the two
caches and the binding objects (whose bodies line 103 of `codegen.go`
rewrites in place).  Panics are results that carry the state in which the
panic was raised, so that what a failed request leaves behind can be stated.
Recursion is bounded by a fuel argument; `Res.diverge` is "fuel exhausted".
-/

set_option autoImplicit false

namespace Elz

/-! ## Go maps with string keys -/

/-- A Go `map[string]α`, as an association list with at most one entry per key in use. -/
abbrev Map (α : Type) := List (String × α)

/-- Reading `m[key]`: `none` is the comma-ok `false`. -/
def Map.lookup {α : Type} : Map α → String → Option α
  | [], _ => none
  | (k, v) :: m, key => if k = key then some v else Map.lookup m key

/-- Writing `m[key] = v`: replaces the entry of `key` or adds one. -/
def Map.insert {α : Type} : Map α → String → α → Map α
  | [], key, v => [(key, v)]
  | (k, x) :: m, key, v => if k = key then (key, v) :: m else (k, x) :: Map.insert m key v

/-! ## The `types` package -/

/-- LLVM types used by the generator; `I64` is the only one. -/
inductive LLVMType where
  | I64
  deriving DecidableEq, Repr

/-- Modelled from the spec: the interface `types.Type`, whose declaration is not among the
sources.  A type is "an opaque value carrying a canonical name (used to build cache keys) and
enough structural information to render a target declaration": `name` is `String()`,
`llvm` is `LLVMType()`. -/
structure Ty where
  name : String
  llvm : LLVMType
  deriving DecidableEq, Repr

/-- Modelled from the spec: `types.Int`, "the only built-in type defined initially is a 64-bit
integer"; `codegen.go` compares its name with `"int"` and the tests render it as `i64`. -/
def Ty.Int : Ty := ⟨"int", LLVMType.I64⟩

/-! ## The `ast` package -/

mutual
/-- Modelled from the spec: the expression nodes of package `ast` (its declarations are not
among the sources), with the fields `codegen.go` and the tests use.  `nil` is the nil interface
value that reading an absent key of a `map[string]ast.Expr` gives. -/
inductive Expr where
  | nil : Expr
  | Int (Literal : String) : Expr
  | Ident (Literal : String) : Expr
  | BinaryExpr (LExpr RExpr : Expr) (Op : String) : Expr
  | FuncCall (FuncName : String) (ExprList : List Arg) : Expr
  | ofArg (a : Arg) : Expr
/-- Modelled from the spec: an `ast.Arg` cell, the label (empty when absent) and the argument
expression; the declaration is not among the sources. -/
inductive Arg where
  | mk (Ident : String) (Expr : Expr) : Arg
end

/-- The label of an argument. -/
def Arg.Ident : Arg → String
  | Arg.mk i _ => i

/-- The expression of an argument. -/
def Arg.Expr : Arg → Expr
  | Arg.mk _ e => e

/-- Modelled from the spec: the constructor `ast.NewArg` (label, expression), as the tests use
it. -/
def NewArg (ident : String) (e : Expr) : Arg := Arg.mk ident e

/-- Modelled from the spec: the constructor `ast.NewInt` of an integer literal. -/
def NewInt (lit : String) : Expr := Expr.Int lit

/-- Modelled from the spec: the constructor `ast.NewIdent` of an identifier. -/
def NewIdent (lit : String) : Expr := Expr.Ident lit

/-- Modelled from the spec: an `ast.Binding`, "name, ordered sequence of parameter names, one
body expression"; the declaration is not among the sources. -/
structure Binding where
  Name : String
  ParamList : List String
  Expr : Expr

/-- Modelled from the spec: `types.TypeOf`, not among the sources.  "`IntLiteral` → the integer
type (the only literal form currently supported)"; an argument cell has the type of its
expression (the generator passes `*ast.Arg` values to it); every other expression cannot be
typed directly, and the call panics (`none`). -/
def TypeOf : Expr → Option Ty
  | Expr.ofArg (Arg.mk _ e) => TypeOf e
  | Expr.Int _ => some Ty.Int
  | _ => none

/-! ## Specialization keys -/

/-- Function `genKeyByTypes`: the name, then, for a non-empty type list, `(`, every type name but the last
followed by `,`, the last type name and `)`. -/
def genKeyByTypes (bindName : String) (typeList : List Ty) : String :=
  match typeList.getLast? with
  | none => bindName
  | some last =>
    typeList.dropLast.foldl (fun b t => b ++ t.name ++ ",") (bindName ++ "(") ++ last.name ++ ")"

/-- The loop of `genKey`: `types.TypeOf` of every expression, in order; `none` when one of the
calls panics. -/
def typesOf : List Expr → Option (List Ty)
  | [] => some []
  | e :: es =>
    match TypeOf e with
    | none => none
    | some t =>
      match typesOf es with
      | none => none
      | some ts => some (t :: ts)

/-- Function `genKey`. -/
def genKey (bindName : String) (exprList : List Expr) : Option String :=
  match typesOf exprList with
  | none => none
  | some typeList => some (genKeyByTypes bindName typeList)

/-- Function `genKeyByArg`: every argument cell is passed on as an expression. -/
def genKeyByArg (bindName : String) (argList : List Arg) : Option String :=
  genKey bindName (argList.map Expr.ofArg)

/-! ## The LLVM module under construction -/

/-- Handle of a generated function (`*ir.Func`): its position in the module, in creation
order. -/
abbrev FuncRef := Nat

/-- An LLVM value: a constant built from a literal, a parameter of the enclosing function, or
the result of an instruction of the enclosing block (by position). -/
inductive Value where
  | const (lit : String)
  | param (i : Nat)
  | inst (i : Nat)
  deriving DecidableEq, Repr

/-- The instructions `genExpr` emits. -/
inductive Inst where
  | add (x y : Value)
  | sub (x y : Value)
  | mul (x y : Value)
  | sdiv (x y : Value)
  | call (callee : FuncRef) (args : List Value)
  deriving DecidableEq, Repr

/-- An `ir.Block`: its instructions and its terminator (`NewRet` sets it). -/
structure Block where
  Insts : List Inst
  Term : Option Value
  deriving DecidableEq, Repr

/-- An `ir.Param`: name and type. -/
structure Param where
  name : String
  typ : LLVMType
  deriving DecidableEq, Repr

/-- An `ir.Func`: name, return type, parameters and blocks. -/
structure Func where
  name : String
  retType : LLVMType
  Params : List Param
  Blocks : List Block
  deriving DecidableEq, Repr

/-- An `ir.Module`: its functions, in creation order. -/
abbrev Module := List Func

/-- Handle of a block: the function and the position of the block in it. -/
structure BlockRef where
  func : FuncRef
  block : Nat
  deriving DecidableEq, Repr

/-- Replaces the element at position `n`, if there is one. -/
def updateAt {α : Type} (f : α → α) : List α → Nat → List α
  | [], _ => []
  | x :: xs, 0 => f x :: xs
  | x :: xs, n + 1 => x :: updateAt f xs n

/-! ## Places in binding bodies -/

/-- One step from an expression node to a child: the operands of a binary expression, the
expression of the `i`-th argument cell of a call, the expression of an argument node. -/
inductive Step where
  | L
  | R
  | arg (i : Nat)
  | inner
  deriving DecidableEq, Repr

/-- The child of a node along a step (`nil` when there is none). -/
def Expr.child : Expr → Step → Expr
  | Expr.BinaryExpr l _ _, Step.L => l
  | Expr.BinaryExpr _ r _, Step.R => r
  | Expr.FuncCall _ args, Step.arg i =>
    match args.get? i with
    | some a => a.Expr
    | none => Expr.nil
  | Expr.ofArg a, Step.inner => a.Expr
  | _, _ => Expr.nil

/-- The node reached along a path. -/
def Expr.get (e : Expr) : List Step → Expr
  | [] => e
  | s :: p => (e.child s).get p

/-- The tree with the node at the end of a path replaced. -/
def Expr.set : Expr → List Step → Expr → Expr
  | _, [], new => new
  | Expr.BinaryExpr l r op, Step.L :: p, new => Expr.BinaryExpr (Expr.set l p new) r op
  | Expr.BinaryExpr l r op, Step.R :: p, new => Expr.BinaryExpr l (Expr.set r p new) op
  | Expr.FuncCall n args, Step.arg i :: p, new =>
    Expr.FuncCall n (updateAt (fun a => Arg.mk a.Ident (Expr.set a.Expr p new)) args i)
  | Expr.ofArg a, Step.inner :: p, new => Expr.ofArg (Arg.mk a.Ident (Expr.set a.Expr p new))
  | e, _, _ => e

/-- A pointer to an expression node: a place in the body of a binding object, or a node that
is in no binding body (a caller-supplied argument expression). -/
inductive Ref where
  | body (bind : Nat) (path : List Step)
  | val (e : Expr)

/-- The pointer to a child node. -/
def Ref.child : Ref → Step → Ref
  | Ref.body b p, s => Ref.body b (p ++ [s])
  | Ref.val e, s => Ref.val (e.child s)

/-! ## The generator -/

/-- The `Generator` together with the binding objects it points to.  `heap` holds the
`*ast.Binding` objects (a pointer is a position in it; bodies are trees, no node is shared);
`bindMap` maps names to those pointers.  `New` stores one and the same map object in the
fields `typeOfBuiltInBinding` and `typeOfBinding`, and neither field is assigned again, so the
state has that one map, `typMap`, and the two fields read it. -/
structure Generator where
  mod : Module
  heap : List Binding
  bindMap : Map Nat
  implsOfBinding : Map FuncRef
  typMap : Map Ty

/-- The field `typeOfBuiltInBinding`. -/
def Generator.typeOfBuiltInBinding (g : Generator) : Map Ty := g.typMap

/-- The field `typeOfBinding`. -/
def Generator.typeOfBinding (g : Generator) : Map Ty := g.typMap

/-- Function `New`: an empty module and implementation cache, and the type map holding `+(int,int)`. -/
def New (heap : List Binding) (bindMap : Map Nat) : Generator :=
  { mod := [], heap := heap, bindMap := bindMap, implsOfBinding := [],
    typMap := Map.insert [] "+(int,int)" Ty.Int }

/-- Method `isBuiltIn`. -/
def Generator.isBuiltIn (g : Generator) (key : String) : Bool :=
  (g.typeOfBuiltInBinding.lookup key).isSome

/-- Method `typeOfBind`: the built-in map first, then the map of inferred types. -/
def Generator.typeOfBind (g : Generator) (key : String) : Option Ty :=
  match g.typeOfBuiltInBinding.lookup key with
  | some t => some t
  | none => g.typeOfBinding.lookup key

/-- The node a pointer designates, as it is now. -/
def Generator.deref (g : Generator) : Ref → Expr
  | Ref.body b p =>
    match g.heap.get? b with
    | some bnd => bnd.Expr.get p
    | none => Expr.nil
  | Ref.val e => e

/-- Overwrites the node at a place of a binding body. -/
def Generator.store (g : Generator) (bind : Nat) (path : List Step) (new : Expr) : Generator :=
  { g with heap := updateAt (fun bnd => { bnd with Expr := bnd.Expr.set path new }) g.heap bind }

/-- The argument cells of the call node a pointer designates (none for another node). -/
def Generator.exprList (g : Generator) (r : Ref) : List Arg :=
  match g.deref r with
  | Expr.FuncCall _ args => args
  | _ => []

/-- Call `g.mod.NewFunc(name, retType, params...)`: appends the function, without blocks, and
returns its handle. -/
def Generator.NewFunc (g : Generator) (name : String) (retType : LLVMType) (params : List Param) :
    FuncRef × Generator :=
  (g.mod.length, { g with mod := g.mod ++ [{ name := name, retType := retType, Params := params, Blocks := [] }] })

/-- Call `f.NewBlock("")`: appends an empty block to the function and returns its handle. -/
def Generator.NewBlock (g : Generator) (f : FuncRef) : BlockRef × Generator :=
  let n := match g.mod.get? f with
    | some fn => fn.Blocks.length
    | none => 0
  (⟨f, n⟩, { g with mod := updateAt (fun fn => { fn with Blocks := fn.Blocks ++ [⟨[], none⟩] }) g.mod f })

/-- The number of instructions of a block. -/
def Generator.blockLength (g : Generator) (b : BlockRef) : Nat :=
  match g.mod.get? b.func with
  | some fn =>
    match fn.Blocks.get? b.block with
    | some blk => blk.Insts.length
    | none => 0
  | none => 0

/-- Applies a change to the block a handle designates. -/
def Generator.updateBlock (g : Generator) (b : BlockRef) (f : Block → Block) : Generator :=
  { g with mod := updateAt (fun fn => { fn with Blocks := updateAt f fn.Blocks b.block }) g.mod b.func }

/-- Calls `b.NewAdd`, `b.NewSub`, `b.NewMul`, `b.NewSDiv`, `b.NewCall`: appends the instruction to the
block and returns it as a value. -/
def Generator.emit (g : Generator) (b : BlockRef) (i : Inst) : Value × Generator :=
  (Value.inst (g.blockLength b), g.updateBlock b (fun blk => { blk with Insts := blk.Insts ++ [i] }))

/-- Call `b.NewRet(v)`: sets the terminator of the block. -/
def Generator.NewRet (g : Generator) (b : BlockRef) (v : Value) : Generator :=
  g.updateBlock b (fun blk => { blk with Term := some v })

/-! ## Panics and results -/

/-- The panics of `codegen.go` (and of what it calls), by the statement that raises them. -/
inductive Err where
  /-- Message `do not have enough arguments to call function` (line 53). -/
  | arity
  /-- Message `argument name must be parameter name(or empty)` (line 69). -/
  | argName
  /-- The panic of line 113: no binding, or no type, for the call of `FuncName`. -/
  | unknownCall (FuncName : String)
  /-- The panic of line 121: no type registered under the operator key. -/
  | cantInfer (key : String)
  /-- The panic of line 127: the identifier is not in the type environment. -/
  | unknownIdent (Literal : String)
  /-- Message `unsupported type inference for expression` (line 131). -/
  | unsupportedInference
  /-- Message `unsupported operator: %s` (line 188). -/
  | unsupportedOperator (Op : String)
  /-- Message `failed at generate expression` (line 198). -/
  | failedGenExpr
  /-- A panic inside `types.TypeOf`. -/
  | typeOf
  /-- A nil dereference or an index out of range raised by the Go runtime. -/
  | runtime
  deriving DecidableEq, Repr

/-- Outcome of a call: a value and the state after it, a panic and the state in which it was
raised, or fuel exhausted before the call ended. -/
inductive Res (α : Type) where
  | ok (a : α) (g : Generator)
  | panic (e : Err) (g : Generator)
  | diverge

/-- Function `getType`: the type environment for an identifier (the nil type, `none`, when absent),
`types.TypeOf` for any other expression. -/
def getType (e : Expr) (typeMap : Map Ty) : Except Err (Option Ty) :=
  match e with
  | Expr.Ident lit => Except.ok (typeMap.lookup lit)
  | _ =>
    match TypeOf e with
    | some t => Except.ok (some t)
    | none => Except.error Err.typeOf

/-- Lines 100-106 for one cell: an argument whose expression is an identifier gets the
expression bound to it (nil when there is none). -/
def substArg (binds : Map Expr) : Arg → Arg
  | Arg.mk label (Expr.Ident lit) => Arg.mk label ((binds.lookup lit).getD Expr.nil)
  | a => a

/-- Lines 61-76: the check of the argument names, filling the substitution environment and the
parameter list, position by position. -/
def bindArgs : List String → List Ty → List Arg → Map Expr → List Param →
    Except Err (Map Expr × List Param)
  | _, _, [], binds, params => Except.ok (binds, params)
  | argNameMustBe :: ps, t :: ts, e :: es, binds, params =>
    let argName := if e.Ident = "" then argNameMustBe else e.Ident
    if argNameMustBe ≠ argName then Except.error Err.argName
    else bindArgs ps ts es (binds.insert argName e.Expr) (params ++ [⟨e.Ident, t.llvm⟩])
  | _, _, _ :: _, _, _ => Except.error Err.runtime

/-- Lines 77-81: the type environment, parameter name to argument type. -/
def bindTypes : List String → List Ty → Map Ty → Except Err (Map Ty)
  | _, [], typeMap => Except.ok typeMap
  | argName :: ps, t :: ts, typeMap => bindTypes ps ts (typeMap.insert argName t)
  | [], _ :: _, _ => Except.error Err.runtime

/-! ## Specialization, inference and lowering -/

mutual
/-- Method `Generator.mustGetImpl`: the cached implementation of the key, or a new function whose
return type is inferred from the body and whose body is lowered.  `bind` is the pointer to the
binding object. -/
def mustGetImpl : Nat → Generator → Nat → List Arg → Res FuncRef
  | 0, _, _, _ => Res.diverge
  | fuel + 1, g, bind, argList =>
    match g.heap.get? bind with
    | none => Res.panic Err.runtime g
    | some bnd =>
      let bindName := bnd.Name
      match genKeyByArg bindName argList with
      | none => Res.panic Err.typeOf g
      | some key =>
        match g.implsOfBinding.lookup key with
        | some impl => Res.ok impl g
        | none =>
          if argList.length ≠ bnd.ParamList.length then Res.panic Err.arity g
          else
            match typesOf (argList.map Expr.ofArg) with
            | none => Res.panic Err.typeOf g
            | some typeList =>
              match bindArgs bnd.ParamList typeList argList [] [] with
              | Except.error e => Res.panic e g
              | Except.ok (binds, params) =>
                match bindTypes bnd.ParamList typeList [] with
                | Except.error e => Res.panic e g
                | Except.ok typeMap =>
                  match inferReturnType fuel g bind [] binds typeMap with
                  | Res.diverge => Res.diverge
                  | Res.panic e g1 => Res.panic e g1
                  | Res.ok inferT g1 =>
                    let g2 := { g1 with typMap := g1.typeOfBinding.insert key inferT }
                    let fg := g2.NewFunc bindName inferT.llvm params
                    let bg := fg.2.NewBlock fg.1
                    match funcBody fuel bg.2 bg.1 (Ref.body bind []) binds typeMap with
                    | Res.diverge => Res.diverge
                    | Res.panic e g5 => Res.panic e g5
                    | Res.ok _ g5 =>
                      Res.ok fg.1 { g5 with implsOfBinding := g5.implsOfBinding.insert key fg.1 }
  termination_by structural fuel => fuel

/-- Method `Generator.inferReturnType` of the node at place `path` of the body of binding `bind`. -/
def inferReturnType : Nat → Generator → Nat → List Step → Map Expr → Map Ty → Res Ty
  | 0, _, _, _, _, _ => Res.diverge
  | fuel + 1, g, bind, path, binds, typeMap =>
    match g.deref (Ref.body bind path) with
    | Expr.FuncCall FuncName ExprList =>
      match g.bindMap.lookup FuncName with
      | none => Res.panic (Err.unknownCall FuncName) g
      | some callee =>
        let argList := ExprList.map (substArg binds)
        let g1 := g.store bind path (Expr.FuncCall FuncName argList)
        match mustGetImpl fuel g1 callee argList with
        | Res.diverge => Res.diverge
        | Res.panic e g2 => Res.panic e g2
        | Res.ok _ g2 =>
          match genKeyByArg FuncName (g2.exprList (Ref.body bind path)) with
          | none => Res.panic Err.typeOf g2
          | some key =>
            match g2.typeOfBind key with
            | some t => Res.ok t g2
            | none => Res.panic (Err.unknownCall FuncName) g2
    | Expr.BinaryExpr _ _ Op =>
      match inferReturnType fuel g bind (path ++ [Step.L]) binds typeMap with
      | Res.diverge => Res.diverge
      | Res.panic e g1 => Res.panic e g1
      | Res.ok lt g1 =>
        match inferReturnType fuel g1 bind (path ++ [Step.R]) binds typeMap with
        | Res.diverge => Res.diverge
        | Res.panic e g2 => Res.panic e g2
        | Res.ok rt g2 =>
          let key := genKeyByTypes Op [lt, rt]
          match g2.typeOfBind key with
          | none => Res.panic (Err.cantInfer key) g2
          | some t => Res.ok t g2
    | Expr.Ident Literal =>
      match typeMap.lookup Literal with
      | none => Res.panic (Err.unknownIdent Literal) g
      | some t => Res.ok t g
    | _ => Res.panic Err.unsupportedInference g
  termination_by structural fuel => fuel

/-- Method `Generator.funcBody`: lowers the expression into the block and returns its value. -/
def funcBody : Nat → Generator → BlockRef → Ref → Map Expr → Map Ty → Res Unit
  | 0, _, _, _, _, _ => Res.diverge
  | fuel + 1, g, b, expr, binds, typeMap =>
    match genExpr fuel g b expr binds typeMap with
    | Res.diverge => Res.diverge
    | Res.panic e g1 => Res.panic e g1
    | Res.ok v g1 => Res.ok () (g1.NewRet b v)
  termination_by structural fuel => fuel

/-- Method `Generator.genExpr`: lowers the node a pointer designates into block `b`. -/
def genExpr : Nat → Generator → BlockRef → Ref → Map Expr → Map Ty → Res Value
  | 0, _, _, _, _, _ => Res.diverge
  | fuel + 1, g, b, expr, binds, typeMap =>
    match g.deref expr with
    | Expr.FuncCall FuncName ExprList =>
      match g.bindMap.lookup FuncName with
      | none => Res.panic Err.runtime g
      | some bind =>
        match mustGetImpl fuel g bind ExprList with
        | Res.diverge => Res.diverge
        | Res.panic e g1 => Res.panic e g1
        | Res.ok f g1 =>
          match genArgs fuel g1 b expr 0 (g1.exprList expr).length binds typeMap [] with
          | Res.diverge => Res.diverge
          | Res.panic e g2 => Res.panic e g2
          | Res.ok valueList g2 =>
            let vg := g2.emit b (Inst.call f valueList)
            Res.ok vg.1 vg.2
    | Expr.BinaryExpr _ _ Op =>
      match genExpr fuel g b (expr.child Step.L) binds typeMap with
      | Res.diverge => Res.diverge
      | Res.panic e g1 => Res.panic e g1
      | Res.ok x g1 =>
        match genExpr fuel g1 b (expr.child Step.R) binds typeMap with
        | Res.diverge => Res.diverge
        | Res.panic e g2 => Res.panic e g2
        | Res.ok y g2 =>
          match getType (g2.deref (expr.child Step.L)) typeMap with
          | Except.error e => Res.panic e g2
          | Except.ok lt? =>
            match getType (g2.deref (expr.child Step.R)) typeMap with
            | Except.error e => Res.panic e g2
            | Except.ok rt? =>
              match lt?, rt? with
              | some lt, some rt =>
                let key := genKeyByTypes Op [lt, rt]
                if g2.isBuiltIn key = true ∧ lt.name = "int" ∧ rt.name = "int" then
                  if Op = "+" then
                    let vg := g2.emit b (Inst.add x y)
                    Res.ok vg.1 vg.2
                  else if Op = "-" then
                    let vg := g2.emit b (Inst.sub x y)
                    Res.ok vg.1 vg.2
                  else if Op = "*" then
                    let vg := g2.emit b (Inst.mul x y)
                    Res.ok vg.1 vg.2
                  else if Op = "/" then
                    let vg := g2.emit b (Inst.sdiv x y)
                    Res.ok vg.1 vg.2
                  else Res.panic (Err.unsupportedOperator Op) g2
                else Res.panic (Err.unsupportedOperator Op) g2
              | _, _ => Res.panic Err.runtime g2
    | Expr.Ident Literal =>
      genExpr fuel g b (Ref.val ((binds.lookup Literal).getD Expr.nil)) binds typeMap
    | Expr.Int Literal => Res.ok (Value.const Literal) g
    | _ => Res.panic Err.failedGenExpr g
  termination_by structural fuel => fuel

/-- The loop of lines 163-166: lowers the expressions of the argument cells `i`, `i+1`, ... of
the call node, `n` of them, in order. -/
def genArgs : Nat → Generator → BlockRef → Ref → Nat → Nat → Map Expr → Map Ty → List Value →
    Res (List Value)
  | 0, _, _, _, _, _, _, _, _ => Res.diverge
  | _ + 1, g, _, _, _, 0, _, _, valueList => Res.ok valueList g
  | fuel + 1, g, b, expr, i, n + 1, binds, typeMap, valueList =>
    match genExpr fuel g b (expr.child (Step.arg i)) binds typeMap with
    | Res.diverge => Res.diverge
    | Res.panic e g1 => Res.panic e g1
    | Res.ok e g1 => genArgs fuel g1 b expr (i + 1) n binds typeMap (valueList ++ [e])
  termination_by structural fuel => fuel
end

/-- Method `Generator.Call`: specializes and drops the handle. -/
def Call (fuel : Nat) (g : Generator) (bind : Nat) (exprList : List Arg) : Res Unit :=
  match mustGetImpl fuel g bind exprList with
  | Res.diverge => Res.diverge
  | Res.panic e g1 => Res.panic e g1
  | Res.ok _ g1 => Res.ok () g1

/-- The state a call ended in, if it ended. -/
def Res.state? {α : Type} : Res α → Option Generator
  | Res.ok _ g => some g
  | Res.panic _ g => some g
  | Res.diverge => none

/-! ## Predicates used to state the properties -/

/-- Some position carries a non-empty label that is not the parameter at that position. -/
def labelMismatch (params : List String) (argList : List Arg) : Prop :=
  ∃ i a p, argList.get? i = some a ∧ params.get? i = some p ∧ a.Ident ≠ "" ∧ a.Ident ≠ p

/-- No call node occurs in the expression. -/
def Expr.callFree : Expr → Bool
  | Expr.FuncCall _ _ => false
  | Expr.BinaryExpr l r _ => l.callFree && r.callFree
  | Expr.ofArg (Arg.mk _ e) => e.callFree
  | _ => true

/-- The panics raised by `inferReturnType` itself at a node that is not a call. -/
def Err.inference : Err → Bool
  | Err.cantInfer _ => true
  | Err.unknownIdent _ => true
  | Err.unsupportedInference => true
  | _ => false

/-- The panics raised while lowering an expression that contains no call. -/
def Err.lowering : Err → Bool
  | Err.unsupportedOperator _ => true
  | Err.failedGenExpr => true
  | Err.typeOf => true
  | Err.runtime => true
  | _ => false

/-- The name and the parameter types of a declaration. -/
def Func.sig (f : Func) : String × List LLVMType := (f.name, f.Params.map Param.typ)

/-- The declarations of a module that the key of `name` and `typeList` designates: those with
that name and those parameter types. -/
def declsFor (m : Module) (name : String) (typeList : List Ty) : List Func :=
  m.filter (fun f => decide (f.sig = (name, typeList.map Ty.llvm)))

/-- State `g1` differs from `g` at most in the blocks of the functions of the module: the
binding objects, the table, both caches and the name and parameters of every declaration are
the same. -/
def Generator.sameButBlocks (g1 g : Generator) : Prop :=
  g1.heap = g.heap ∧ g1.bindMap = g.bindMap ∧ g1.implsOfBinding = g.implsOfBinding ∧
    g1.typMap = g.typMap ∧ g1.mod.map Func.sig = g.mod.map Func.sig

/-- The value a call returned, if it returned. -/
def Res.value? {α : Type} : Res α → Option α
  | Res.ok a _ => some a
  | _ => none

/-! ## The bindings of `binding_test.go` -/

/-- The binding `addOne y = add(1, y)`. -/
def addOneBinding : Binding :=
  { Name := "addOne", ParamList := ["y"],
    Expr := Expr.FuncCall "add" [NewArg "" (NewInt "1"), NewArg "" (NewIdent "y")] }

/-- The binding `add x y = x + y`. -/
def addBinding : Binding :=
  { Name := "add", ParamList := ["x", "y"],
    Expr := Expr.BinaryExpr (NewIdent "x") (NewIdent "y") "+" }

/-- The binding objects of the test, `addOne` at pointer 0 and `add` at pointer 1. -/
def bindings : List Binding := [addOneBinding, addBinding]

/-- The `bindMap` the test builds in `init`. -/
def bindMap : Map Nat := [("addOne", 0), ("add", 1)]

/-- An unlabeled integer-literal argument. -/
def intArg (lit : String) : Arg := NewArg "" (NewInt lit)

/-- The declaration the generator builds for `add` from the arguments `(1, 2)`. -/
def addDecl : Func :=
  { name := "add", retType := LLVMType.I64,
    Params := [⟨"", LLVMType.I64⟩, ⟨"", LLVMType.I64⟩],
    Blocks := [⟨[Inst.add (Value.const "1") (Value.const "2")], some (Value.inst 0)⟩] }

/-- The state after `Call(add, 1, 2)` on the fresh generator of the test. -/
def afterAdd : Generator :=
  { mod := [addDecl], heap := bindings, bindMap := bindMap,
    implsOfBinding := [("add(int,int)", 0)],
    typMap := [("+(int,int)", Ty.Int), ("add(int,int)", Ty.Int)] }

/-! ## Further bindings used as examples -/

/-- The binding `assert that should_be = that + should_be`. -/
def assertBinding : Binding :=
  { Name := "assert", ParamList := ["that", "should_be"],
    Expr := Expr.BinaryExpr (NewIdent "that") (NewIdent "should_be") "+" }

/-- The binding `tests = assert(should_be: 1, that: 1)`: the labels are at the wrong positions. -/
def testsBinding : Binding :=
  { Name := "tests", ParamList := [],
    Expr := Expr.FuncCall "assert" [NewArg "should_be" (NewInt "1"), NewArg "that" (NewInt "1")] }

/-- A fresh generator over the table of `assert` (pointer 0) and `tests` (pointer 1). -/
def assertStart : Generator := New [assertBinding, testsBinding] [("assert", 0), ("tests", 1)]

/-- The binding `callsNope x = nope(x)`; no binding is named `nope`. -/
def callsNope : Binding :=
  { Name := "callsNope", ParamList := ["x"],
    Expr := Expr.FuncCall "nope" [NewArg "" (NewIdent "x")] }

/-- The binding `addThenNope x = add(1, x) + nope(x)`; no binding is named `nope`. -/
def addThenNope : Binding :=
  { Name := "addThenNope", ParamList := ["x"],
    Expr := Expr.BinaryExpr (Expr.FuncCall "add" [NewArg "" (NewInt "1"), NewArg "" (NewIdent "x")])
      (Expr.FuncCall "nope" [NewArg "" (NewIdent "x")]) "+" }

/-- A fresh generator over the table of `add` (pointer 0), `addThenNope` (1) and
`callsNope` (2). -/
def nopeStart : Generator :=
  New [addBinding, addThenNope, callsNope] [("add", 0), ("addThenNope", 1), ("callsNope", 2)]

/-- The state in which `Call(addThenNope, 2)` on `nopeStart` panics. -/
def nopeAfter : Generator :=
  { mod := [addDecl],
    heap := [addBinding,
             { Name := "addThenNope", ParamList := ["x"],
               Expr := Expr.BinaryExpr
                 (Expr.FuncCall "add" [NewArg "" (NewInt "1"), NewArg "" (NewInt "2")])
                 (Expr.FuncCall "nope" [NewArg "" (NewIdent "x")]) "+" },
             callsNope],
    bindMap := [("add", 0), ("addThenNope", 1), ("callsNope", 2)],
    implsOfBinding := [("add(int,int)", 0)],
    typMap := [("+(int,int)", Ty.Int), ("add(int,int)", Ty.Int)] }

/-- The binding `useZ x = z`: the body names an identifier that is no parameter. -/
def useZ : Binding := { Name := "useZ", ParamList := ["x"], Expr := NewIdent "z" }

/-- The state after `Call(addOne, a)` on the fresh generator of the test: `add` is declared
first, by the nested request, then `addOne`; the body of `addOne` in the table has its
argument `y` replaced by the literal. -/
def afterAddOne (a : String) : Generator :=
  { mod := [{ name := "add", retType := LLVMType.I64,
              Params := [⟨"", LLVMType.I64⟩, ⟨"", LLVMType.I64⟩],
              Blocks := [⟨[Inst.add (Value.const "1") (Value.const a)], some (Value.inst 0)⟩] },
            { name := "addOne", retType := LLVMType.I64, Params := [⟨"", LLVMType.I64⟩],
              Blocks := [⟨[Inst.call 0 [Value.const "1", Value.const a]], some (Value.inst 0)⟩] }],
    heap := [{ Name := "addOne", ParamList := ["y"],
               Expr := Expr.FuncCall "add" [NewArg "" (NewInt "1"), NewArg "" (NewInt a)] },
             addBinding],
    bindMap := bindMap,
    implsOfBinding := [("add(int,int)", 0), ("addOne(int)", 1)],
    typMap := [("+(int,int)", Ty.Int), ("add(int,int)", Ty.Int), ("addOne(int)", Ty.Int)] }

/-- The binding `f x y = x op y`. -/
def arith (op : String) : Binding :=
  { Name := "f", ParamList := ["x", "y"], Expr := Expr.BinaryExpr (NewIdent "x") (NewIdent "y") op }

/-- A fresh generator whose table holds `f x y = x op y` (pointer 0). -/
def arithStart (op : String) : Generator := New [arith op] [("f", 0)]

/-- The declaration of `f` with one instruction on the constants `1` and `2`. -/
def arithDecl (i : Inst) : Func :=
  { name := "f", retType := LLVMType.I64, Params := [⟨"", LLVMType.I64⟩, ⟨"", LLVMType.I64⟩],
    Blocks := [⟨[i], some (Value.inst 0)⟩] }

/-- The binding `i = 1`, the first binding of `builder_test.go`. -/
def iBinding (lit : String) : Binding := { Name := "i", ParamList := [], Expr := NewInt lit }

/-! ## Consistency of the states a generator goes through -/

/-- Function `h` of the module has exactly one block. -/
def Generator.oneBlockAt (g : Generator) (h : FuncRef) : Prop :=
  ∃ fn blk, g.mod.get? h = some fn ∧ fn.Blocks = [blk]

/-- Function `h` of the module has exactly one block and the block ends in a return: its
terminator is set (instructions are never terminators, so the return is the last thing in
the block and the only return). -/
def Generator.completeAt (g : Generator) (h : FuncRef) : Prop :=
  ∃ fn blk v, g.mod.get? h = some fn ∧ fn.Blocks = [blk] ∧ blk.Term = some v

/-- Every call instruction of every block of the module targets a function of the module. -/
def Generator.callsBelow (g : Generator) : Prop :=
  ∀ fn ∈ g.mod, ∀ blk ∈ fn.Blocks, ∀ c args, Inst.call c args ∈ blk.Insts → c < g.mod.length

/-- Forward consistency: every handle in the implementation cache is a function of the module
whose single block ends in a return, and every call instruction targets a function of the
module. -/
def Generator.consistent (g : Generator) : Prop :=
  (∀ k h, g.implsOfBinding.lookup k = some h → h < g.mod.length ∧ g.completeAt h) ∧ g.callsBelow

/-- State `g1` comes after `g`: it is consistent, the module has not shrunk, functions with
one block still have one, complete functions are still complete and cached keys are still
cached. -/
def Generator.after (g1 g : Generator) : Prop :=
  g1.consistent ∧ g.mod.length ≤ g1.mod.length ∧
    (∀ h, g.oneBlockAt h → g1.oneBlockAt h) ∧
    (∀ h, g.completeAt h → g1.completeAt h) ∧
    (∀ k, (g.implsOfBinding.lookup k).isSome = true → (g1.implsOfBinding.lookup k).isSome = true)

/-- Every function that `g1` has beyond those of `g` is complete. -/
def Generator.newComplete (g g1 : Generator) : Prop :=
  ∀ h, g.mod.length ≤ h → h < g1.mod.length → g1.completeAt h

/-- A property of the outcome of a call: `P` of the state for a return or a panic, and `Q` of
the value and the state for a return. -/
def Res.holds {α : Type} (r : Res α) (P : Generator → Prop) (Q : α → Generator → Prop) : Prop :=
  match r with
  | Res.ok a g => P g ∧ Q a g
  | Res.panic _ g => P g
  | Res.diverge => True

/-- States reached from `g` by specialize requests, each run to its return or to its panic. -/
inductive Reaches (g : Generator) : Generator → Prop where
  | refl : Reaches g g
  | call (g1 g2 : Generator) (fuel bind : Nat) (argList : List Arg) :
      Reaches g g1 → (mustGetImpl fuel g1 bind argList).state? = some g2 → Reaches g g2

/-- States reachable from a fresh generator. -/
def Reachable (g : Generator) : Prop :=
  ∃ heap bindMap, Reaches (New heap bindMap) g

/-- What a run of `mustGetImpl` with the given fuel does to a consistent state: the state it
ends in (return or panic) comes after the start state; on a return every function added is
complete and the handle is a complete function of the module. -/
def MustGetImplAfter (fuel : Nat) : Prop :=
  ∀ (g : Generator) (bind : Nat) (argList : List Arg), g.consistent →
    (mustGetImpl fuel g bind argList).holds (fun g1 => g1.after g)
      (fun f g1 => g.newComplete g1 ∧ f < g1.mod.length ∧ g1.completeAt f)

/-- The same for `inferReturnType`. -/
def InferAfter (fuel : Nat) : Prop :=
  ∀ (g : Generator) (bind : Nat) (path : List Step) (binds : Map Expr) (typeMap : Map Ty),
    g.consistent →
    (inferReturnType fuel g bind path binds typeMap).holds (fun g1 => g1.after g)
      (fun _ g1 => g.newComplete g1)

/-- The same for `funcBody` on block 0 of a function with one block: on a return that
function is complete. -/
def FuncBodyAfter (fuel : Nat) : Prop :=
  ∀ (g : Generator) (b : BlockRef) (r : Ref) (binds : Map Expr) (typeMap : Map Ty),
    g.consistent → b.block = 0 → g.oneBlockAt b.func →
    (funcBody fuel g b r binds typeMap).holds (fun g1 => g1.after g)
      (fun _ g1 => g.newComplete g1 ∧ g1.completeAt b.func)

/-- The same for `genExpr`. -/
def GenExprAfter (fuel : Nat) : Prop :=
  ∀ (g : Generator) (b : BlockRef) (r : Ref) (binds : Map Expr) (typeMap : Map Ty),
    g.consistent →
    (genExpr fuel g b r binds typeMap).holds (fun g1 => g1.after g)
      (fun _ g1 => g.newComplete g1)

/-- The same for `genArgs`. -/
def GenArgsAfter (fuel : Nat) : Prop :=
  ∀ (g : Generator) (b : BlockRef) (r : Ref) (i n : Nat) (binds : Map Expr) (typeMap : Map Ty)
    (valueList : List Value), g.consistent →
    (genArgs fuel g b r i n binds typeMap valueList).holds (fun g1 => g1.after g)
      (fun _ g1 => g.newComplete g1)

/-! ## Bindings, states and predicates of the later properties -/

/-- The key of a declaration with the given name and parameter types: the name and one int per
parameter (int is the only type `types.TypeOf` returns). -/
def sigKey (s : String × List LLVMType) : String :=
  genKeyByTypes s.1 (s.2.map (fun _ => Ty.Int))

/-- The condition on a canonical type name: it is not empty and contains none of the
characters `(`, `,` and `)`. -/
def plainName (s : String) : Prop :=
  s ≠ "" ∧ ∀ c ∈ s.data, c ≠ '(' ∧ c ≠ ',' ∧ c ≠ ')'

/-- The binding `n p = n(e)`: its body calls the binding itself with one unlabeled argument. -/
def selfCall (n p : String) (e : Expr) : Binding :=
  { Name := n, ParamList := [p], Expr := Expr.FuncCall n [Arg.mk "" e] }

/-- The binding `f x = f(x)`. -/
def selfCallF : Binding := selfCall "f" "x" (NewIdent "x")

/-! ## What a run leaves of the module it started with -/

/-- The declaration is finished: it has exactly one block and that block has its terminator,
the return that `funcBody` adds after the body was lowered. -/
def Func.finished (fn : Func) : Bool :=
  match fn.Blocks.map Block.Term with
  | [some _] => true
  | _ => false

/-- The expression without the expressions of the arguments of its calls: what no request can
change in a binding body (line 103 overwrites argument expressions only). -/
def Expr.skel : Expr → Expr
  | Expr.FuncCall n args => Expr.FuncCall n (args.map (fun a => Arg.mk a.Ident Expr.nil))
  | Expr.BinaryExpr l r op => Expr.BinaryExpr l.skel r.skel op
  | Expr.ofArg _ => Expr.ofArg (Arg.mk "" Expr.nil)
  | e => e

/-- Every binding object of `g` is still at its place in `g1`, with its name, its parameters
and its body up to the expressions of the arguments of calls. -/
def Generator.bodiesFrom (g1 g : Generator) : Prop :=
  ∀ i b, g.heap.get? i = some b → ∃ b', g1.heap.get? i = some b' ∧ b'.Name = b.Name ∧
    b'.ParamList = b.ParamList ∧ b'.Expr.skel = b.Expr.skel

/-- Every key that the type cache of `g1` holds was in the type cache of `g` or is the key of
a declaration that `g` did not have yet. -/
def Generator.typesFrom (g1 g : Generator) : Prop :=
  ∀ k, (g1.typMap.lookup k).isSome = true → (g.typMap.lookup k).isSome = true ∨
    ∃ i fn, g.mod.length ≤ i ∧ g1.mod.get? i = some fn ∧ sigKey fn.sig = k

/-- State `g1` has grown from `g`, function `f` being under construction: the table and the
names of the binding objects are the same, every declaration of `g` is still at its place with
its name, its parameters and the terminators of its blocks, and is unchanged when it is not
`f`; the keys of the type cache and of the implementation cache are still there, and every
key the type cache gained is the key of a declaration the module gained; the binding bodies
differ at most in the argument expressions of their calls. -/
def Generator.grownFromAt (g1 g : Generator) (f : FuncRef) : Prop :=
  g1.bindMap = g.bindMap ∧ g1.heap.map Binding.Name = g.heap.map Binding.Name ∧
  g.mod.length ≤ g1.mod.length ∧
  (∀ i fn, g.mod.get? i = some fn → ∃ fn', g1.mod.get? i = some fn' ∧ fn'.sig = fn.sig ∧
    fn'.Blocks.map Block.Term = fn.Blocks.map Block.Term ∧ (i ≠ f → fn' = fn)) ∧
  (∀ k, (g.typMap.lookup k).isSome = true → (g1.typMap.lookup k).isSome = true) ∧
  (∀ k, (g.implsOfBinding.lookup k).isSome = true → (g1.implsOfBinding.lookup k).isSome = true) ∧
  g1.typesFrom g ∧ g1.bodiesFrom g

/-- State `g1` has grown from `g`: as `grownFromAt`, and every declaration of `g` is
unchanged. -/
def Generator.grownFrom (g1 g : Generator) : Prop :=
  g1.bindMap = g.bindMap ∧ g1.heap.map Binding.Name = g.heap.map Binding.Name ∧
  g.mod.length ≤ g1.mod.length ∧
  (∀ i fn, g.mod.get? i = some fn → g1.mod.get? i = some fn) ∧
  (∀ k, (g.typMap.lookup k).isSome = true → (g1.typMap.lookup k).isSome = true) ∧
  (∀ k, (g.implsOfBinding.lookup k).isSome = true → (g1.implsOfBinding.lookup k).isSome = true) ∧
  g1.typesFrom g ∧ g1.bodiesFrom g

/-- A property of the state a call ended in, by a return or by a panic. -/
def Res.ends {α : Type} (r : Res α) (P : Generator → Prop) : Prop :=
  match r with
  | Res.ok _ g => P g
  | Res.panic _ g => P g
  | Res.diverge => True

/-- A property of the state in which `funcBody` panicked, or of the state in which lowering
returned, to which `funcBody` then added the return. -/
def Res.endsBeforeRet (r : Res Unit) (b : BlockRef) (P : Generator → Prop) : Prop :=
  match r with
  | Res.ok _ g1 => ∃ v g5, g1 = g5.NewRet b v ∧ P g5
  | Res.panic _ g1 => P g1
  | Res.diverge => True

/-- A run of `mustGetImpl` leaves every declaration it found as it was. -/
def MustGetImplFrame (fuel : Nat) : Prop :=
  ∀ (g : Generator) (bind : Nat) (argList : List Arg),
    (mustGetImpl fuel g bind argList).ends (fun g1 => g1.grownFrom g)

/-- The same for `inferReturnType`. -/
def InferFrame (fuel : Nat) : Prop :=
  ∀ (g : Generator) (bind : Nat) (path : List Step) (binds : Map Expr) (typeMap : Map Ty),
    (inferReturnType fuel g bind path binds typeMap).ends (fun g1 => g1.grownFrom g)

/-- A run of `funcBody` changes, of the declarations it found, only the blocks of the function
it lowers into, and up to the return it adds it leaves the terminators as they were. -/
def FuncBodyFrame (fuel : Nat) : Prop :=
  ∀ (g : Generator) (b : BlockRef) (r : Ref) (binds : Map Expr) (typeMap : Map Ty),
    (funcBody fuel g b r binds typeMap).endsBeforeRet b (fun g1 => g1.grownFromAt g b.func)

/-- The same for `genExpr`. -/
def GenExprFrame (fuel : Nat) : Prop :=
  ∀ (g : Generator) (b : BlockRef) (r : Ref) (binds : Map Expr) (typeMap : Map Ty),
    (genExpr fuel g b r binds typeMap).ends (fun g1 => g1.grownFromAt g b.func)

/-- The same for `genArgs`. -/
def GenArgsFrame (fuel : Nat) : Prop :=
  ∀ (g : Generator) (b : BlockRef) (r : Ref) (i n : Nat) (binds : Map Expr) (typeMap : Map Ty)
    (valueList : List Value),
    (genArgs fuel g b r i n binds typeMap valueList).ends (fun g1 => g1.grownFromAt g b.func)

/-! ## Tables without cycles and the invariant of their generators -/

/-- Every call in the expression is to a name of positive rank below `r`. -/
inductive Expr.Ranked (rank : String → Nat) (r : Nat) : Expr → Prop where
  | nil : Expr.Ranked rank r Expr.nil
  | int (lit : String) : Expr.Ranked rank r (Expr.Int lit)
  | ident (lit : String) : Expr.Ranked rank r (Expr.Ident lit)
  | binary (l r' : Expr) (op : String) : Expr.Ranked rank r l → Expr.Ranked rank r r' →
      Expr.Ranked rank r (Expr.BinaryExpr l r' op)
  | call (n : String) (args : List Arg) : 0 < rank n → rank n < r →
      (∀ a ∈ args, Expr.Ranked rank r (Arg.Expr a)) → Expr.Ranked rank r (Expr.FuncCall n args)
  | ofArg (a : Arg) : Expr.Ranked rank r (Arg.Expr a) → Expr.Ranked rank r (Expr.ofArg a)

/-- The table is well formed and `rank` orders it: every entry of the table is a binding of
that name; no binding name contains an opening parenthesis; and the calls in the body of a
binding of positive rank are to names of smaller positive rank, so such a binding never comes
back to itself through its calls.  Rank 0 is for the bindings of which nothing is assumed. -/
def rankedTable (rank : String → Nat) (heap : List Binding) (bindMap : Map Nat) : Prop :=
  (∀ n i bnd, bindMap.lookup n = some i → heap.get? i = some bnd → bnd.Name = n) ∧
  (∀ i bnd, heap.get? i = some bnd → '(' ∉ bnd.Name.data) ∧
  (∀ i bnd, heap.get? i = some bnd → 0 < rank bnd.Name →
    Expr.Ranked rank (rank bnd.Name) bnd.Expr)

/-- The invariant of a generator over a ranked table.  Besides the table conditions: no name of
a declaration contains an opening parenthesis; the key of every finished declaration is
cached; of two declarations with the same name and parameter types the earlier one is
unfinished; and every cached handle is a finished declaration whose key is the cached key. -/
structure Generator.Orderly (rank : String → Nat) (g : Generator) : Prop where
  table : rankedTable rank g.heap g.bindMap
  declNames : ∀ i fn, g.mod.get? i = some fn → '(' ∉ fn.name.data
  finishedCached : ∀ i fn, g.mod.get? i = some fn → fn.finished = true →
    (g.implsOfBinding.lookup (sigKey fn.sig)).isSome = true
  earlierUnfinished : ∀ i j fi fj, i < j → g.mod.get? i = some fi → g.mod.get? j = some fj →
    fi.sig = fj.sig → fi.finished = false
  cachedFinished : ∀ k f, g.implsOfBinding.lookup k = some f →
    ∃ fn, g.mod.get? f = some fn ∧ fn.finished = true ∧ sigKey fn.sig = k

/-- Every declaration that `g1` has beyond those of `g` has a name of rank below `R`. -/
def newBelow (rank : String → Nat) (g g1 : Generator) (R : Nat) : Prop :=
  ∀ i fn, g.mod.length ≤ i → g1.mod.get? i = some fn → rank fn.name < R

/-- The node a pointer designates belongs to a binding of positive rank `r`, or is a
caller-supplied expression whose calls are to names of positive rank below `r`. -/
def Generator.refRanked (rank : String → Nat) (g : Generator) (r : Nat) : Ref → Prop
  | Ref.body bind _ => ∀ bnd, g.heap.get? bind = some bnd → 0 < rank bnd.Name ∧ rank bnd.Name = r
  | Ref.val e => Expr.Ranked rank r e

/-- A run of `mustGetImpl` for a binding of positive rank below `R` keeps the invariant, and
the declarations it adds have names of rank below `R`. -/
def MustGetImplOnce (rank : String → Nat) (fuel : Nat) : Prop :=
  ∀ (g : Generator) (bind : Nat) (argList : List Arg) (R : Nat), g.Orderly rank →
    (∀ bnd, g.heap.get? bind = some bnd → 0 < rank bnd.Name ∧ rank bnd.Name < R) →
    (mustGetImpl fuel g bind argList).ends (fun g1 => g1.Orderly rank ∧ newBelow rank g g1 R)

/-- The same for `inferReturnType` in the body of a binding of positive rank `r`. -/
def InferOnce (rank : String → Nat) (fuel : Nat) : Prop :=
  ∀ (g : Generator) (bind : Nat) (path : List Step) (binds : Map Expr) (typeMap : Map Ty)
    (r : Nat), g.Orderly rank → g.refRanked rank r (Ref.body bind path) →
    (∀ k e, binds.lookup k = some e → e.callFree = true) →
    (inferReturnType fuel g bind path binds typeMap).ends
      (fun g1 => g1.Orderly rank ∧ newBelow rank g g1 r)

/-- The same for `funcBody`, up to the return it adds. -/
def FuncBodyOnce (rank : String → Nat) (fuel : Nat) : Prop :=
  ∀ (g : Generator) (b : BlockRef) (ref : Ref) (binds : Map Expr) (typeMap : Map Ty)
    (r : Nat), g.Orderly rank → g.refRanked rank r ref →
    (∀ k e, binds.lookup k = some e → e.callFree = true) →
    (funcBody fuel g b ref binds typeMap).endsBeforeRet b
      (fun g1 => g1.Orderly rank ∧ newBelow rank g g1 r ∧ g1.grownFromAt g b.func)

/-- The same for `genExpr`. -/
def GenExprOnce (rank : String → Nat) (fuel : Nat) : Prop :=
  ∀ (g : Generator) (b : BlockRef) (ref : Ref) (binds : Map Expr) (typeMap : Map Ty)
    (r : Nat), g.Orderly rank → g.refRanked rank r ref →
    (∀ k e, binds.lookup k = some e → e.callFree = true) →
    (genExpr fuel g b ref binds typeMap).ends
      (fun g1 => g1.Orderly rank ∧ newBelow rank g g1 r)

/-- The same for `genArgs`. -/
def GenArgsOnce (rank : String → Nat) (fuel : Nat) : Prop :=
  ∀ (g : Generator) (b : BlockRef) (ref : Ref) (i n : Nat) (binds : Map Expr)
    (typeMap : Map Ty) (valueList : List Value) (r : Nat), g.Orderly rank →
    g.refRanked rank r ref → (∀ k e, binds.lookup k = some e → e.callFree = true) →
    (genArgs fuel g b ref i n binds typeMap valueList).ends
      (fun g1 => g1.Orderly rank ∧ newBelow rank g g1 r)

/-- States reached from `g` by specialize requests for bindings of positive rank, each run to
its return or to its panic. -/
inductive ReachesRanked (rank : String → Nat) (g : Generator) : Generator → Prop where
  | refl : ReachesRanked rank g g
  | call (g1 g2 : Generator) (fuel bind : Nat) (argList : List Arg) :
      ReachesRanked rank g g1 → (∀ bnd, g1.heap.get? bind = some bnd → 0 < rank bnd.Name) →
      (mustGetImpl fuel g1 bind argList).state? = some g2 → ReachesRanked rank g g2

/-! ## Bodies a request can succeed on, and tables of plain calls -/

/-- The expression is an identifier. -/
def Expr.isIdent : Expr → Bool
  | Expr.Ident _ => true
  | _ => false

/-- The expression is an integer literal. -/
def Expr.isInt : Expr → Bool
  | Expr.Int _ => true
  | _ => false

/-- The expression is a call or a binary expression: what `types.TypeOf` is not defined on
and `inferReturnType` descends into. -/
def Expr.isNode : Expr → Bool
  | Expr.FuncCall _ _ => true
  | Expr.BinaryExpr _ _ _ => true
  | _ => false

/-- One of the four operators that `genExpr` has an instruction for (lines 178-185). -/
def lowersOp (op : String) : Bool := op == "+" || op == "-" || op == "*" || op == "/"

/-- The body is one of those on which a request can succeed: an identifier, a call, or one of
the four arithmetic operators applied to two identifiers.  (A literal is not inferred, and an
operand that is a call or a binary expression is passed to `types.TypeOf` by `getType`.) -/
def Expr.flat : Expr → Bool
  | Expr.Ident _ => true
  | Expr.FuncCall _ _ => true
  | Expr.BinaryExpr l r op => l.isIdent && r.isIdent && lowersOp op
  | _ => false

/-- An argument expression as the parser or line 103 leaves it in a call: an identifier, an
integer literal, or nil (an identifier that had no value). -/
def Expr.plainArg : Expr → Bool
  | Expr.Ident _ => true
  | Expr.Int _ => true
  | Expr.nil => true
  | _ => false

/-- Every call in the expression has plain arguments, and no argument cell stands where an
expression is expected. -/
def Expr.plain : Expr → Bool
  | Expr.FuncCall _ args => args.all (fun a => a.Expr.plainArg)
  | Expr.BinaryExpr l r _ => l.plain && r.plain
  | Expr.ofArg _ => false
  | _ => true

/-- The table is well formed and plain: a name leads to a binding object of that name, and
every body is plain. -/
def Generator.tidy (g : Generator) : Prop :=
  (∀ n i b, g.bindMap.lookup n = some i → g.heap.get? i = some b → b.Name = n) ∧
  (∀ i b, g.heap.get? i = some b → b.Expr.plain = true)

/-- The entry of the name in the Binding Table has a body on which no request can succeed. -/
def Generator.doomed (g : Generator) (n : String) : Prop :=
  ∀ i b, g.bindMap.lookup n = some i → g.heap.get? i = some b → b.Expr.flat = false

/-- The entry of the name in the Binding Table has a body on which a request can succeed. -/
def Generator.blessed (g : Generator) (n : String) : Prop :=
  ∀ i b, g.bindMap.lookup n = some i → g.heap.get? i = some b → b.Expr.flat = true

/-- Every declaration that `g1` has and `g` had not is, when unfinished, that of a binding on
which no request can succeed and, when finished, that of a binding on which one can. -/
def leftovers (g g1 : Generator) : Prop :=
  ∀ i fn, g.mod.length ≤ i → g1.mod.get? i = some fn →
    (fn.finished = false → g1.doomed fn.name) ∧ (fn.finished = true → g1.blessed fn.name)

/-- The same of every declaration of the module. -/
def Generator.sorted (g : Generator) : Prop :=
  ∀ i fn, g.mod.get? i = some fn →
    (fn.finished = false → g.doomed fn.name) ∧ (fn.finished = true → g.blessed fn.name)

/-- Every value of the substitution environment is an integer literal. -/
def literalBinds (binds : Map Expr) : Prop :=
  ∀ k e, binds.lookup k = some e → e.isInt = true

/-- A run of `mustGetImpl` for an entry of a tidy table, with plain arguments, keeps the table
tidy, and the declarations it adds are unfinished only for bindings on which no request can
succeed, finished only for bindings on which one can. -/
def MustGetImplFlat (fuel : Nat) : Prop :=
  ∀ (g : Generator) (bind : Nat) (argList : List Arg), g.tidy →
    (∀ bnd, g.heap.get? bind = some bnd → g.bindMap.lookup bnd.Name = some bind) →
    (∀ a ∈ argList, a.Expr.plainArg = true) →
    (mustGetImpl fuel g bind argList).ends (fun g1 => g1.tidy ∧ leftovers g g1)

/-- The same for `inferReturnType`, the arguments of the request being integer literals. -/
def InferFlat (fuel : Nat) : Prop :=
  ∀ (g : Generator) (bind : Nat) (path : List Step) (binds : Map Expr) (typeMap : Map Ty),
    g.tidy → literalBinds binds →
    (inferReturnType fuel g bind path binds typeMap).ends
      (fun g1 => g1.tidy ∧ leftovers g g1)

/-- The same for `funcBody`, lowering into a block of a function that is declared. -/
def FuncBodyFlat (fuel : Nat) : Prop :=
  ∀ (g : Generator) (b : BlockRef) (ref : Ref) (binds : Map Expr) (typeMap : Map Ty),
    g.tidy → literalBinds binds → (∀ e, ref = Ref.val e → e.plain = true) →
    b.func < g.mod.length →
    (funcBody fuel g b ref binds typeMap).ends (fun g1 => g1.tidy ∧ leftovers g g1)

/-- The same for `genExpr`. -/
def GenExprFlat (fuel : Nat) : Prop :=
  ∀ (g : Generator) (b : BlockRef) (ref : Ref) (binds : Map Expr) (typeMap : Map Ty),
    g.tidy → literalBinds binds → (∀ e, ref = Ref.val e → e.plain = true) →
    b.func < g.mod.length →
    (genExpr fuel g b ref binds typeMap).ends (fun g1 => g1.tidy ∧ leftovers g g1)

/-- The same for `genArgs`. -/
def GenArgsFlat (fuel : Nat) : Prop :=
  ∀ (g : Generator) (b : BlockRef) (ref : Ref) (i n : Nat) (binds : Map Expr)
    (typeMap : Map Ty) (valueList : List Value),
    g.tidy → literalBinds binds → (∀ e, ref = Ref.val e → e.plain = true) →
    b.func < g.mod.length →
    (genArgs fuel g b ref i n binds typeMap valueList).ends
      (fun g1 => g1.tidy ∧ leftovers g g1)

/-- States reached from `g` by specialize requests for entries of the Binding Table that have
positive rank, with integer literals as arguments, each run to its return or to its panic. -/
inductive ReachesLiteral (rank : String → Nat) (g : Generator) : Generator → Prop where
  | refl : ReachesLiteral rank g g
  | call (g1 g2 : Generator) (fuel bind : Nat) (argList : List Arg) (bnd : Binding) :
      ReachesLiteral rank g g1 → g1.heap.get? bind = some bnd → 0 < rank bnd.Name →
      g1.bindMap.lookup bnd.Name = some bind → (∀ a ∈ argList, a.Expr.isInt = true) →
      (mustGetImpl fuel g1 bind argList).state? = some g2 → ReachesLiteral rank g g2

/-- A rank for the table of the test: `add` calls nothing, `addOne` calls `add`. -/
def testRank (n : String) : Nat :=
  if n = "add" then 1 else if n = "addOne" then 2 else 0

/-- The binding `% x y = x + y`: a user-defined operator on two ints. -/
def pctBinding : Binding :=
  { Name := "%", ParamList := ["x", "y"],
    Expr := Expr.BinaryExpr (NewIdent "x") (NewIdent "y") "+" }

/-- The binding `rem x y = x % y`. -/
def remBinding : Binding :=
  { Name := "rem", ParamList := ["x", "y"],
    Expr := Expr.BinaryExpr (NewIdent "x") (NewIdent "y") "%" }

/-- A fresh generator over the table of `%` (pointer 0) and `rem` (pointer 1). -/
def remStart : Generator := New [pctBinding, remBinding] [("%", 0), ("rem", 1)]

/-- A rank for the table of `%` and `rem`: neither body makes a call. -/
def remRank (n : String) : Nat :=
  if n = "%" then 1 else if n = "rem" then 1 else 0

/-- The declaration of `%` built from the arguments `(1, 2)`. -/
def pctDecl : Func :=
  { name := "%", retType := LLVMType.I64,
    Params := [⟨"", LLVMType.I64⟩, ⟨"", LLVMType.I64⟩],
    Blocks := [⟨[Inst.add (Value.const "1") (Value.const "2")], some (Value.inst 0)⟩] }

/-- The declaration of `rem` that a failed request leaves: no instruction, no return. -/
def remDecl : Func :=
  { name := "rem", retType := LLVMType.I64,
    Params := [⟨"", LLVMType.I64⟩, ⟨"", LLVMType.I64⟩],
    Blocks := [⟨[], none⟩] }

/-- The state after `Call(%, 1, 2)` on `remStart`: the type of `%(int,int)` is registered. -/
def remReady : Generator :=
  { remStart with
    mod := [pctDecl],
    implsOfBinding := [("%(int,int)", 0)],
    typMap := [("+(int,int)", Ty.Int), ("%(int,int)", Ty.Int)] }

/-- The state in which `Call(rem, 1, 2)` on `remReady` panics. -/
def remFailed : Generator :=
  { remReady with
    mod := [pctDecl, remDecl],
    typMap := [("+(int,int)", Ty.Int), ("%(int,int)", Ty.Int), ("rem(int,int)", Ty.Int)] }

/-- The state in which the retry of `Call(rem, 1, 2)` on `remFailed` panics. -/
def remFailedTwice : Generator :=
  { remFailed with mod := [pctDecl, remDecl, remDecl] }

/-- The binding `viaZ x = useZ(x)`. -/
def viaZ : Binding :=
  { Name := "viaZ", ParamList := ["x"], Expr := Expr.FuncCall "useZ" [NewArg "" (NewIdent "x")] }

/-- A fresh generator over the table of `useZ` (pointer 0) and `viaZ` (pointer 1). -/
def zStart : Generator := New [useZ, viaZ] [("useZ", 0), ("viaZ", 1)]

/-- A rank for the table of `useZ` and `viaZ`: `viaZ` calls `useZ`. -/
def zRank (n : String) : Nat :=
  if n = "useZ" then 1 else if n = "viaZ" then 2 else 0

/-- The state in which `Call(viaZ, 1)` on `zStart` panics: the argument of the call in the
body of `viaZ` is replaced by the literal. -/
def zFailed : Generator :=
  { zStart with
    heap := [useZ, { viaZ with Expr := Expr.FuncCall "useZ" [NewArg "" (NewInt "1")] }] }

/-! ## Bindings that call themselves -/

/-- The expression is one of the parameters. -/
def isParam (ps : List String) : Expr → Bool
  | Expr.Ident q => ps.contains q
  | _ => false

/-- An argument cell that a call of a binding with parameters `all` can carry at the position
of parameter `p` without failing: its label is empty or `p`, and its expression is one of the
parameters of the caller or has a type. -/
def argReenters (all : List String) (p : String) (a : Arg) : Bool :=
  (a.Ident == "" || a.Ident == p) &&
    (match a.Expr with
     | Expr.Ident q => all.contains q
     | e => (TypeOf e).isSome)

/-- The argument cells are as many as the parameters and each is acceptable at its
position. -/
def argsReenter (all : List String) : List String → List Arg → Bool
  | [], [] => true
  | p :: ps, a :: as => argReenters all p a && argsReenter all ps as
  | _, _ => false

/-- Inference of the expression, in the body of a binding with parameters `ps`, reaches a call
of a member of the family `fam` (names with their parameter lists) before anything that can
fail: the expression is a call of a member (with one acceptable argument per parameter of the
member), or a binary expression whose left operand reaches one, or whose left operand is a
parameter and whose right operand reaches one. -/
def Expr.reenters (fam : List (String × List String)) (ps : List String) : Expr → Bool
  | Expr.FuncCall m args => fam.any (fun mp => mp.1 == m && argsReenter ps mp.2 args)
  | Expr.BinaryExpr l r _ => l.reenters fam ps || (isParam ps l && r.reenters fam ps)
  | _ => false

/-- The path leads from the expression to a node that reaches a call of a member of the family,
through binary expressions only, and wherever it enters a right operand the left operand is a
parameter. -/
def Expr.spine (fam : List (String × List String)) (ps : List String) : Expr → List Step → Bool
  | e, [] => e.reenters fam ps
  | Expr.BinaryExpr l _ _, Step.L :: p => l.spine fam ps p
  | Expr.BinaryExpr l r _, Step.R :: p => isParam ps l && r.spine fam ps p
  | _, _ => false

/-- The family is closed in the generator state: every member is the entry of its name in the
Binding Table, has the listed parameters and a body that reaches a call of a member, and its
key for integer arguments is not in the implementation cache.  A binding that calls itself is
such a family on its own. -/
def Generator.cyclic (g : Generator) (fam : List (String × List String)) : Prop :=
  ∀ m ps, (m, ps) ∈ fam → ∃ i bnd, g.bindMap.lookup m = some i ∧ g.heap.get? i = some bnd ∧
    bnd.Name = m ∧ bnd.ParamList = ps ∧ bnd.Expr.reenters fam ps = true ∧
    g.implsOfBinding.lookup (genKeyByTypes m (ps.map (fun _ => Ty.Int))) = none

/-- The binding `f x = z + f(x)`: the left operand names an identifier that is no parameter. -/
def selfAfterZ : Binding :=
  { Name := "f", ParamList := ["x"],
    Expr := Expr.BinaryExpr (NewIdent "z") (Expr.FuncCall "f" [NewArg "" (NewIdent "x")]) "+" }

/-- The binding `f x = f(y: x)`: the call labels its argument with a name that is not the
parameter. -/
def selfMislabeled : Binding :=
  { Name := "f", ParamList := ["x"],
    Expr := Expr.FuncCall "f" [NewArg "y" (NewIdent "x")] }

/-- The binding `f x = x + f(x: x)`. -/
def selfAfterParam : Binding :=
  { Name := "f", ParamList := ["x"],
    Expr := Expr.BinaryExpr (NewIdent "x") (Expr.FuncCall "f" [NewArg "x" (NewIdent "x")]) "+" }

/-- The binding `ping x = pong(x, 1)`. -/
def pingBinding : Binding :=
  { Name := "ping", ParamList := ["x"],
    Expr := Expr.FuncCall "pong" [NewArg "" (NewIdent "x"), NewArg "" (NewInt "1")] }

/-- The binding `pong a b = a + ping(b)`. -/
def pongBinding : Binding :=
  { Name := "pong", ParamList := ["a", "b"],
    Expr := Expr.BinaryExpr (NewIdent "a") (Expr.FuncCall "ping" [NewArg "" (NewIdent "b")]) "+" }

/-- A fresh generator over `ping` and `pong`. -/
def pingStart : Generator := New [pingBinding, pongBinding] [("ping", 0), ("pong", 1)]

/-- The expression calls a binding of the list outside the arguments of a call: it is a call
of one, or a binary expression with such an operand.  These are the calls that
`inferReturnType` comes to unless it panics before. -/
def Expr.callsInto (names : List String) : Expr → Bool
  | Expr.FuncCall m _ => names.contains m
  | Expr.BinaryExpr l r _ => l.callsInto names || r.callsInto names
  | _ => false

/-- The listed bindings call each other in the generator state: the table is well formed (a
name leads to a binding object of that name, no binding name contains an opening
parenthesis), every listed name is in the table with a body that calls a listed binding
outside the arguments of a call, and no key of a listed name is in the implementation cache.
A binding that calls itself is such a list on its own. -/
def Generator.snared (g : Generator) (names : List String) : Prop :=
  (∀ n i bnd, g.bindMap.lookup n = some i → g.heap.get? i = some bnd → bnd.Name = n) ∧
  (∀ i bnd, g.heap.get? i = some bnd → '(' ∉ bnd.Name.data) ∧
  (∀ m ∈ names, ∃ i bnd, g.bindMap.lookup m = some i ∧ g.heap.get? i = some bnd ∧
    bnd.Expr.callsInto names = true) ∧
  (∀ m ∈ names, ∀ l : List LLVMType, g.implsOfBinding.lookup (sigKey (m, l)) = none)

/-- A property of the state a call ended in, by a return or by a panic, and a condition that
holds when the call returned. -/
def Res.endsAnd {α : Type} (r : Res α) (P : Generator → Prop) (Q : Prop) : Prop :=
  match r with
  | Res.ok _ g => P g ∧ Q
  | Res.panic _ g => P g
  | Res.diverge => True

/-- A run of `mustGetImpl` for an entry of the table keeps the listed bindings as they are, and
returns only if the binding is not a listed one. -/
def MustGetImplSnared (names : List String) (fuel : Nat) : Prop :=
  ∀ (g : Generator) (bind : Nat) (argList : List Arg), g.snared names →
    (∀ bnd, g.heap.get? bind = some bnd → g.bindMap.lookup bnd.Name = some bind) →
    (mustGetImpl fuel g bind argList).endsAnd (fun g1 => g1.snared names)
      (∀ bnd, g.heap.get? bind = some bnd → bnd.Name ∉ names)

/-- A run of `inferReturnType` keeps the listed bindings as they are, and at a node reached
through binary expressions it returns only if the node calls no listed binding. -/
def InferSnared (names : List String) (fuel : Nat) : Prop :=
  ∀ (g : Generator) (bind : Nat) (path : List Step) (binds : Map Expr) (typeMap : Map Ty),
    g.snared names →
    (inferReturnType fuel g bind path binds typeMap).endsAnd (fun g1 => g1.snared names)
      ((∀ s ∈ path, s = Step.L ∨ s = Step.R) →
        (g.deref (Ref.body bind path)).callsInto names = false)

/-- A run of `funcBody` keeps the listed bindings as they are. -/
def FuncBodySnared (names : List String) (fuel : Nat) : Prop :=
  ∀ (g : Generator) (b : BlockRef) (r : Ref) (binds : Map Expr) (typeMap : Map Ty),
    g.snared names → (funcBody fuel g b r binds typeMap).ends (fun g1 => g1.snared names)

/-- The same for `genExpr`. -/
def GenExprSnared (names : List String) (fuel : Nat) : Prop :=
  ∀ (g : Generator) (b : BlockRef) (r : Ref) (binds : Map Expr) (typeMap : Map Ty),
    g.snared names → (genExpr fuel g b r binds typeMap).ends (fun g1 => g1.snared names)

/-- The same for `genArgs`. -/
def GenArgsSnared (names : List String) (fuel : Nat) : Prop :=
  ∀ (g : Generator) (b : BlockRef) (r : Ref) (i n : Nat) (binds : Map Expr) (typeMap : Map Ty)
    (valueList : List Value),
    g.snared names →
    (genArgs fuel g b r i n binds typeMap valueList).ends (fun g1 => g1.snared names)

/-- The binding `f x = (x + x) + f(x)`: the left operand is inferred and has a type, then the
binding calls itself. -/
def selfAfterSum : Binding :=
  { Name := "f", ParamList := ["x"],
    Expr := Expr.BinaryExpr (Expr.BinaryExpr (NewIdent "x") (NewIdent "x") "+")
      (Expr.FuncCall "f" [NewArg "" (NewIdent "x")]) "+" }

/-! ## Lemmas -/

theorem Map.lookup_insert_self {α : Type} (m : Map α) (k : String) (v : α) :
    (Map.insert m k v).lookup k = some v := by
  induction m with
  | nil => simp [Map.insert, Map.lookup]
  | cons kv m ih =>
    obtain ⟨k', x⟩ := kv
    by_cases h : k' = k
    · simp [Map.insert, Map.lookup, h]
    · simp [Map.insert, Map.lookup, h, ih]

theorem mustGetImpl_cached (fuel : Nat) (g : Generator) (bind : Nat) (argList : List Arg)
    (bnd : Binding) (key : String) (impl : FuncRef)
    (hb : g.heap.get? bind = some bnd) (hk : genKeyByArg bnd.Name argList = some key)
    (hc : g.implsOfBinding.lookup key = some impl) :
    mustGetImpl (fuel + 1) g bind argList = Res.ok impl g := by
  simp only [mustGetImpl, hb, hk, hc]

theorem mustGetImpl_ok_lookup (fuel : Nat) (g g1 : Generator) (bind : Nat) (argList : List Arg)
    (f : FuncRef) (h : mustGetImpl fuel g bind argList = Res.ok f g1) :
    ∃ bnd key, g.heap.get? bind = some bnd ∧ genKeyByArg bnd.Name argList = some key ∧
      g1.implsOfBinding.lookup key = some f := by
  cases fuel with
  | zero => simp [mustGetImpl] at h
  | succ fuel =>
    simp only [mustGetImpl] at h
    split at h
    · simp at h
    · next bnd hb =>
      refine ⟨bnd, ?_⟩
      split at h
      · simp at h
      · next key hk =>
        refine ⟨key, hb, hk, ?_⟩
        split at h
        · next impl hc =>
          injection h with h1 h2
          subst h1; subst h2; exact hc
        · split at h
          · simp at h
          · split at h
            · simp at h
            · split at h
              · simp at h
              · split at h
                · simp at h
                · split at h
                  · simp at h
                  · simp at h
                  · split at h
                    · simp at h
                    · simp at h
                    · injection h with h1 h2
                      subst h1; subst h2
                      exact Map.lookup_insert_self _ _ _

theorem typesOf_length (es : List Expr) (ts : List Ty) (h : typesOf es = some ts) :
    ts.length = es.length := by
  induction es generalizing ts with
  | nil => simp [typesOf] at h; subst h; rfl
  | cons e es ih =>
    simp only [typesOf] at h
    split at h
    · simp at h
    · split at h
      · simp at h
      · next ts' hts =>
        injection h with h
        subst h
        simp [ih ts' hts]

theorem bindArgs_mismatch (ps : List String) (ts : List Ty) (as : List Arg)
    (binds : Map Expr) (params : List Param)
    (hp : as.length = ps.length) (ht : ts.length = as.length) (hm : labelMismatch ps as) :
    bindArgs ps ts as binds params = Except.error Err.argName := by
  induction as generalizing ps ts binds params with
  | nil =>
    obtain ⟨i, a, p, ha, _⟩ := hm
    simp at ha
  | cons a as ih =>
    cases ps with
    | nil => simp at hp
    | cons p ps =>
      cases ts with
      | nil => simp at ht
      | cons t ts =>
        simp only [bindArgs]
        by_cases hbad : p ≠ (if a.Ident = "" then p else a.Ident)
        · simp [hbad]
        · have hgood : p = (if a.Ident = "" then p else a.Ident) := by
            by_contra hne; exact hbad hne
          rw [if_neg hbad]
          apply ih
          · simpa using hp
          · simpa using ht
          · obtain ⟨i, a', p', ha, hp', hne, hne'⟩ := hm
            cases i with
            | zero =>
              simp at ha hp'
              subst ha; subst hp'
              rw [if_neg hne] at hgood
              exact absurd hgood.symm hne'
            | succ i => exact ⟨i, a', p', by simpa using ha, by simpa using hp', hne, hne'⟩

theorem bindArgs_agree (ps : List String) (ts : List Ty) (as : List Arg)
    (binds : Map Expr) (params : List Param)
    (hp : as.length = ps.length) (ht : ts.length = as.length) (hm : ¬ labelMismatch ps as) :
    ∃ r, bindArgs ps ts as binds params = Except.ok r := by
  induction as generalizing ps ts binds params with
  | nil => exact ⟨(binds, params), by simp [bindArgs]⟩
  | cons a as ih =>
    cases ps with
    | nil => simp at hp
    | cons p ps =>
      cases ts with
      | nil => simp at ht
      | cons t ts =>
        simp only [bindArgs]
        by_cases hbad : p ≠ (if a.Ident = "" then p else a.Ident)
        · exfalso
          apply hm
          refine ⟨0, a, p, by simp, by simp, ?_, ?_⟩
          · intro he; simp [he] at hbad
          · intro he
            by_cases h0 : a.Ident = ""
            · simp [h0] at hbad
            · simp [h0, he] at hbad
        · rw [if_neg hbad]
          apply ih
          · simpa using hp
          · simpa using ht
          · rintro ⟨i, a', p', ha, hp', hne, hne'⟩
            exact hm ⟨i + 1, a', p', by simpa using ha, by simpa using hp', hne, hne'⟩

theorem bindTypes_ok (ps : List String) (ts : List Ty) (typeMap : Map Ty)
    (h : ts.length = ps.length) : ∃ r, bindTypes ps ts typeMap = Except.ok r := by
  induction ts generalizing ps typeMap with
  | nil => exact ⟨typeMap, by simp [bindTypes]⟩
  | cons t ts ih =>
    cases ps with
    | nil => simp at h
    | cons p ps =>
      simp only [bindTypes]
      exact ih ps _ (by simpa using h)

theorem TypeOf_callFree : ∀ (e : Expr) (t : Ty), TypeOf e = some t → e.callFree = true
  | Expr.ofArg (Arg.mk _ e), t, h => by
    simp only [TypeOf] at h
    simp only [Expr.callFree]
    exact TypeOf_callFree e t h
  | Expr.Int _, _, _ => by simp [Expr.callFree]
  | Expr.nil, _, h => by simp [TypeOf] at h
  | Expr.Ident _, _, h => by simp [TypeOf] at h
  | Expr.BinaryExpr _ _ _, _, h => by simp [TypeOf] at h
  | Expr.FuncCall _ _, _, h => by simp [TypeOf] at h

theorem Expr.get_append (e : Expr) (p : List Step) (s : Step) :
    e.get (p ++ [s]) = (e.get p).child s := by
  induction p generalizing e with
  | nil => simp [Expr.get]
  | cons s' p ih => simp [Expr.get, ih]

theorem Generator.deref_child (g : Generator) (r : Ref) (s : Step) :
    g.deref (r.child s) = (g.deref r).child s := by
  cases r with
  | body b p =>
    simp only [Ref.child, Generator.deref]
    cases g.heap.get? b with
    | none => simp [Expr.child]
    | some bnd => simp [Expr.get_append]
  | val e => simp [Ref.child, Generator.deref]

theorem Generator.deref_congr (g g1 : Generator) (r : Ref) (h : g1.heap = g.heap) :
    g1.deref r = g.deref r := by
  cases r with
  | body b p => simp [Generator.deref, h]
  | val e => simp [Generator.deref]

theorem Expr.callFree_child (e : Expr) (s : Step) (h : e.callFree = true) :
    (e.child s).callFree = true := by
  cases e with
  | nil => simp [Expr.child, Expr.callFree]
  | Int _ => simp [Expr.child, Expr.callFree]
  | Ident _ => simp [Expr.child, Expr.callFree]
  | FuncCall _ _ => simp [Expr.callFree] at h
  | BinaryExpr l r op =>
    simp only [Expr.callFree, Bool.and_eq_true] at h
    cases s <;> simp [Expr.child, Expr.callFree, h.1, h.2]
  | ofArg a =>
    cases a with
    | mk i e =>
      simp only [Expr.callFree] at h
      cases s <;> simp [Expr.child, Expr.callFree, Arg.Expr, h]

theorem inferReturnType_callFree (fuel : Nat) :
    ∀ (g : Generator) (bind : Nat) (path : List Step) (binds : Map Expr) (typeMap : Map Ty),
      (g.deref (Ref.body bind path)).callFree = true →
      inferReturnType fuel g bind path binds typeMap = Res.diverge ∨
      (∃ t, inferReturnType fuel g bind path binds typeMap = Res.ok t g) ∨
      (∃ e, inferReturnType fuel g bind path binds typeMap = Res.panic e g ∧ e.inference = true) := by
  induction fuel with
  | zero => intros; left; simp [inferReturnType]
  | succ fuel ih =>
    intro g bind path binds typeMap hcf
    have hchild : ∀ s, (g.deref (Ref.body bind (path ++ [s]))).callFree = true := by
      intro s
      have := Generator.deref_child g (Ref.body bind path) s
      simp only [Ref.child] at this
      rw [this]
      exact Expr.callFree_child _ s hcf
    simp only [inferReturnType]
    split
    · next n args heq => rw [heq] at hcf; simp [Expr.callFree] at hcf
    · next l r op heq =>
      rcases ih g bind (path ++ [Step.L]) binds typeMap (hchild Step.L) with h | ⟨lt, h⟩ | ⟨e, h, he⟩
      · left; rw [h]
      · rw [h]
        simp only []
        rcases ih g bind (path ++ [Step.R]) binds typeMap (hchild Step.R) with h' | ⟨rt, h'⟩ | ⟨e, h', he⟩
        · left; rw [h']
        · rw [h']
          simp only []
          split
          · right; right; exact ⟨_, rfl, rfl⟩
          · right; left; exact ⟨_, rfl⟩
        · right; right; rw [h']; exact ⟨e, rfl, he⟩
      · right; right; rw [h]; exact ⟨e, rfl, he⟩
    · next lit heq =>
      split
      · right; right; exact ⟨_, rfl, rfl⟩
      · right; left; exact ⟨_, rfl⟩
    · right; right; exact ⟨_, rfl, rfl⟩

theorem Generator.sameButBlocks_refl (g : Generator) : g.sameButBlocks g :=
  ⟨rfl, rfl, rfl, rfl, rfl⟩

theorem Generator.sameButBlocks_trans (g2 g1 g : Generator)
    (h2 : g2.sameButBlocks g1) (h1 : g1.sameButBlocks g) : g2.sameButBlocks g :=
  ⟨h2.1.trans h1.1, h2.2.1.trans h1.2.1, h2.2.2.1.trans h1.2.2.1,
    h2.2.2.2.1.trans h1.2.2.2.1, h2.2.2.2.2.trans h1.2.2.2.2⟩

theorem updateAt_map {α β : Type} (f : α → α) (p : α → β) (hf : ∀ x, p (f x) = p x)
    (l : List α) (n : Nat) : (updateAt f l n).map p = l.map p := by
  induction l generalizing n with
  | nil => simp [updateAt]
  | cons x xs ih =>
    cases n with
    | zero => simp [updateAt, hf]
    | succ n => simp [updateAt, ih]

theorem Generator.updateBlock_same (g : Generator) (b : BlockRef) (f : Block → Block) :
    (g.updateBlock b f).sameButBlocks g := by
  refine ⟨rfl, rfl, rfl, rfl, ?_⟩
  unfold Generator.updateBlock
  apply updateAt_map
  intro fn
  rfl

theorem Generator.emit_same (g : Generator) (b : BlockRef) (i : Inst) :
    (g.emit b i).2.sameButBlocks g :=
  Generator.updateBlock_same g b _

theorem Generator.NewRet_same (g : Generator) (b : BlockRef) (v : Value) :
    (g.NewRet b v).sameButBlocks g :=
  Generator.updateBlock_same g b _

theorem getType_error (e : Expr) (typeMap : Map Ty) (err : Err)
    (h : getType e typeMap = Except.error err) : err = Err.typeOf := by
  unfold getType at h
  split at h
  · simp at h
  · split at h
    · simp at h
    · injection h with h; exact h.symm

theorem genExpr_callFree (fuel : Nat) :
    ∀ (g : Generator) (b : BlockRef) (r : Ref) (binds : Map Expr) (typeMap : Map Ty),
      (g.deref r).callFree = true →
      (∀ k e, binds.lookup k = some e → e.callFree = true) →
      genExpr fuel g b r binds typeMap = Res.diverge ∨
      (∃ v g1, genExpr fuel g b r binds typeMap = Res.ok v g1 ∧ g1.sameButBlocks g) ∨
      (∃ e g1, genExpr fuel g b r binds typeMap = Res.panic e g1 ∧ e.lowering = true) := by
  induction fuel with
  | zero => intros; left; simp [genExpr]
  | succ fuel ih =>
    intro g b r binds typeMap hcf hbinds
    simp only [genExpr]
    split
    · next n args heq => rw [heq] at hcf; simp [Expr.callFree] at hcf
    · next l r' op heq =>
      have hL : (g.deref (r.child Step.L)).callFree = true := by
        rw [Generator.deref_child]; exact Expr.callFree_child _ _ hcf
      rcases ih g b (r.child Step.L) binds typeMap hL hbinds with h | ⟨x, g1, h, hg1⟩ | ⟨e, g1, h, he⟩
      · left; rw [h]
      · rw [h]
        simp only []
        have hR : (g1.deref (r.child Step.R)).callFree = true := by
          rw [Generator.deref_congr g g1 _ hg1.1, Generator.deref_child]
          exact Expr.callFree_child _ _ hcf
        rcases ih g1 b (r.child Step.R) binds typeMap hR hbinds with h' | ⟨y, g2, h', hg2⟩ | ⟨e, g2, h', he⟩
        · left; rw [h']
        · rw [h']
          simp only []
          split
          · next e he =>
            right; right; refine ⟨_, _, rfl, ?_⟩
            rw [getType_error _ _ _ he]; rfl
          · split
            · next e he =>
              right; right; refine ⟨_, _, rfl, ?_⟩
              rw [getType_error _ _ _ he]; rfl
            · split
              · split
                · split
                  · right; left; exact ⟨_, _, rfl, Generator.sameButBlocks_trans _ _ _ (Generator.emit_same _ _ _)
                      (Generator.sameButBlocks_trans _ _ _ hg2 hg1)⟩
                  · split
                    · right; left; exact ⟨_, _, rfl, Generator.sameButBlocks_trans _ _ _ (Generator.emit_same _ _ _)
                      (Generator.sameButBlocks_trans _ _ _ hg2 hg1)⟩
                    · split
                      · right; left; exact ⟨_, _, rfl, Generator.sameButBlocks_trans _ _ _ (Generator.emit_same _ _ _)
                      (Generator.sameButBlocks_trans _ _ _ hg2 hg1)⟩
                      · split
                        · right; left; exact ⟨_, _, rfl, Generator.sameButBlocks_trans _ _ _ (Generator.emit_same _ _ _)
                      (Generator.sameButBlocks_trans _ _ _ hg2 hg1)⟩
                        · right; right; exact ⟨_, _, rfl, rfl⟩
                · right; right; exact ⟨_, _, rfl, rfl⟩
              · right; right; exact ⟨_, _, rfl, rfl⟩
        · right; right; rw [h']; exact ⟨e, g2, rfl, he⟩
      · right; right; rw [h]; exact ⟨e, g1, rfl, he⟩
    · next lit heq =>
      apply ih g b _ binds typeMap _ hbinds
      simp only [Generator.deref]
      cases hl : binds.lookup lit with
      | none => simp [Expr.callFree]
      | some e => simpa using hbinds lit e hl
    · right; left; exact ⟨_, _, rfl, Generator.sameButBlocks_refl g⟩
    · right; right; exact ⟨_, _, rfl, rfl⟩

theorem Map.lookup_insert_cases {α : Type} (m : Map α) (k k' : String) (v e : α)
    (h : (Map.insert m k v).lookup k' = some e) : e = v ∨ m.lookup k' = some e := by
  induction m with
  | nil =>
    simp only [Map.insert, Map.lookup] at h
    split at h
    · left; injection h with h; exact h.symm
    · simp at h
  | cons kv m ih =>
    obtain ⟨k0, x⟩ := kv
    simp only [Map.insert] at h
    split at h
    · next hk0 =>
      simp only [Map.lookup] at h ⊢
      split at h
      · next hkk => left; injection h with h; exact h.symm
      · next hkk =>
        right
        have : ¬ k0 = k' := by rw [hk0]; exact hkk
        simp [this, h]
    · by_cases hkk : k0 = k'
      · right
        simpa [Map.lookup, hkk] using h
      · simp only [Map.lookup, hkk, if_false] at h ⊢
        exact ih h

theorem typesOf_callFree (as : List Arg) (ts : List Ty)
    (h : typesOf (as.map Expr.ofArg) = some ts) : ∀ a ∈ as, a.Expr.callFree = true := by
  induction as generalizing ts with
  | nil => intro a ha; simp at ha
  | cons a0 as ih =>
    simp only [List.map, typesOf] at h
    split at h
    · simp at h
    · next t ht =>
      split at h
      · simp at h
      · next ts' hts =>
        intro a ha
        rcases List.mem_cons.mp ha with rfl | ha
        · have := TypeOf_callFree _ _ ht
          cases a with
          | mk i e => simpa [Expr.callFree, Arg.Expr] using this
        · exact ih ts' hts a ha

theorem bindArgs_callFree (ps : List String) (ts : List Ty) (as : List Arg)
    (binds : Map Expr) (params : List Param) (r : Map Expr × List Param)
    (h : bindArgs ps ts as binds params = Except.ok r)
    (hb : ∀ k e, binds.lookup k = some e → e.callFree = true)
    (ha : ∀ a ∈ as, a.Expr.callFree = true) :
    ∀ k e, r.1.lookup k = some e → e.callFree = true := by
  induction as generalizing ps ts binds params with
  | nil =>
    simp only [bindArgs] at h
    injection h with h
    subst h
    exact hb
  | cons a as ih =>
    cases ps with
    | nil => simp [bindArgs] at h
    | cons p ps =>
      cases ts with
      | nil => simp [bindArgs] at h
      | cons t ts =>
        simp only [bindArgs] at h
        by_cases hbad : p ≠ (if a.Ident = "" then p else a.Ident)
        · rw [if_pos hbad] at h
          simp at h
        · rw [if_neg hbad] at h
          refine ih ps ts _ _ h ?_ (fun a' ha' => ha a' (List.mem_cons_of_mem _ ha'))
          intro k e hke
          rcases Map.lookup_insert_cases _ _ _ _ _ hke with rfl | hke
          · exact ha a (List.mem_cons_self _ _)
          · exact hb k e hke

theorem genKeyByArg_some (name : String) (as : List Arg) (key : String)
    (h : genKeyByArg name as = some key) :
    ∃ ts, typesOf (as.map Expr.ofArg) = some ts ∧ key = genKeyByTypes name ts := by
  simp only [genKeyByArg, genKey] at h
  split at h
  · simp at h
  · next ts hts => injection h with h; exact ⟨ts, hts, h.symm⟩

theorem bindArgs_params (ps : List String) (ts : List Ty) (as : List Arg)
    (binds : Map Expr) (params : List Param) (r : Map Expr × List Param)
    (h : bindArgs ps ts as binds params = Except.ok r) (hl : ts.length = as.length) :
    r.2.map Param.typ = params.map Param.typ ++ ts.map Ty.llvm := by
  induction as generalizing ps ts binds params with
  | nil =>
    simp only [bindArgs] at h
    injection h with h
    subst h
    cases ts with
    | nil => simp
    | cons t ts => simp at hl
  | cons a as ih =>
    cases ps with
    | nil => simp [bindArgs] at h
    | cons p ps =>
      cases ts with
      | nil => simp [bindArgs] at h
      | cons t ts =>
        simp only [bindArgs] at h
        by_cases hbad : p ≠ (if a.Ident = "" then p else a.Ident)
        · rw [if_pos hbad] at h
          simp at h
        · rw [if_neg hbad] at h
          rw [ih ps ts _ _ h (by simpa using hl)]
          simp

theorem Generator.NewBlock_sig (g : Generator) (f : FuncRef) :
    (g.NewBlock f).2.mod.map Func.sig = g.mod.map Func.sig := by
  unfold Generator.NewBlock
  apply updateAt_map
  intro fn
  rfl

theorem funcBody_callFree (fuel : Nat) (g : Generator) (b : BlockRef) (r : Ref)
    (binds : Map Expr) (typeMap : Map Ty)
    (hcf : (g.deref r).callFree = true)
    (hbinds : ∀ k e, binds.lookup k = some e → e.callFree = true) :
    funcBody fuel g b r binds typeMap = Res.diverge ∨
    (∃ g1, funcBody fuel g b r binds typeMap = Res.ok () g1 ∧ g1.sameButBlocks g) ∨
    (∃ e g1, funcBody fuel g b r binds typeMap = Res.panic e g1 ∧ e.lowering = true) := by
  cases fuel with
  | zero => left; simp [funcBody]
  | succ fuel =>
    simp only [funcBody]
    rcases genExpr_callFree fuel g b r binds typeMap hcf hbinds with
      h | ⟨v, g1, h, hg1⟩ | ⟨e, g1, h, he⟩
    · left; rw [h]
    · right; left; rw [h]
      exact ⟨_, rfl, Generator.sameButBlocks_trans _ _ _ (Generator.NewRet_same _ _ _) hg1⟩
    · right; right; rw [h]; exact ⟨e, g1, rfl, he⟩

theorem mustGetImpl_callFree (fuel : Nat) (g : Generator) (bind : Nat) (argList : List Arg)
    (bnd : Binding) (key : String)
    (hb : g.heap.get? bind = some bnd) (hk : genKeyByArg bnd.Name argList = some key)
    (hc : g.implsOfBinding.lookup key = none) (hcf : bnd.Expr.callFree = true) :
    mustGetImpl (fuel + 1) g bind argList = Res.diverge ∨
    (∃ f g1 ts, mustGetImpl (fuel + 1) g bind argList = Res.ok f g1 ∧
      typesOf (argList.map Expr.ofArg) = some ts ∧ g1.heap = g.heap ∧
      g1.mod.map Func.sig = g.mod.map Func.sig ++ [(bnd.Name, ts.map Ty.llvm)] ∧
      g1.implsOfBinding = g.implsOfBinding.insert key f) ∨
    (mustGetImpl (fuel + 1) g bind argList = Res.panic Err.arity g ∧
      argList.length ≠ bnd.ParamList.length) ∨
    (mustGetImpl (fuel + 1) g bind argList = Res.panic Err.argName g ∧
      labelMismatch bnd.ParamList argList) ∨
    (∃ e, mustGetImpl (fuel + 1) g bind argList = Res.panic e g ∧ e.inference = true) ∨
    (∃ e g1, mustGetImpl (fuel + 1) g bind argList = Res.panic e g1 ∧ e.lowering = true) := by
  obtain ⟨ts, hts, _⟩ := genKeyByArg_some _ _ _ hk
  have htl : ts.length = argList.length := by
    simpa using typesOf_length _ _ hts
  by_cases hlen : argList.length ≠ bnd.ParamList.length
  · right; right; left
    refine ⟨?_, hlen⟩
    simp only [mustGetImpl, hb, hk, hc]
    rw [if_pos hlen]
  · have hlen' : argList.length = bnd.ParamList.length := by
      by_contra h; exact hlen h
    by_cases hm : labelMismatch bnd.ParamList argList
    · right; right; right; left
      refine ⟨?_, hm⟩
      simp only [mustGetImpl, hb, hk, hc]
      rw [if_neg hlen]
      simp only [hts, bindArgs_mismatch _ _ _ [] [] hlen' htl hm]
    · obtain ⟨⟨binds, params⟩, hba⟩ := bindArgs_agree bnd.ParamList ts argList [] [] hlen' htl hm
      obtain ⟨typeMap, hbt⟩ := bindTypes_ok bnd.ParamList ts [] (by rw [htl, hlen'])
      have hbinds : ∀ k e, binds.lookup k = some e → e.callFree = true :=
        bindArgs_callFree _ _ _ _ _ _ hba (by intro k e h; simp [Map.lookup] at h)
          (typesOf_callFree _ _ hts)
      have hparams : params.map Param.typ = ts.map Ty.llvm := by
        simpa using bindArgs_params _ _ _ _ _ _ hba htl
      have hroot : (g.deref (Ref.body bind [])).callFree = true := by
        simp only [Generator.deref, hb, Expr.get, hcf]
      simp only [mustGetImpl, hb, hk, hc]
      rw [if_neg hlen]
      simp only [hts, hba, hbt]
      rcases inferReturnType_callFree fuel g bind [] binds typeMap hroot with h | ⟨t, h⟩ | ⟨e, h, he⟩
      · left; rw [h]
      · rw [h]
        simp only []
        have hroot' : ∀ g' : Generator, g'.heap = g.heap →
            (g'.deref (Ref.body bind [])).callFree = true := by
          intro g' hg'
          rw [Generator.deref_congr g g' _ hg']; exact hroot
        let g2 : Generator := { g with typMap := g.typeOfBinding.insert key t }
        let fg := g2.NewFunc bnd.Name t.llvm params
        let bg := fg.2.NewBlock fg.1
        have hfb := funcBody_callFree fuel bg.2 bg.1 (Ref.body bind []) binds typeMap
          (hroot' _ rfl) hbinds
        have hsig : bg.2.mod.map Func.sig = g.mod.map Func.sig ++ [(bnd.Name, ts.map Ty.llvm)] := by
          rw [Generator.NewBlock_sig]
          simp only [fg, g2, Generator.NewFunc, List.map_append, List.map, Func.sig, hparams]
        simp only [bg, fg, g2] at hfb hsig
        rcases hfb with h' | ⟨g5, h', hg5⟩ | ⟨e, g5, h', he⟩
        · left; rw [h']
        · right; left; rw [h']
          refine ⟨_, _, ts, rfl, rfl, ?_, ?_, ?_⟩
          · exact hg5.1
          · show g5.mod.map Func.sig = _
            rw [hg5.2.2.2.2, hsig]
          · show Map.insert g5.implsOfBinding key _ = _
            rw [hg5.2.2.1]
            rfl
        · right; right; right; right; right; rw [h']; exact ⟨e, g5, rfl, he⟩
      · right; right; right; right; left; rw [h]; exact ⟨e, rfl, he⟩

/-! ## C2: arity -/

/-- C2: for typable arguments whose key is not cached, a request whose number of arguments
differs from the number of parameters panics with the arity error, and the state (both caches
and the module) is exactly as before. -/
theorem C2_arity_mismatch_panics (fuel : Nat) (g : Generator) (bind : Nat) (argList : List Arg)
    (bnd : Binding) (key : String)
    (hb : g.heap.get? bind = some bnd)
    (hk : genKeyByArg bnd.Name argList = some key)
    (hc : g.implsOfBinding.lookup key = none)
    (hlen : argList.length ≠ bnd.ParamList.length) :
    mustGetImpl (fuel + 1) g bind argList = Res.panic Err.arity g := by
  simp only [mustGetImpl, hb, hk, hc]
  rw [if_pos hlen]

/-- C2 witness: `add`, declared with 2 parameters, called with 1 and with 3 arguments. -/
theorem C2_arity_mismatch_panics_witness :
    mustGetImpl 1 (New bindings bindMap) 1 [intArg "1"] =
      Res.panic Err.arity (New bindings bindMap) ∧
    mustGetImpl 1 (New bindings bindMap) 1 [intArg "1", intArg "2", intArg "3"] =
      Res.panic Err.arity (New bindings bindMap) :=
  ⟨C2_arity_mismatch_panics 0 (New bindings bindMap) 1 [intArg "1"] addBinding "add(int)"
     (by rfl) (by decide) (by decide) (by decide),
   C2_arity_mismatch_panics 0 (New bindings bindMap) 1 [intArg "1", intArg "2", intArg "3"]
     addBinding "add(int,int,int)" (by rfl) (by decide) (by decide) (by decide)⟩

/-! ## C3: argument names -/

/-- C3 (amended): for an arity-matching list of typable arguments whose key is not cached, the
request panics with the argument-name error, caches and module unchanged, whenever some
position carries a non-empty label different from the parameter at that position; conversely,
for a body that makes no call, the request panics with the argument-name error only if some
position does (so unlabeled arguments never cause it).  A body that makes calls can also
raise the error through a nested request. -/
theorem C3_argument_name_check (fuel : Nat) (g : Generator) (bind : Nat) (argList : List Arg)
    (bnd : Binding) (key : String)
    (hb : g.heap.get? bind = some bnd)
    (hk : genKeyByArg bnd.Name argList = some key)
    (hc : g.implsOfBinding.lookup key = none)
    (hlen : argList.length = bnd.ParamList.length) :
    (labelMismatch bnd.ParamList argList →
      mustGetImpl (fuel + 1) g bind argList = Res.panic Err.argName g) ∧
    (bnd.Expr.callFree = true → ∀ g1,
      mustGetImpl (fuel + 1) g bind argList = Res.panic Err.argName g1 →
      labelMismatch bnd.ParamList argList) := by
  constructor
  · intro hm
    obtain ⟨ts, hts, _⟩ := genKeyByArg_some _ _ _ hk
    have htl : ts.length = argList.length := by simpa using typesOf_length _ _ hts
    simp only [mustGetImpl, hb, hk, hc]
    rw [if_neg (by simp [hlen])]
    simp only [hts, bindArgs_mismatch _ _ _ [] [] hlen htl hm]
  · intro hcf g1 hres
    rcases mustGetImpl_callFree fuel g bind argList bnd key hb hk hc hcf with
      h | ⟨f, g2, ts, h, _⟩ | ⟨h, _⟩ | ⟨_, hm⟩ | ⟨e, h, he⟩ | ⟨e, g2, h, he⟩
    · rw [h] at hres; cases hres
    · rw [h] at hres; cases hres
    · rw [h] at hres; cases hres
    · exact hm
    · rw [h] at hres
      injection hres with h1 h2
      subst h1
      simp [Err.inference] at he
    · rw [h] at hres
      injection hres with h1 h2
      subst h1
      simp [Err.lowering] at he

/-- C3 witness: `assert that should_be`, called as `assert(should_be: 1, that: 1)`, panics with
the argument-name error and the state is unchanged. -/
theorem C3_argument_name_check_witness :
    mustGetImpl 1 assertStart 0 [NewArg "should_be" (NewInt "1"), NewArg "that" (NewInt "1")] =
      Res.panic Err.argName assertStart :=
  (C3_argument_name_check 0 assertStart 0
    [NewArg "should_be" (NewInt "1"), NewArg "that" (NewInt "1")] assertBinding
    "assert(int,int)" (by rfl) (by decide) (by decide) (by decide)).1
    ⟨0, NewArg "should_be" (NewInt "1"), "that", by rfl, by rfl, by decide, by decide⟩

/-- C3 counterexample: `tests = assert(should_be: 1, that: 1)` is requested with no argument: no
position of the request carries a label, and the request panics with the argument-name error,
raised by the nested request for `assert`. -/
theorem C3_argument_name_error_from_nested_request :
    genKeyByArg testsBinding.Name [] = some "tests" ∧
    assertStart.implsOfBinding.lookup "tests" = none ∧
    ([] : List Arg).length = testsBinding.ParamList.length ∧
    ¬ labelMismatch testsBinding.ParamList [] ∧
    mustGetImpl 8 assertStart 1 [] = Res.panic Err.argName assertStart := by
  refine ⟨by decide, by decide, by decide, ?_, by rfl⟩
  rintro ⟨i, a, p, ha, _⟩
  simp at ha

/-! ## C4: unknown call target -/

/-- C4 (amended): when inference reaches a call to a name absent from the Binding Table it
panics with the unknown-call-target error without changing the state; so a request whose key
is not cached, whose arguments agree with the parameters in number and labels and whose body
is such a call panics with that error and leaves the module (and both caches) identical.
What nested requests generated before the call was reached stays in the module. -/
theorem C4_unknown_call_target (fuel : Nat) (g : Generator) (bind : Nat) (bnd : Binding)
    (FuncName : String) (ExprList : List Arg)
    (hb : g.heap.get? bind = some bnd)
    (habsent : g.bindMap.lookup FuncName = none) :
    (∀ (path : List Step) (binds : Map Expr) (typeMap : Map Ty),
      bnd.Expr.get path = Expr.FuncCall FuncName ExprList →
      inferReturnType (fuel + 1) g bind path binds typeMap =
        Res.panic (Err.unknownCall FuncName) g) ∧
    (∀ (argList : List Arg) (key : String),
      genKeyByArg bnd.Name argList = some key →
      g.implsOfBinding.lookup key = none →
      argList.length = bnd.ParamList.length →
      ¬ labelMismatch bnd.ParamList argList →
      bnd.Expr = Expr.FuncCall FuncName ExprList →
      mustGetImpl (fuel + 2) g bind argList = Res.panic (Err.unknownCall FuncName) g) := by
  have hnode : ∀ (fuel : Nat) (path : List Step) (binds : Map Expr) (typeMap : Map Ty),
      bnd.Expr.get path = Expr.FuncCall FuncName ExprList →
      inferReturnType (fuel + 1) g bind path binds typeMap =
        Res.panic (Err.unknownCall FuncName) g := by
    intro fuel path binds typeMap hnode
    simp only [inferReturnType, Generator.deref, hb, hnode, habsent]
  refine ⟨hnode fuel, ?_⟩
  intro argList key hk hc hlen hm hbody
  obtain ⟨ts, hts, _⟩ := genKeyByArg_some _ _ _ hk
  have htl : ts.length = argList.length := by simpa using typesOf_length _ _ hts
  obtain ⟨⟨binds, params⟩, hba⟩ := bindArgs_agree bnd.ParamList ts argList [] [] hlen htl hm
  obtain ⟨typeMap, hbt⟩ := bindTypes_ok bnd.ParamList ts [] (by rw [htl, hlen])
  simp only [mustGetImpl, hb, hk, hc]
  rw [if_neg (by simp [hlen])]
  simp only [hts, hba, hbt, hnode fuel [] binds typeMap (by simpa [Expr.get] using hbody)]

/-- C4 witness: `callsNope x = nope(x)`, requested with `2`, panics with the unknown-call-target
error and leaves the state as it was. -/
theorem C4_unknown_call_target_witness :
    mustGetImpl 2 nopeStart 2 [intArg "2"] = Res.panic (Err.unknownCall "nope") nopeStart :=
  (C4_unknown_call_target 0 nopeStart 2 callsNope "nope" [NewArg "" (NewIdent "x")]
    (by rfl) (by decide)).2 [intArg "2"] "callsNope(int)" (by decide) (by decide) (by decide)
    (by rintro ⟨i, a, p, ha, hp, hne, _⟩
        cases i with
        | zero =>
          simp at ha
          subst ha
          exact hne (by decide)
        | succ i => simp at ha)
    (by rfl)

/-- C4 counterexample: `addThenNope x = add(1, x) + nope(x)`, requested with `2` on a fresh
generator, panics with the unknown-call-target error, and the module, empty before the
request, holds the declaration of `add` after it. -/
theorem C4_module_modified_before_unknown_call :
    mustGetImpl 8 nopeStart 1 [intArg "2"] = Res.panic (Err.unknownCall "nope") nopeAfter ∧
    nopeStart.mod = [] ∧ nopeAfter.mod = [addDecl] :=
  ⟨by rfl, by rfl, by rfl⟩

/-! ## C6, C7: the two end-to-end tests -/

/-- C6 (the code at the failing input): on the fresh generator of the test, `Call(add, a, b)`
with two integer literals declares `add` with two `i64` parameters and return type `i64`, and
its block is one add instruction followed by a return of its result; the operands of the add
are the constants `a` and `b` of the call site, not the parameters `%0` and `%1` that
`binding_test.go` expects. -/
theorem C6_add_operands_are_call_site_constants (a b : String) (fuel : Nat) :
    mustGetImpl (fuel + 5) (New bindings bindMap) 1 [intArg a, intArg b] =
      Res.ok 0
        { mod := [{ name := "add", retType := LLVMType.I64,
                    Params := [⟨"", LLVMType.I64⟩, ⟨"", LLVMType.I64⟩],
                    Blocks := [⟨[Inst.add (Value.const a) (Value.const b)],
                                some (Value.inst 0)⟩] }],
          heap := bindings, bindMap := bindMap,
          implsOfBinding := [("add(int,int)", 0)],
          typMap := [("+(int,int)", Ty.Int), ("add(int,int)", Ty.Int)] } ∧
    Inst.add (Value.const a) (Value.const b) ≠ Inst.add (Value.param 0) (Value.param 1) :=
  ⟨by rfl, by simp⟩

/-- C7 (the code at the failing input): on the fresh generator of the test, `Call(addOne, a)`
leaves exactly one declaration of `add` and one of `addOne`, and the block of `addOne` is one
call of `add` followed by a return of its result; the operands of the call are the constants
`1` and `a`, not the constant `1` and the parameter `%0` that `binding_test.go` expects. -/
theorem C7_call_operands_are_call_site_constants (a : String) (fuel : Nat) :
    mustGetImpl (fuel + 7) (New bindings bindMap) 0 [intArg a] = Res.ok 1 (afterAddOne a) ∧
    (declsFor (afterAddOne a).mod "add" [Ty.Int, Ty.Int]).length = 1 ∧
    (declsFor (afterAddOne a).mod "addOne" [Ty.Int]).length = 1 ∧
    ((afterAddOne a).mod.get? 1).map Func.Blocks =
      some [⟨[Inst.call 0 [Value.const "1", Value.const a]], some (Value.inst 0)⟩] ∧
    Inst.call 0 [Value.const "1", Value.const a] ≠ Inst.call 0 [Value.const "1", Value.param 0] :=
  ⟨by rfl, by rfl, by rfl, by rfl, by simp⟩

/-! ## C8: arithmetic operators -/

/-- C8 (the code at the failing inputs): on a fresh generator, `f x y = x + y` specializes with
an add instruction, but `f x y = x - y`, `x * y` and `x / y` panic while the return type is
inferred, because `New` registers `+(int,int)` only; the lowering rules for `-`, `*` and `/`
are reached only in a state whose type map holds the key, such as the fresh state with
`-(int,int)` added, where the request succeeds with a subtract instruction. -/
theorem C8_only_plus_is_registered :
    mustGetImpl 5 (arithStart "+") 0 [intArg "1", intArg "2"] =
      Res.ok 0 { arithStart "+" with
        mod := [arithDecl (Inst.add (Value.const "1") (Value.const "2"))],
        implsOfBinding := [("f(int,int)", 0)],
        typMap := [("+(int,int)", Ty.Int), ("f(int,int)", Ty.Int)] } ∧
    mustGetImpl 5 (arithStart "-") 0 [intArg "1", intArg "2"] =
      Res.panic (Err.cantInfer "-(int,int)") (arithStart "-") ∧
    mustGetImpl 5 (arithStart "*") 0 [intArg "1", intArg "2"] =
      Res.panic (Err.cantInfer "*(int,int)") (arithStart "*") ∧
    mustGetImpl 5 (arithStart "/") 0 [intArg "1", intArg "2"] =
      Res.panic (Err.cantInfer "/(int,int)") (arithStart "/") ∧
    (mustGetImpl 5 { arithStart "-" with typMap := (arithStart "-").typMap.insert "-(int,int)" Ty.Int }
        0 [intArg "1", intArg "2"]).state?.map Generator.mod =
      some [arithDecl (Inst.sub (Value.const "1") (Value.const "2"))] :=
  ⟨by rfl, by rfl, by rfl, by rfl, by rfl⟩

/-! ## C9: integer literals -/

/-- C9 (the code at the failing input): `inferReturnType` has no case for an integer literal: for
every literal, substitution environment, type environment, module and caches, inference of a
body that is the literal panics with `unsupported type inference for expression`, state
unchanged; so the zero-parameter binding `i = 1` (any literal), requested on a fresh
generator, fails and nothing is generated. -/
theorem C9_literal_body_is_not_inferred (lit : String) (fuel : Nat) (g : Generator)
    (binds : Map Expr) (typeMap : Map Ty) :
    inferReturnType (fuel + 1) { g with heap := [iBinding lit] } 0 [] binds typeMap =
      Res.panic Err.unsupportedInference { g with heap := [iBinding lit] } ∧
    mustGetImpl (fuel + 2) (New [iBinding lit] [("i", 0)]) 0 [] =
      Res.panic Err.unsupportedInference (New [iBinding lit] [("i", 0)]) :=
  ⟨by rfl, by rfl⟩

/-! ## C10: the binding table -/

/-- C10 (the code at the failing input): after `Call(addOne, a)` on the fresh generator of the
test, the body of `addOne` in the Binding Table is `add(1, a)`: line 103 of `codegen.go` has
overwritten the argument `y` of the call with the caller's literal, so the body is no longer
the tree the table was built with. -/
theorem C10_request_rewrites_binding_body (a : String) (fuel : Nat) :
    (mustGetImpl (fuel + 7) (New bindings bindMap) 0 [intArg a]).state?.map Generator.heap =
      some [{ Name := "addOne", ParamList := ["y"],
              Expr := Expr.FuncCall "add" [NewArg "" (NewInt "1"), NewArg "" (NewInt a)] },
            addBinding] ∧
    (New bindings bindMap).heap.map Binding.Expr =
      [Expr.FuncCall "add" [NewArg "" (NewInt "1"), NewArg "" (NewIdent "y")], addBinding.Expr] ∧
    Expr.FuncCall "add" [NewArg "" (NewInt "1"), NewArg "" (NewInt a)] ≠
      Expr.FuncCall "add" [NewArg "" (NewInt "1"), NewArg "" (NewIdent "y")] :=
  ⟨by rfl, by rfl, by simp [NewArg, NewInt, NewIdent]⟩

/-! ## Lemmas on the module: what the primitive operations preserve -/

theorem updateAt_get? {α : Type} (f : α → α) (l : List α) (i : Nat) :
    (updateAt f l i).get? i = (l.get? i).map f := by
  induction l generalizing i with
  | nil => simp [updateAt]
  | cons x xs ih =>
    cases i with
    | zero => simp [updateAt]
    | succ i => simpa [updateAt] using ih i

theorem updateAt_length {α : Type} (f : α → α) (l : List α) (i : Nat) :
    (updateAt f l i).length = l.length := by
  induction l generalizing i with
  | nil => simp [updateAt]
  | cons x xs ih =>
    cases i with
    | zero => simp [updateAt]
    | succ i => simp [updateAt, ih]

theorem updateAt_get?_ne {α : Type} (f : α → α) (l : List α) (i j : Nat) (h : j ≠ i) :
    (updateAt f l i).get? j = l.get? j := by
  induction l generalizing i j with
  | nil => simp [updateAt]
  | cons x xs ih =>
    cases i with
    | zero =>
      cases j with
      | zero => exact absurd rfl h
      | succ j => simp [updateAt]
    | succ i =>
      cases j with
      | zero => simp [updateAt]
      | succ j =>
        simp only [updateAt, List.get?_cons_succ]
        exact ih i j (by omega)

theorem mem_updateAt {α : Type} (f : α → α) (l : List α) (i : Nat) (y : α)
    (h : y ∈ updateAt f l i) : y ∈ l ∨ ∃ x ∈ l, y = f x := by
  induction l generalizing i with
  | nil => simp [updateAt] at h
  | cons x xs ih =>
    cases i with
    | zero =>
      simp only [updateAt, List.mem_cons] at h
      rcases h with rfl | h
      · right; exact ⟨x, List.mem_cons_self _ _, rfl⟩
      · left; exact List.mem_cons_of_mem _ h
    | succ i =>
      simp only [updateAt, List.mem_cons] at h
      rcases h with rfl | h
      · left; exact List.mem_cons_self _ _
      · rcases ih i h with h | ⟨z, hz, rfl⟩
        · left; exact List.mem_cons_of_mem _ h
        · right; exact ⟨z, List.mem_cons_of_mem _ hz, rfl⟩

theorem Generator.updateBlock_length (g : Generator) (b : BlockRef) (F : Block → Block) :
    (g.updateBlock b F).mod.length = g.mod.length := by
  simp [Generator.updateBlock, updateAt_length]

theorem Generator.updateBlock_get? (g : Generator) (b : BlockRef) (F : Block → Block)
    (h : FuncRef) (fn : Func) (hfn : g.mod.get? h = some fn) :
    ∃ fn', (g.updateBlock b F).mod.get? h = some fn' ∧
      (fn' = fn ∨ fn' = { fn with Blocks := updateAt F fn.Blocks b.block }) := by
  by_cases hh : h = b.func
  · subst hh
    refine ⟨{ fn with Blocks := updateAt F fn.Blocks b.block }, ?_, Or.inr rfl⟩
    simp only [Generator.updateBlock, updateAt_get?, hfn, Option.map]
  · exact ⟨fn, by simp only [Generator.updateBlock, updateAt_get?_ne _ _ _ _ hh, hfn], Or.inl rfl⟩

theorem updateAt_singleton {α : Type} (f : α → α) (x : α) (i : Nat) :
    updateAt f [x] i = [x] ∨ updateAt f [x] i = [f x] := by
  cases i with
  | zero => right; rfl
  | succ i => left; rfl

theorem Generator.updateBlock_oneBlockAt (g : Generator) (b : BlockRef) (F : Block → Block)
    (h : FuncRef) (hh : g.oneBlockAt h) : (g.updateBlock b F).oneBlockAt h := by
  obtain ⟨fn, blk, hfn, hblk⟩ := hh
  obtain ⟨fn', hfn', hcase⟩ := Generator.updateBlock_get? g b F h fn hfn
  rcases hcase with rfl | rfl
  · exact ⟨_, blk, hfn', hblk⟩
  · rcases updateAt_singleton F blk b.block with hs | hs
    · exact ⟨_, blk, hfn', by simp [hblk, hs]⟩
    · exact ⟨_, F blk, hfn', by simp [hblk, hs]⟩

theorem Generator.updateBlock_completeAt (g : Generator) (b : BlockRef) (F : Block → Block)
    (hF : ∀ blk v, blk.Term = some v → ∃ v', (F blk).Term = some v')
    (h : FuncRef) (hh : g.completeAt h) : (g.updateBlock b F).completeAt h := by
  obtain ⟨fn, blk, v, hfn, hblk, hv⟩ := hh
  obtain ⟨fn', hfn', hcase⟩ := Generator.updateBlock_get? g b F h fn hfn
  rcases hcase with rfl | rfl
  · exact ⟨_, blk, v, hfn', hblk, hv⟩
  · rcases updateAt_singleton F blk b.block with hs | hs
    · exact ⟨_, blk, v, hfn', by simp [hblk, hs], hv⟩
    · obtain ⟨v', hv'⟩ := hF blk v hv
      exact ⟨_, F blk, v', hfn', by simp [hblk, hs], hv'⟩

theorem Generator.updateBlock_callsBelow (g : Generator) (b : BlockRef) (F : Block → Block)
    (hF : ∀ blk c args, Inst.call c args ∈ (F blk).Insts →
      Inst.call c args ∈ blk.Insts ∨ c < g.mod.length)
    (hg : g.callsBelow) : (g.updateBlock b F).callsBelow := by
  intro fn' hfn' blk' hblk' c args hc
  rw [Generator.updateBlock_length]
  simp only [Generator.updateBlock] at hfn'
  rcases mem_updateAt _ _ _ _ hfn' with hfn | ⟨fn, hfn, rfl⟩
  · exact hg fn' hfn blk' hblk' c args hc
  · simp only at hblk'
    rcases mem_updateAt _ _ _ _ hblk' with hblk | ⟨blk, hblk, rfl⟩
    · exact hg fn hfn blk' hblk c args hc
    · rcases hF blk c args hc with hc' | hc'
      · exact hg fn hfn blk hblk c args hc'
      · exact hc'

theorem Generator.after_refl (g : Generator) (hg : g.consistent) : g.after g :=
  ⟨hg, Nat.le_refl _, fun _ h => h, fun _ h => h, fun _ h => h⟩

theorem Generator.after_trans (g2 g1 g : Generator) (h2 : g2.after g1) (h1 : g1.after g) :
    g2.after g :=
  ⟨h2.1, Nat.le_trans h1.2.1 h2.2.1, fun h hh => h2.2.2.1 h (h1.2.2.1 h hh),
    fun h hh => h2.2.2.2.1 h (h1.2.2.2.1 h hh), fun k hk => h2.2.2.2.2 k (h1.2.2.2.2 k hk)⟩

theorem Generator.newComplete_trans (g g1 g2 : Generator) (h1 : g.newComplete g1)
    (h2 : g2.after g1) (h3 : g1.newComplete g2) : g.newComplete g2 := by
  intro h hlo hhi
  by_cases hlt : h < g1.mod.length
  · exact h2.2.2.2.1 h (h1 h hlo hlt)
  · exact h3 h (by omega) hhi

theorem Generator.newComplete_same (g g1 : Generator) (h : g1.mod.length = g.mod.length) :
    g.newComplete g1 := by
  intro h' hlo hhi
  omega

/-- A step that changes neither the module nor the implementation cache. -/
theorem Generator.after_of_same (g g1 : Generator) (hg : g.consistent)
    (hmod : g1.mod = g.mod) (himpl : g1.implsOfBinding = g.implsOfBinding) : g1.after g := by
  have hone : ∀ h, g.oneBlockAt h → g1.oneBlockAt h := by
    intro h hh; unfold Generator.oneBlockAt at *; rw [hmod]; exact hh
  have hcomp : ∀ h, g.completeAt h → g1.completeAt h := by
    intro h hh; unfold Generator.completeAt at *; rw [hmod]; exact hh
  refine ⟨⟨?_, ?_⟩, by rw [hmod], hone, hcomp, by rw [himpl]; exact fun _ h => h⟩
  · intro k h hk
    rw [himpl] at hk
    rw [hmod]
    exact ⟨(hg.1 k h hk).1, hcomp h (hg.1 k h hk).2⟩
  · unfold Generator.callsBelow
    rw [hmod]
    exact hg.2

/-- A change of one block that keeps a terminator a terminator and adds only calls of
functions of the module. -/
theorem Generator.after_updateBlock (g : Generator) (b : BlockRef) (F : Block → Block)
    (hg : g.consistent)
    (hT : ∀ blk v, blk.Term = some v → ∃ v', (F blk).Term = some v')
    (hC : ∀ blk c args, Inst.call c args ∈ (F blk).Insts →
      Inst.call c args ∈ blk.Insts ∨ c < g.mod.length) :
    (g.updateBlock b F).after g := by
  refine ⟨⟨?_, Generator.updateBlock_callsBelow g b F hC hg.2⟩,
    by rw [Generator.updateBlock_length], Generator.updateBlock_oneBlockAt g b F,
    Generator.updateBlock_completeAt g b F hT, fun _ h => h⟩
  intro k h hk
  have := hg.1 k h hk
  exact ⟨by rw [Generator.updateBlock_length]; exact this.1,
    Generator.updateBlock_completeAt g b F hT h this.2⟩

theorem Generator.after_store (g : Generator) (bind : Nat) (path : List Step) (e : Expr)
    (hg : g.consistent) : (g.store bind path e).after g :=
  Generator.after_of_same g _ hg rfl rfl

theorem Generator.after_setType (g : Generator) (m : Map Ty) (hg : g.consistent) :
    ({ g with typMap := m } : Generator).after g :=
  Generator.after_of_same g _ hg rfl rfl

theorem Generator.after_emit (g : Generator) (b : BlockRef) (i : Inst) (hg : g.consistent)
    (hi : ∀ c args, i = Inst.call c args → c < g.mod.length) : (g.emit b i).2.after g := by
  apply Generator.after_updateBlock g b _ hg
  · intro blk v hv
    exact ⟨v, hv⟩
  · intro blk c args hc
    simp only [List.mem_append, List.mem_singleton] at hc
    rcases hc with hc | hc
    · left; exact hc
    · right; exact hi c args hc.symm

theorem Generator.emit_length (g : Generator) (b : BlockRef) (i : Inst) :
    (g.emit b i).2.mod.length = g.mod.length :=
  Generator.updateBlock_length g b _

theorem Generator.after_NewRet (g : Generator) (b : BlockRef) (v : Value) (hg : g.consistent) :
    (g.NewRet b v).after g := by
  apply Generator.after_updateBlock g b _ hg
  · intro blk v' _
    exact ⟨v, rfl⟩
  · intro blk c args hc
    left; exact hc

theorem Generator.NewRet_length (g : Generator) (b : BlockRef) (v : Value) :
    (g.NewRet b v).mod.length = g.mod.length :=
  Generator.updateBlock_length g b _

/-- After `NewRet` the single block of the function ends in the return of `v`, with the
instructions it had. -/
theorem Generator.NewRet_block (g : Generator) (f : FuncRef) (v : Value) (fn : Func) (blk : Block)
    (hfn : g.mod.get? f = some fn) (hblk : fn.Blocks = [blk]) :
    (g.NewRet ⟨f, 0⟩ v).mod.get? f =
      some { fn with Blocks := [{ Insts := blk.Insts, Term := some v }] } := by
  simp only [Generator.NewRet, Generator.updateBlock, updateAt_get?, hfn, Option.map, hblk,
    updateAt]

theorem Generator.NewRet_completeAt (g : Generator) (f : FuncRef) (v : Value)
    (h : g.oneBlockAt f) : (g.NewRet ⟨f, 0⟩ v).completeAt f := by
  obtain ⟨fn, blk, hfn, hblk⟩ := h
  exact ⟨_, _, v, Generator.NewRet_block g f v fn blk hfn hblk, rfl, rfl⟩

theorem updateAt_append_length {α : Type} (f : α → α) (l : List α) (x : α) :
    updateAt f (l ++ [x]) l.length = l ++ [f x] := by
  induction l with
  | nil => rfl
  | cons y ys ih => simp [updateAt, ih]

/-- Lines 84-86: the state after `NewFunc` and `NewBlock` has the module of `g` followed by the
new function with one empty block; the handle is the old length, the block handle its
block 0. -/
theorem Generator.declare_mod (g : Generator) (name : String) (ret : LLVMType)
    (params : List Param) :
    (g.NewFunc name ret params).1 = g.mod.length ∧
    ((g.NewFunc name ret params).2.NewBlock (g.NewFunc name ret params).1).1 =
      ⟨g.mod.length, 0⟩ ∧
    ((g.NewFunc name ret params).2.NewBlock (g.NewFunc name ret params).1).2.mod =
      g.mod ++ [{ name := name, retType := ret, Params := params, Blocks := [⟨[], none⟩] }] ∧
    ((g.NewFunc name ret params).2.NewBlock (g.NewFunc name ret params).1).2.implsOfBinding =
      g.implsOfBinding := by
  refine ⟨rfl, ?_, ?_, rfl⟩
  · simp [Generator.NewFunc, Generator.NewBlock]
  · simp only [Generator.NewFunc, Generator.NewBlock]
    rw [updateAt_append_length]
    rfl

/-- A state whose module is that of `g` followed by one function with one block, and whose
implementation cache is that of `g`. -/
theorem Generator.after_declare (g gB : Generator) (fn : Func) (blk : Block)
    (hg : g.consistent) (hmod : gB.mod = g.mod ++ [fn]) (hblk : fn.Blocks = [blk])
    (hcalls : blk.Insts = []) (himpl : gB.implsOfBinding = g.implsOfBinding) :
    gB.after g ∧ gB.oneBlockAt g.mod.length ∧ gB.mod.length = g.mod.length + 1 := by
  have hget : ∀ h fn', g.mod.get? h = some fn' → gB.mod.get? h = some fn' := by
    intro h fn' hfn'
    rw [hmod]
    have hlt : h < g.mod.length := (List.get?_eq_some.mp hfn').1
    rw [List.get?_eq_getElem?, List.getElem?_append_left hlt, ← List.get?_eq_getElem?]
    exact hfn'
  have hone : ∀ h, g.oneBlockAt h → gB.oneBlockAt h := by
    rintro h ⟨fn', blk', hfn', hb'⟩
    exact ⟨fn', blk', hget h fn' hfn', hb'⟩
  have hcomp : ∀ h, g.completeAt h → gB.completeAt h := by
    rintro h ⟨fn', blk', v, hfn', hb', hv⟩
    exact ⟨fn', blk', v, hget h fn' hfn', hb', hv⟩
  have hlen : gB.mod.length = g.mod.length + 1 := by simp [hmod]
  refine ⟨⟨⟨?_, ?_⟩, by rw [hlen]; exact Nat.le_succ _, hone, hcomp,
    by rw [himpl]; exact fun _ h => h⟩, ?_, hlen⟩
  · intro k h hk
    rw [himpl] at hk
    have := hg.1 k h hk
    exact ⟨by rw [hlen]; exact Nat.lt_succ_of_lt this.1, hcomp h this.2⟩
  · intro fn' hfn' blk' hblk' c args hc
    rw [hmod, List.mem_append, List.mem_singleton] at hfn'
    rcases hfn' with hfn' | rfl
    · have := hg.2 fn' hfn' blk' hblk' c args hc
      rw [hlen]
      exact Nat.lt_succ_of_lt this
    · rw [hblk, List.mem_singleton] at hblk'
      subst hblk'
      rw [hcalls] at hc
      simp at hc
  · refine ⟨fn, blk, ?_, hblk⟩
    rw [hmod]
    simp

theorem Map.lookup_insert_isSome {α : Type} (m : Map α) (k k' : String) (v : α)
    (h : (m.lookup k').isSome = true) : ((m.insert k v).lookup k').isSome = true := by
  by_cases hk : k' = k
  · subst hk
    simp [Map.lookup_insert_self]
  · induction m with
    | nil => simp [Map.lookup] at h
    | cons kv m ih =>
      obtain ⟨k0, x⟩ := kv
      by_cases h0 : k0 = k
      · have h0' : ¬ k0 = k' := by rw [h0]; exact fun hh => hk hh.symm
        simpa [Map.insert, Map.lookup, h0, Ne.symm hk, h0'] using h
      · by_cases h1 : k0 = k'
        · subst h1
          simp [Map.insert, Map.lookup, h0]
        · simp only [Map.insert, Map.lookup, h0, h1, if_false] at h ⊢
          exact ih h

/-- Line 89: caching a handle of a complete function of the module. -/
theorem Generator.after_cache (g : Generator) (key : String) (f : FuncRef) (hg : g.consistent)
    (hf : f < g.mod.length) (hc : g.completeAt f) :
    ({ g with implsOfBinding := g.implsOfBinding.insert key f } : Generator).after g := by
  refine ⟨⟨?_, hg.2⟩, Nat.le_refl _, fun _ h => h, fun _ h => h,
    fun k hk => Map.lookup_insert_isSome _ _ _ _ hk⟩
  intro k h hk
  rcases Map.lookup_insert_cases _ _ _ _ _ hk with rfl | hk
  · exact ⟨hf, hc⟩
  · exact hg.1 k h hk

/-! ## Lemmas: runs keep the state consistent -/

theorem inferReturnType_after_step (fuel : Nat) (ihM : MustGetImplAfter fuel)
    (ihI : InferAfter fuel) : InferAfter (fuel + 1) := by
  intro g bind path binds typeMap hg
  simp only [inferReturnType]
  split
  · next FuncName ExprList hnode =>
    split
    · exact Generator.after_refl g hg
    · next callee hcallee =>
      have hs := Generator.after_store g bind path
        (Expr.FuncCall FuncName (ExprList.map (substArg binds))) hg
      have hM := ihM (g.store bind path (Expr.FuncCall FuncName (ExprList.map (substArg binds))))
        callee (ExprList.map (substArg binds)) hs.1
      split
      · trivial
      · next e g2 heq =>
        rw [heq] at hM
        exact Generator.after_trans _ _ _ hM hs
      · next f g2 heq =>
        rw [heq] at hM
        obtain ⟨hM1, hM2, _⟩ := hM
        have hafter : g2.after g := Generator.after_trans _ _ _ hM1 hs
        have hnew : g.newComplete g2 := by
          intro h hlo hhi
          exact hM2 h hlo hhi
        split
        · exact hafter
        · split
          · exact ⟨hafter, hnew⟩
          · exact hafter
  · next l r op hnode =>
    have hL := ihI g bind (path ++ [Step.L]) binds typeMap hg
    split
    · trivial
    · next e g1 heq => rw [heq] at hL; exact hL
    · next lt g1 heq =>
      rw [heq] at hL
      obtain ⟨hL1, hL2⟩ := hL
      have hR := ihI g1 bind (path ++ [Step.R]) binds typeMap hL1.1
      split
      · trivial
      · next e g2 heq2 => rw [heq2] at hR; exact Generator.after_trans _ _ _ hR hL1
      · next rt g2 heq2 =>
        rw [heq2] at hR
        obtain ⟨hR1, hR2⟩ := hR
        have hafter : g2.after g := Generator.after_trans _ _ _ hR1 hL1
        have hnew : g.newComplete g2 := Generator.newComplete_trans g g1 g2 hL2 hR1 hR2
        split
        · exact hafter
        · exact ⟨hafter, hnew⟩
  · split
    · exact Generator.after_refl g hg
    · exact ⟨Generator.after_refl g hg, Generator.newComplete_same g g rfl⟩
  · exact Generator.after_refl g hg

theorem Generator.emit_done (g0 g : Generator) (b : BlockRef) (i : Inst)
    (hafter : g.after g0) (hnew : g0.newComplete g)
    (hi : ∀ c args, i = Inst.call c args → c < g.mod.length) :
    (g.emit b i).2.after g0 ∧ g0.newComplete (g.emit b i).2 := by
  have he := Generator.after_emit g b i hafter.1 hi
  exact ⟨Generator.after_trans _ _ _ he hafter,
    Generator.newComplete_trans g0 g _ hnew he
      (Generator.newComplete_same _ _ (Generator.emit_length g b i))⟩

theorem genExpr_after_step (fuel : Nat) (ihM : MustGetImplAfter fuel)
    (ihG : GenExprAfter fuel) (ihA : GenArgsAfter fuel) : GenExprAfter (fuel + 1) := by
  intro g b r binds typeMap hg
  simp only [genExpr]
  split
  · next FuncName ExprList hnode =>
    split
    · exact Generator.after_refl g hg
    · next bind hbind =>
      have hM := ihM g bind ExprList hg
      split
      · trivial
      · next e g1 heq => rw [heq] at hM; exact hM
      · next f g1 heq =>
        rw [heq] at hM
        obtain ⟨hM1, hM2, hf, _⟩ := hM
        have hA := ihA g1 b r 0 (g1.exprList r).length binds typeMap [] hM1.1
        split
        · trivial
        · next e g2 heq2 => rw [heq2] at hA; exact Generator.after_trans _ _ _ hA hM1
        · next valueList g2 heq2 =>
          rw [heq2] at hA
          obtain ⟨hA1, hA2⟩ := hA
          apply Generator.emit_done g g2 b _ (Generator.after_trans _ _ _ hA1 hM1)
            (Generator.newComplete_trans g g1 g2 hM2 hA1 hA2)
          intro c args hc
          injection hc with hc1 _
          subst hc1
          exact Nat.lt_of_lt_of_le hf hA1.2.1
  · next l r' op hnode =>
    have hL := ihG g b (r.child Step.L) binds typeMap hg
    split
    · trivial
    · next e g1 heq => rw [heq] at hL; exact hL
    · next x g1 heq =>
      rw [heq] at hL
      obtain ⟨hL1, hL2⟩ := hL
      have hR := ihG g1 b (r.child Step.R) binds typeMap hL1.1
      split
      · trivial
      · next e g2 heq2 => rw [heq2] at hR; exact Generator.after_trans _ _ _ hR hL1
      · next y g2 heq2 =>
        rw [heq2] at hR
        obtain ⟨hR1, hR2⟩ := hR
        have hafter : g2.after g := Generator.after_trans _ _ _ hR1 hL1
        have hnew : g.newComplete g2 := Generator.newComplete_trans g g1 g2 hL2 hR1 hR2
        split
        · exact hafter
        · split
          · exact hafter
          · split
            · split
              · split
                · exact Generator.emit_done g g2 b _ hafter hnew (by intro c args hc; cases hc)
                · split
                  · exact Generator.emit_done g g2 b _ hafter hnew (by intro c args hc; cases hc)
                  · split
                    · exact Generator.emit_done g g2 b _ hafter hnew
                        (by intro c args hc; cases hc)
                    · split
                      · exact Generator.emit_done g g2 b _ hafter hnew
                          (by intro c args hc; cases hc)
                      · exact hafter
              · exact hafter
            · exact hafter
  · exact ihG g b _ binds typeMap hg
  · exact ⟨Generator.after_refl g hg, Generator.newComplete_same g g rfl⟩
  · exact Generator.after_refl g hg

theorem genArgs_after_step (fuel : Nat) (ihG : GenExprAfter fuel) (ihA : GenArgsAfter fuel) :
    GenArgsAfter (fuel + 1) := by
  intro g b r i n binds typeMap valueList hg
  cases n with
  | zero =>
    simp only [genArgs]
    exact ⟨Generator.after_refl g hg, Generator.newComplete_same g g rfl⟩
  | succ n =>
    simp only [genArgs]
    have hG := ihG g b (r.child (Step.arg i)) binds typeMap hg
    split
    · trivial
    · next e g1 heq => rw [heq] at hG; exact hG
    · next v g1 heq =>
      rw [heq] at hG
      obtain ⟨hG1, hG2⟩ := hG
      have hA := ihA g1 b r (i + 1) n binds typeMap (valueList ++ [v]) hG1.1
      generalize genArgs fuel g1 b r (i + 1) n binds typeMap (valueList ++ [v]) = res at hA
      cases res with
      | diverge => trivial
      | panic e g2 => exact Generator.after_trans _ _ _ hA hG1
      | ok vs g2 =>
        exact ⟨Generator.after_trans _ _ _ hA.1 hG1,
          Generator.newComplete_trans g g1 g2 hG2 hA.1 hA.2⟩

theorem funcBody_after_step (fuel : Nat) (ihG : GenExprAfter fuel) : FuncBodyAfter (fuel + 1) := by
  intro g b r binds typeMap hg hblock hone
  simp only [funcBody]
  have hG := ihG g b r binds typeMap hg
  split
  · trivial
  · next e g1 heq => rw [heq] at hG; exact hG
  · next v g1 heq =>
    rw [heq] at hG
    obtain ⟨hG1, hG2⟩ := hG
    have hret := Generator.after_NewRet g1 b v hG1.1
    refine ⟨Generator.after_trans _ _ _ hret hG1,
      Generator.newComplete_trans g g1 _ hG2 hret
        (Generator.newComplete_same _ _ (Generator.NewRet_length g1 b v)), ?_⟩
    have hb : b = ⟨b.func, 0⟩ := by
      cases b with
      | mk f k => simp only at hblock; subst hblock; rfl
    rw [hb]
    exact Generator.NewRet_completeAt g1 b.func v (hG1.2.2.1 b.func hone)

theorem mustGetImpl_after_step (fuel : Nat) (ihI : InferAfter fuel) (ihF : FuncBodyAfter fuel) :
    MustGetImplAfter (fuel + 1) := by
  intro g bind argList hg
  simp only [mustGetImpl]
  split
  · exact Generator.after_refl g hg
  · next bnd hb =>
    split
    · exact Generator.after_refl g hg
    · next key hk =>
      split
      · next impl hc =>
        exact ⟨Generator.after_refl g hg, Generator.newComplete_same g g rfl,
          (hg.1 key impl hc).1, (hg.1 key impl hc).2⟩
      · split
        · exact Generator.after_refl g hg
        · split
          · exact Generator.after_refl g hg
          · next typeList hts =>
            split
            · exact Generator.after_refl g hg
            · next binds params hba =>
              split
              · exact Generator.after_refl g hg
              · next typeMap hbt =>
                have hI := ihI g bind [] binds typeMap hg
                split
                · trivial
                · next e g1 heq => rw [heq] at hI; exact hI
                · next inferT g1 heq =>
                  rw [heq] at hI
                  obtain ⟨hI1, hI2⟩ := hI
                  let g2 : Generator := { g1 with typMap := g1.typeOfBinding.insert key inferT }
                  let fg := g2.NewFunc bnd.Name inferT.llvm params
                  let bg := fg.2.NewBlock fg.1
                  have h2 : g2.after g1 := Generator.after_setType g1 _ hI1.1
                  have hd := Generator.declare_mod g2 bnd.Name inferT.llvm params
                  have hB := Generator.after_declare g2 bg.2 _ ⟨[], none⟩ h2.1 hd.2.2.1 rfl rfl
                    hd.2.2.2
                  have hlen2 : g2.mod.length = g1.mod.length := rfl
                  have hbg1 : bg.1 = ⟨g1.mod.length, 0⟩ := hd.2.1
                  have hF := ihF bg.2 bg.1 (Ref.body bind []) binds typeMap hB.1.1
                    (by rw [hbg1]) (by rw [hbg1]; exact hB.2.1)
                  have hfg1 : fg.1 = g1.mod.length := rfl
                  simp only [bg, fg, g2] at hF hbg1 hfg1 hB
                  split
                  · trivial
                  · next e g5 heq5 =>
                    rw [heq5] at hF
                    exact Generator.after_trans _ _ _ hF
                      (Generator.after_trans _ _ _ hB.1 (Generator.after_trans _ _ _ h2 hI1))
                  · next u g5 heq5 =>
                    rw [heq5] at hF
                    obtain ⟨hF1, hF2, hF3⟩ := hF
                    rw [hbg1] at hF3
                    simp only at hF3
                    have hf5 : g1.mod.length < g5.mod.length := by
                      have := hF1.2.1
                      have := hB.2.2
                      omega
                    have hc := Generator.after_cache g5 key g1.mod.length hF1.1 hf5 hF3
                    have hchain : g5.after g := Generator.after_trans _ _ _ hF1
                      (Generator.after_trans _ _ _ hB.1 (Generator.after_trans _ _ _ h2 hI1))
                    refine ⟨Generator.after_trans _ _ _ hc hchain, ?_, hf5, hF3⟩
                    intro h hlo hhi
                    by_cases h1 : h < g1.mod.length
                    · exact hF1.2.2.2.1 h (hB.1.2.2.2.1 h (h2.2.2.2.1 h (hI2 h hlo h1)))
                    · by_cases h2' : h = g1.mod.length
                      · rw [h2']; exact hF3
                      · apply hF2 h _ hhi
                        have := hB.2.2
                        omega

theorem run_after (fuel : Nat) :
    MustGetImplAfter fuel ∧ InferAfter fuel ∧ FuncBodyAfter fuel ∧ GenExprAfter fuel ∧
      GenArgsAfter fuel := by
  induction fuel with
  | zero =>
    refine ⟨?_, ?_, ?_, ?_, ?_⟩
    · intro g bind argList _; simp only [mustGetImpl]; trivial
    · intro g bind path binds typeMap _; simp only [inferReturnType]; trivial
    · intro g b r binds typeMap _ _ _; simp only [funcBody]; trivial
    · intro g b r binds typeMap _; simp only [genExpr]; trivial
    · intro g b r i n binds typeMap vs _; simp only [genArgs]; trivial
  | succ fuel ih =>
    obtain ⟨ihM, ihI, ihF, ihG, ihA⟩ := ih
    exact ⟨mustGetImpl_after_step fuel ihI ihF, inferReturnType_after_step fuel ihM ihI,
      funcBody_after_step fuel ihG, genExpr_after_step fuel ihM ihG ihA,
      genArgs_after_step fuel ihG ihA⟩

theorem New_consistent (heap : List Binding) (bindMap : Map Nat) :
    (New heap bindMap).consistent := by
  refine ⟨?_, ?_⟩
  · intro k h hk
    simp [New, Map.lookup] at hk
  · intro fn hfn
    simp [New] at hfn

theorem mustGetImpl_state_after (fuel : Nat) (g g1 : Generator) (bind : Nat)
    (argList : List Arg) (hg : g.consistent)
    (h : (mustGetImpl fuel g bind argList).state? = some g1) : g1.after g := by
  have hM := (run_after fuel).1 g bind argList hg
  generalize mustGetImpl fuel g bind argList = res at h hM
  cases res with
  | diverge => simp [Res.state?] at h
  | panic e g2 =>
    simp only [Res.state?, Option.some.injEq] at h
    subst h
    exact hM
  | ok f g2 =>
    simp only [Res.state?, Option.some.injEq] at h
    subst h
    exact hM.1

theorem Reaches_after (g g1 : Generator) (hg : g.consistent) (h : Reaches g g1) :
    g1.after g := by
  induction h with
  | refl => exact Generator.after_refl g hg
  | call g1 g2 fuel bind argList _ hstep ih =>
    exact Generator.after_trans _ _ _
      (mustGetImpl_state_after fuel g1 g2 bind argList ih.1 hstep) ih

theorem Reachable_consistent (g : Generator) (h : Reachable g) : g.consistent := by
  obtain ⟨heap, bindMap, hr⟩ := h
  exact (Reaches_after _ g (New_consistent heap bindMap) hr).1

theorem Reachable_call (g g1 : Generator) (fuel bind : Nat) (argList : List Arg)
    (hg : Reachable g) (h : (mustGetImpl fuel g bind argList).state? = some g1) :
    Reachable g1 := by
  obtain ⟨heap, bindMap, hr⟩ := hg
  exact ⟨heap, bindMap, Reaches.call g g1 fuel bind argList hr h⟩

/-! ## Lemmas: the integer type is the only type -/

theorem TypeOf_int : ∀ (e : Expr) (t : Ty), TypeOf e = some t → t = Ty.Int
  | Expr.ofArg (Arg.mk _ e), t, h => by
    simp only [TypeOf] at h
    exact TypeOf_int e t h
  | Expr.Int _, t, h => by
    simp only [TypeOf, Option.some.injEq] at h
    exact h.symm
  | Expr.nil, _, h => by simp [TypeOf] at h
  | Expr.Ident _, _, h => by simp [TypeOf] at h
  | Expr.BinaryExpr _ _ _, _, h => by simp [TypeOf] at h
  | Expr.FuncCall _ _, _, h => by simp [TypeOf] at h

theorem typesOf_int (es : List Expr) (ts : List Ty) (h : typesOf es = some ts) :
    ts = es.map (fun _ => Ty.Int) := by
  induction es generalizing ts with
  | nil => simp [typesOf] at h; subst h; rfl
  | cons e es ih =>
    simp only [typesOf] at h
    split at h
    · simp at h
    · next t ht =>
      split at h
      · simp at h
      · next ts' hts =>
        injection h with h
        subst h
        rw [TypeOf_int e t ht, ih ts' hts]
        rfl

/-! ## C12, C13: specialization keys -/

theorem intercalate_go_prefix (a b s : String) (l : List String) :
    String.intercalate.go (a ++ b) s l = a ++ String.intercalate.go b s l := by
  induction l generalizing b with
  | nil => simp [String.intercalate.go]
  | cons x xs ih =>
    simp only [String.intercalate.go]
    rw [String.append_assoc, String.append_assoc, ih, String.append_assoc]

theorem intercalate_go_cons (a s x : String) (xs : List String) :
    String.intercalate.go a s (x :: xs) = a ++ s ++ String.intercalate.go x s xs := by
  simp only [String.intercalate.go]
  exact intercalate_go_prefix (a ++ s) x s xs

theorem genKeyByTypes_body (init : String) (t : Ty) (ts : List Ty) :
    ∃ last, (t :: ts).getLast? = some last ∧
      (t :: ts).dropLast.foldl (fun b t => b ++ t.name ++ ",") init ++ last.name ++ ")" =
        init ++ String.intercalate.go t.name "," (ts.map Ty.name) ++ ")" := by
  induction ts generalizing t init with
  | nil => exact ⟨t, rfl, by simp [String.intercalate.go]⟩
  | cons u us ih =>
    obtain ⟨last, hlast, h⟩ := ih (init ++ t.name ++ ",") u
    refine ⟨last, by simpa using hlast, ?_⟩
    simp only [List.dropLast_cons₂, List.foldl_cons, List.map_cons]
    rw [h, intercalate_go_cons]
    simp only [String.append_assoc]

theorem genKeyByTypes_cons (bindName : String) (t : Ty) (ts : List Ty) :
    genKeyByTypes bindName (t :: ts) =
      bindName ++ "(" ++ String.intercalate "," ((t :: ts).map Ty.name) ++ ")" := by
  obtain ⟨last, hlast, h⟩ := genKeyByTypes_body (bindName ++ "(") t ts
  simp only [genKeyByTypes, hlast, h, List.map_cons, String.intercalate]

/-- C12: for a non-empty list of types `genKeyByTypes` returns the name, `(`, the type names
separated by single commas (nothing after the last, no space added) and `)`; two ints give
`add(int,int)`; for the empty list it returns the bare name, without parentheses. -/
theorem C12_key_format (bindName : String) (t : Ty) (ts : List Ty) :
    genKeyByTypes bindName (t :: ts) =
      bindName ++ "(" ++ String.intercalate "," ((t :: ts).map Ty.name) ++ ")" ∧
    genKeyByTypes bindName [] = bindName ∧
    genKeyByTypes "add" [Ty.Int, Ty.Int] = "add(int,int)" :=
  ⟨genKeyByTypes_cons bindName t ts, rfl, by decide⟩

theorem split_unique (c : Char) (u v r r' : List Char) (hu : c ∉ u) (hv : c ∉ v)
    (h : u ++ c :: r = v ++ c :: r') : u = v ∧ r = r' := by
  induction u generalizing v with
  | nil =>
    cases v with
    | nil => simpa using h
    | cons y ys =>
      simp only [List.nil_append, List.cons_append, List.cons.injEq] at h
      exact absurd h.1 (by intro hc; exact hv (by simp [hc]))
  | cons x xs ih =>
    cases v with
    | nil =>
      simp only [List.nil_append, List.cons_append, List.cons.injEq] at h
      exact absurd h.1.symm (by intro hc; exact hu (by simp [hc]))
    | cons y ys =>
      simp only [List.cons_append, List.cons.injEq] at h
      obtain ⟨hxy, hrest⟩ := h
      have := ih ys (fun hc => hu (List.mem_cons_of_mem _ hc))
        (fun hc => hv (List.mem_cons_of_mem _ hc)) hrest
      exact ⟨by rw [hxy, this.1], this.2⟩

theorem intercalate_go_injective (a b : String) (l m : List String)
    (ha : ',' ∉ a.data) (hb : ',' ∉ b.data)
    (hl : ∀ s ∈ l, ',' ∉ s.data) (hm : ∀ s ∈ m, ',' ∉ s.data)
    (h : String.intercalate.go a "," l = String.intercalate.go b "," m) : a :: l = b :: m := by
  induction l generalizing a b m with
  | nil =>
    cases m with
    | nil => simpa [String.intercalate.go] using h
    | cons y ys =>
      exfalso
      rw [intercalate_go_cons] at h
      simp only [String.intercalate.go] at h
      apply ha
      rw [h]
      simp
  | cons x xs ih =>
    cases m with
    | nil =>
      exfalso
      rw [intercalate_go_cons] at h
      simp only [String.intercalate.go] at h
      apply hb
      rw [← h]
      simp
    | cons y ys =>
      rw [intercalate_go_cons, intercalate_go_cons] at h
      have hd := congrArg String.data h
      simp only [String.data_append] at hd
      rw [List.append_assoc, List.append_assoc] at hd
      obtain ⟨hab, hrest⟩ := split_unique ',' _ _ _ _ ha hb hd
      have hab' : a = b := String.ext hab
      have hrest' : String.intercalate.go x "," xs = String.intercalate.go y "," ys :=
        String.ext hrest
      have := ih x y ys (hl x (List.mem_cons_self _ _)) (hm y (List.mem_cons_self _ _))
        (fun s hs => hl s (List.mem_cons_of_mem _ hs))
        (fun s hs => hm s (List.mem_cons_of_mem _ hs)) hrest'
      rw [hab', this]

/-- C13: for one binding name and two lists of types whose names are plain (not empty, without
`(`, `,` and `)`), equal keys force the two lists to have the same length and the same type
name at every position: different tuples of argument types never collide on a key. -/
theorem C13_key_injective (bindName : String) (ts1 ts2 : List Ty)
    (h1 : ∀ t ∈ ts1, plainName t.name) (h2 : ∀ t ∈ ts2, plainName t.name)
    (hkey : genKeyByTypes bindName ts1 = genKeyByTypes bindName ts2) :
    ts1.length = ts2.length ∧ ts1.map Ty.name = ts2.map Ty.name := by
  have hcomma : ∀ (ts : List Ty), (∀ t ∈ ts, plainName t.name) →
      ∀ s ∈ ts.map Ty.name, ',' ∉ s.data := by
    intro ts hts s hs hc
    obtain ⟨t, ht, rfl⟩ := List.mem_map.mp hs
    exact ((hts t ht).2 ',' hc).2.1 rfl
  have hnames : ts1.map Ty.name = ts2.map Ty.name := by
    cases ts1 with
    | nil =>
      cases ts2 with
      | nil => rfl
      | cons u us =>
        exfalso
        rw [genKeyByTypes_cons] at hkey
        have hlen := congrArg String.length hkey
        simp only [genKeyByTypes, List.getLast?_nil, String.length_append] at hlen
        have : ("(" : String).length = 1 := rfl
        omega
    | cons t ts =>
      cases ts2 with
      | nil =>
        exfalso
        rw [genKeyByTypes_cons] at hkey
        have hlen := congrArg String.length hkey
        simp only [genKeyByTypes, List.getLast?_nil, String.length_append] at hlen
        have : ("(" : String).length = 1 := rfl
        omega
      | cons u us =>
        rw [genKeyByTypes_cons, genKeyByTypes_cons] at hkey
        have hd := congrArg String.data hkey
        simp only [String.data_append, List.append_assoc, List.append_cancel_left_eq] at hd
        have hd2 := List.append_cancel_right hd
        have hgo : String.intercalate.go t.name "," (ts.map Ty.name) =
            String.intercalate.go u.name "," (us.map Ty.name) := by
          apply String.ext
          simpa [String.intercalate] using hd2
        have hc1 := hcomma (t :: ts) h1
        have hc2 := hcomma (u :: us) h2
        simp only [List.map_cons] at hc1 hc2 ⊢
        exact intercalate_go_injective t.name u.name _ _
          (hc1 _ (List.mem_cons_self _ _)) (hc2 _ (List.mem_cons_self _ _))
          (fun s hs => hc1 s (List.mem_cons_of_mem _ hs))
          (fun s hs => hc2 s (List.mem_cons_of_mem _ hs)) hgo
  exact ⟨by simpa using congrArg List.length hnames, hnames⟩

/-- C13 witness: with the type int, whose name is plain, the keys of `add` for one and for two
arguments differ, and equal keys come from lists with the same names. -/
theorem C13_key_injective_witness :
    genKeyByTypes "add" [Ty.Int] ≠ genKeyByTypes "add" [Ty.Int, Ty.Int] ∧
    ([Ty.Int, Ty.Int].length = [Ty.Int, Ty.Int].length ∧
      [Ty.Int, Ty.Int].map Ty.name = [Ty.Int, Ty.Int].map Ty.name) :=
  ⟨by decide,
   C13_key_injective "add" [Ty.Int, Ty.Int] [Ty.Int, Ty.Int]
     (by intro t ht; simp at ht; rw [ht]; exact ⟨by decide, by decide⟩)
     (by intro t ht; simp at ht; rw [ht]; exact ⟨by decide, by decide⟩) rfl⟩

/-! ## C14, C15: inference of identifiers and binary expressions -/

/-- C14: inference of an identifier node returns the entry of the identifier in the type
environment when there is one and panics with the unknown-identifier error otherwise,
whatever the substitution environment, and in both cases the generator state is unchanged. -/
theorem C14_identifier_inference (fuel : Nat) (g : Generator) (bind : Nat) (path : List Step)
    (binds : Map Expr) (typeMap : Map Ty) (n : String)
    (hnode : g.deref (Ref.body bind path) = Expr.Ident n) :
    (∀ t, typeMap.lookup n = some t →
      inferReturnType (fuel + 1) g bind path binds typeMap = Res.ok t g) ∧
    (typeMap.lookup n = none →
      inferReturnType (fuel + 1) g bind path binds typeMap = Res.panic (Err.unknownIdent n) g) := by
  constructor
  · intro t ht
    simp only [inferReturnType, hnode, ht]
  · intro ht
    simp only [inferReturnType, hnode, ht]

/-- C14 witness: in the body `x + y` of `add`, the left operand `x` has the type the
environment gives it, and the unknown-identifier error is raised under an environment
without `x`. -/
theorem C14_identifier_inference_witness :
    inferReturnType 1 (New bindings bindMap) 1 [Step.L] [] [("x", Ty.Int)] =
      Res.ok Ty.Int (New bindings bindMap) ∧
    inferReturnType 1 (New bindings bindMap) 1 [Step.L] [] [("y", Ty.Int)] =
      Res.panic (Err.unknownIdent "x") (New bindings bindMap) :=
  ⟨(C14_identifier_inference 0 (New bindings bindMap) 1 [Step.L] [] [("x", Ty.Int)] "x"
      (by rfl)).1 Ty.Int (by decide),
   (C14_identifier_inference 0 (New bindings bindMap) 1 [Step.L] [] [("y", Ty.Int)] "x"
      (by rfl)).2 (by decide)⟩

/-- C15: when the operands of a binary expression infer to `lt` and `rt`, inference of the
expression looks up exactly the key `op(lt,rt)` in the type table as it is after the operands
were inferred: it returns the entry stored under that key when there is one and panics with
the unresolved-operator error of that key when there is none. -/
theorem C15_binary_inference (fuel : Nat) (g g1 g2 : Generator) (bind : Nat) (path : List Step)
    (binds : Map Expr) (typeMap : Map Ty) (l r : Expr) (op : String) (lt rt : Ty)
    (hnode : g.deref (Ref.body bind path) = Expr.BinaryExpr l r op)
    (hl : inferReturnType fuel g bind (path ++ [Step.L]) binds typeMap = Res.ok lt g1)
    (hr : inferReturnType fuel g1 bind (path ++ [Step.R]) binds typeMap = Res.ok rt g2) :
    genKeyByTypes op [lt, rt] = op ++ "(" ++ lt.name ++ "," ++ rt.name ++ ")" ∧
    (∀ t, g2.typMap.lookup (op ++ "(" ++ lt.name ++ "," ++ rt.name ++ ")") = some t →
      inferReturnType (fuel + 1) g bind path binds typeMap = Res.ok t g2) ∧
    (g2.typMap.lookup (op ++ "(" ++ lt.name ++ "," ++ rt.name ++ ")") = none →
      inferReturnType (fuel + 1) g bind path binds typeMap =
        Res.panic (Err.cantInfer (op ++ "(" ++ lt.name ++ "," ++ rt.name ++ ")")) g2) := by
  have hkey : genKeyByTypes op [lt, rt] = op ++ "(" ++ lt.name ++ "," ++ rt.name ++ ")" := rfl
  refine ⟨hkey, ?_, ?_⟩
  · intro t ht
    simp only [inferReturnType, hnode, hl, hr, hkey, Generator.typeOfBind,
      Generator.typeOfBuiltInBinding, ht]
  · intro ht
    simp only [inferReturnType, hnode, hl, hr, hkey, Generator.typeOfBind,
      Generator.typeOfBuiltInBinding, Generator.typeOfBinding, ht]

/-- C15 witness: the body `x + y` of `add` with both parameters of type int infers to the
entry of `+(int,int)`; with the operator `-` the same operands give the unresolved-operator
error for `-(int,int)`. -/
theorem C15_binary_inference_witness :
    inferReturnType 2 (New bindings bindMap) 1 [] [] [("x", Ty.Int), ("y", Ty.Int)] =
      Res.ok Ty.Int (New bindings bindMap) ∧
    inferReturnType 2 (arithStart "-") 0 [] [] [("x", Ty.Int), ("y", Ty.Int)] =
      Res.panic (Err.cantInfer "-(int,int)") (arithStart "-") :=
  ⟨(C15_binary_inference 1 (New bindings bindMap) (New bindings bindMap) (New bindings bindMap)
      1 [] [] [("x", Ty.Int), ("y", Ty.Int)] (NewIdent "x") (NewIdent "y") "+" Ty.Int Ty.Int
      (by rfl) (by rfl) (by rfl)).2.1 Ty.Int (by decide),
   (C15_binary_inference 1 (arithStart "-") (arithStart "-") (arithStart "-")
      0 [] [] [("x", Ty.Int), ("y", Ty.Int)] (NewIdent "x") (NewIdent "y") "-" Ty.Int Ty.Int
      (by rfl) (by rfl) (by rfl)).2.2 (by decide)⟩

/-! ## C16: lowering of identifiers -/

theorem genExpr_value_not_param (fuel : Nat) :
    ∀ (g g1 : Generator) (b : BlockRef) (r : Ref) (binds : Map Expr) (typeMap : Map Ty)
      (v : Value), genExpr fuel g b r binds typeMap = Res.ok v g1 → ∀ i, v ≠ Value.param i := by
  induction fuel with
  | zero => intro g g1 b r binds typeMap v h; simp [genExpr] at h
  | succ fuel ih =>
    intro g g1 b r binds typeMap v h i
    simp only [genExpr] at h
    split at h
    · split at h
      · cases h
      · split at h
        · cases h
        · cases h
        · split at h
          · cases h
          · cases h
          · injection h with h1 _
            subst h1
            simp [Generator.emit]
    · split at h
      · cases h
      · cases h
      · split at h
        · cases h
        · cases h
        · split at h
          · cases h
          · split at h
            · cases h
            · split at h
              · split at h
                · split at h
                  · injection h with h1 _; subst h1; simp [Generator.emit]
                  · split at h
                    · injection h with h1 _; subst h1; simp [Generator.emit]
                    · split at h
                      · injection h with h1 _; subst h1; simp [Generator.emit]
                      · split at h
                        · injection h with h1 _; subst h1; simp [Generator.emit]
                        · cases h
                · cases h
              · cases h
    · exact ih _ _ _ _ _ _ _ h i
    · injection h with h1 _; subst h1; simp
    · cases h

/-- C16: lowering an identifier bound in the substitution environment is lowering the
caller-supplied expression bound to it: same instructions emitted, same value, same final
state (or the same panic); and no lowering ever returns a parameter of the generated
function as its value. -/
theorem C16_identifier_lowering_is_substitution (fuel : Nat) (g : Generator) (b : BlockRef)
    (r : Ref) (binds : Map Expr) (typeMap : Map Ty) (n : String) (e : Expr)
    (hnode : g.deref r = Expr.Ident n) (hbound : binds.lookup n = some e) :
    genExpr (fuel + 1) g b r binds typeMap = genExpr fuel g b (Ref.val e) binds typeMap ∧
    (∀ v g1, genExpr (fuel + 1) g b r binds typeMap = Res.ok v g1 → ∀ i, v ≠ Value.param i) := by
  constructor
  · simp only [genExpr, hnode, hbound, Option.getD]
  · intro v g1 h
    exact genExpr_value_not_param (fuel + 1) g g1 b r binds typeMap v h

/-- C16 witness: in the body of `add` with `x` bound to the literal `1`, lowering `x` gives
what lowering the literal gives, the constant `1`, and emits nothing. -/
theorem C16_identifier_lowering_is_substitution_witness :
    genExpr 2 (New bindings bindMap) ⟨0, 0⟩ (Ref.body 1 [Step.L]) [("x", NewInt "1")] [] =
      genExpr 1 (New bindings bindMap) ⟨0, 0⟩ (Ref.val (NewInt "1")) [("x", NewInt "1")] [] ∧
    genExpr 1 (New bindings bindMap) ⟨0, 0⟩ (Ref.val (NewInt "1")) [("x", NewInt "1")] [] =
      Res.ok (Value.const "1") (New bindings bindMap) :=
  ⟨(C16_identifier_lowering_is_substitution 1 (New bindings bindMap) ⟨0, 0⟩ (Ref.body 1 [Step.L])
      [("x", NewInt "1")] [] "x" (NewInt "1") (by rfl) (by rfl)).1, by rfl⟩

/-! ## C17: forward consistency -/

/-- C17: in every state reachable from a fresh generator by specialize requests (returned or
panicked), every handle stored in the implementation cache is a declaration present in the
module, and every call instruction in the body of any declaration targets a declaration
present in the module. -/
theorem C17_forward_consistency (g : Generator) (hg : Reachable g) :
    (∀ key f, g.implsOfBinding.lookup key = some f → ∃ fn, g.mod.get? f = some fn) ∧
    (∀ fn ∈ g.mod, ∀ blk ∈ fn.Blocks, ∀ callee args, Inst.call callee args ∈ blk.Insts →
      ∃ target, g.mod.get? callee = some target) := by
  have hc := Reachable_consistent g hg
  constructor
  · intro key f hk
    obtain ⟨fn, _, _, hfn, _⟩ := (hc.1 key f hk).2
    exact ⟨fn, hfn⟩
  · intro fn hfn blk hblk callee args hcall
    have hlt := hc.2 fn hfn blk hblk callee args hcall
    exact ⟨g.mod.get ⟨callee, hlt⟩, List.get?_eq_get hlt⟩

/-- C17 witness: the state after `Call(addOne, 2)` on the generator of the test is reachable;
the handle cached for `addOne(int)` and the target of the call in the body of `addOne` are
declarations of its module. -/
theorem C17_forward_consistency_witness :
    Reachable (afterAddOne "2") ∧
    (∃ fn, (afterAddOne "2").mod.get? 1 = some fn) ∧
    (∃ target, (afterAddOne "2").mod.get? 0 = some target) :=
  have hr : Reachable (afterAddOne "2") :=
    ⟨bindings, bindMap,
      Reaches.call _ _ 7 0 [intArg "2"] Reaches.refl (by rfl)⟩
  ⟨hr, (C17_forward_consistency (afterAddOne "2") hr).1 "addOne(int)" 1 (by decide),
    (C17_forward_consistency (afterAddOne "2") hr).2
      { name := "addOne", retType := LLVMType.I64, Params := [⟨"", LLVMType.I64⟩],
        Blocks := [⟨[Inst.call 0 [Value.const "1", Value.const "2"]], some (Value.inst 0)⟩] }
      (by simp [afterAddOne])
      ⟨[Inst.call 0 [Value.const "1", Value.const "2"]], some (Value.inst 0)⟩
      (by simp) 0 [Value.const "1", Value.const "2"] (by simp)⟩

/-! ## C18: the return of a generated function -/

theorem funcBody_ok (fuel : Nat) (g g1 : Generator) (b : BlockRef) (r : Ref) (binds : Map Expr)
    (typeMap : Map Ty) (h : funcBody fuel g b r binds typeMap = Res.ok () g1) :
    ∃ fuel' v g5, fuel = fuel' + 1 ∧ genExpr fuel' g b r binds typeMap = Res.ok v g5 ∧
      g1 = g5.NewRet b v := by
  cases fuel with
  | zero => simp [funcBody] at h
  | succ fuel =>
    simp only [funcBody] at h
    split at h
    · cases h
    · cases h
    · next v g5 heq =>
      injection h with _ h2
      exact ⟨fuel, v, g5, rfl, heq, h2.symm⟩

/-- C19 (code): the table of built-in operators is not fixed. On the fresh generator of the
test `isBuiltIn` is false for the key `add(int,int)`; `Call(add, 1, 2)` succeeds and ends in
`afterAdd`, where `isBuiltIn` is true for that key: `New` stores one and the same map in
`typeOfBuiltInBinding` and `typeOfBinding`, so registering the inferred type of the user
specialization writes into the built-in table. The entry of `+(int,int)` stays int. -/
theorem C19_user_type_enters_builtin_table :
    (New bindings bindMap).isBuiltIn "add(int,int)" = false ∧
    mustGetImpl 8 (New bindings bindMap) 1 [intArg "1", intArg "2"] = Res.ok 0 afterAdd ∧
    afterAdd.isBuiltIn "add(int,int)" = true ∧
    (New bindings bindMap).typeOfBuiltInBinding.lookup "+(int,int)" = some Ty.Int ∧
    afterAdd.typeOfBuiltInBinding.lookup "+(int,int)" = some Ty.Int :=
  ⟨by decide, by rfl, by decide, by decide, by decide⟩

/-! ## Lemmas: old declarations are never changed -/

theorem Map.lookup_insert_ne {α : Type} (m : Map α) (k k' : String) (v : α) (h : k' ≠ k) :
    (m.insert k v).lookup k' = m.lookup k' := by
  induction m with
  | nil => simp [Map.insert, Map.lookup, Ne.symm h]
  | cons kv m ih =>
    obtain ⟨k0, x⟩ := kv
    by_cases h0 : k0 = k
    · have h0' : ¬ k0 = k' := by rw [h0]; exact fun hh => h hh.symm
      simp [Map.insert, Map.lookup, h0, Ne.symm h, h0']
    · by_cases h1 : k0 = k'
      · subst h1
        simp [Map.insert, Map.lookup, h0]
      · simp [Map.insert, Map.lookup, h0, h1, ih]

theorem sigKey_request (name : String) (argList : List Arg) (ts : List Ty)
    (hts : typesOf (argList.map Expr.ofArg) = some ts) :
    sigKey (name, ts.map Ty.llvm) = genKeyByTypes name ts := by
  have hint := typesOf_int _ _ hts
  simp only [sigKey]
  congr 1
  rw [hint]
  simp [List.map_map, Function.comp_def]

theorem Generator.typesFrom_same (g1 g : Generator) (h : g1.typMap = g.typMap) :
    g1.typesFrom g := by
  intro k hk
  rw [h] at hk
  exact Or.inl hk

theorem Generator.typesFrom_trans (g2 g1 g : Generator) (h2 : g2.typesFrom g1)
    (h1 : g1.typesFrom g) (hlen : g.mod.length ≤ g1.mod.length)
    (hsig : ∀ i fn, g1.mod.get? i = some fn → ∃ fn', g2.mod.get? i = some fn' ∧
      fn'.sig = fn.sig) : g2.typesFrom g := by
  intro k hk
  rcases h2 k hk with hk1 | ⟨i, fn, hi, hfn, hkey⟩
  · rcases h1 k hk1 with hk0 | ⟨i, fn, hi, hfn, hkey⟩
    · exact Or.inl hk0
    · obtain ⟨fn', hfn', hs⟩ := hsig i fn hfn
      exact Or.inr ⟨i, fn', hi, hfn', by rw [hs]; exact hkey⟩
  · exact Or.inr ⟨i, fn, Nat.le_trans hlen hi, hfn, hkey⟩

theorem Generator.bodiesFrom_same (g1 g : Generator) (h : g1.heap = g.heap) :
    g1.bodiesFrom g := by
  intro i b hb
  exact ⟨b, by rw [h]; exact hb, rfl, rfl, rfl⟩

theorem Generator.bodiesFrom_trans (g2 g1 g : Generator) (h2 : g2.bodiesFrom g1)
    (h1 : g1.bodiesFrom g) : g2.bodiesFrom g := by
  intro i b hb
  obtain ⟨b1, hb1, hn1, hp1, hs1⟩ := h1 i b hb
  obtain ⟨b2, hb2, hn2, hp2, hs2⟩ := h2 i b1 hb1
  exact ⟨b2, hb2, hn2.trans hn1, hp2.trans hp1, hs2.trans hs1⟩

theorem substArg_Ident (binds : Map Expr) (a : Arg) : (substArg binds a).Ident = a.Ident := by
  cases a with
  | mk label e =>
    cases e with
    | Ident q => simp [substArg, Arg.Ident]
    | nil => simp [substArg]
    | Int l => simp [substArg]
    | BinaryExpr l r op => simp [substArg]
    | FuncCall m args => simp [substArg]
    | ofArg a0 => simp [substArg]

/-- Overwriting a call node by a call of the same name, with the same argument labels, leaves
the skeleton as it was. -/
theorem Expr.skel_set (e : Expr) (p : List Step) (n : String) (args args1 : List Arg)
    (hget : e.get p = Expr.FuncCall n args)
    (hlab : args1.map Arg.Ident = args.map Arg.Ident) :
    (e.set p (Expr.FuncCall n args1)).skel = e.skel := by
  induction p generalizing e with
  | nil =>
    simp only [Expr.get] at hget
    subst hget
    simp only [Expr.set, Expr.skel, Expr.FuncCall.injEq, true_and]
    have := congrArg (List.map (fun l => Arg.mk l Expr.nil)) hlab
    simpa [List.map_map, Function.comp_def] using this
  | cons s p ih =>
    cases e with
    | BinaryExpr l r op =>
      cases s with
      | L =>
        simp only [Expr.set, Expr.skel]
        rw [ih l (by simpa [Expr.get, Expr.child] using hget)]
      | R =>
        simp only [Expr.set, Expr.skel]
        rw [ih r (by simpa [Expr.get, Expr.child] using hget)]
      | arg i => simp [Expr.set]
      | inner => simp [Expr.set]
    | FuncCall m args0 =>
      cases s with
      | arg i =>
        simp only [Expr.set, Expr.skel, Expr.FuncCall.injEq, true_and]
        apply updateAt_map
        intro a
        rfl
      | L => simp [Expr.set]
      | R => simp [Expr.set]
      | inner => simp [Expr.set]
    | ofArg a =>
      cases s with
      | inner => simp [Expr.set, Expr.skel]
      | L => simp [Expr.set]
      | R => simp [Expr.set]
      | arg i => simp [Expr.set]
    | nil => simp [Expr.set]
    | Int l => simp [Expr.set]
    | Ident q => simp [Expr.set]

theorem Generator.grownFrom_refl (g : Generator) : g.grownFrom g :=
  ⟨rfl, rfl, Nat.le_refl _, fun _ _ h => h, fun _ h => h, fun _ h => h,
    Generator.typesFrom_same g g rfl, Generator.bodiesFrom_same g g rfl⟩

theorem Generator.grownFrom_trans (g2 g1 g : Generator) (h2 : g2.grownFrom g1)
    (h1 : g1.grownFrom g) : g2.grownFrom g :=
  ⟨h2.1.trans h1.1, h2.2.1.trans h1.2.1, Nat.le_trans h1.2.2.1 h2.2.2.1,
    fun i fn h => h2.2.2.2.1 i fn (h1.2.2.2.1 i fn h),
    fun k h => h2.2.2.2.2.1 k (h1.2.2.2.2.1 k h),
    fun k h => h2.2.2.2.2.2.1 k (h1.2.2.2.2.2.1 k h),
    Generator.typesFrom_trans g2 g1 g h2.2.2.2.2.2.2.1 h1.2.2.2.2.2.2.1 h1.2.2.1
      (fun i fn h => ⟨fn, h2.2.2.2.1 i fn h, rfl⟩),
    Generator.bodiesFrom_trans g2 g1 g h2.2.2.2.2.2.2.2 h1.2.2.2.2.2.2.2⟩

theorem Generator.grownFromAt_refl (g : Generator) (f : FuncRef) : g.grownFromAt g f :=
  ⟨rfl, rfl, Nat.le_refl _, fun _ fn h => ⟨fn, h, rfl, rfl, fun _ => rfl⟩,
    fun _ h => h, fun _ h => h, Generator.typesFrom_same g g rfl,
    Generator.bodiesFrom_same g g rfl⟩

theorem Generator.grownFromAt_trans (g2 g1 g : Generator) (f : FuncRef)
    (h2 : g2.grownFromAt g1 f) (h1 : g1.grownFromAt g f) : g2.grownFromAt g f := by
  refine ⟨h2.1.trans h1.1, h2.2.1.trans h1.2.1, Nat.le_trans h1.2.2.1 h2.2.2.1, ?_,
    fun k h => h2.2.2.2.2.1 k (h1.2.2.2.2.1 k h),
    fun k h => h2.2.2.2.2.2.1 k (h1.2.2.2.2.2.1 k h),
    Generator.typesFrom_trans g2 g1 g h2.2.2.2.2.2.2.1 h1.2.2.2.2.2.2.1 h1.2.2.1
      (fun i fn h => by
        obtain ⟨fn2, hfn2, hs2, _⟩ := h2.2.2.2.1 i fn h
        exact ⟨fn2, hfn2, hs2⟩),
    Generator.bodiesFrom_trans g2 g1 g h2.2.2.2.2.2.2.2 h1.2.2.2.2.2.2.2⟩
  intro i fn h
  obtain ⟨fn1, hfn1, hs1, ht1, he1⟩ := h1.2.2.2.1 i fn h
  obtain ⟨fn2, hfn2, hs2, ht2, he2⟩ := h2.2.2.2.1 i fn1 hfn1
  exact ⟨fn2, hfn2, hs2.trans hs1, ht2.trans ht1, fun hne => (he2 hne).trans (he1 hne)⟩

theorem Generator.grownFrom_at (g1 g : Generator) (f : FuncRef) (h : g1.grownFrom g) :
    g1.grownFromAt g f :=
  ⟨h.1, h.2.1, h.2.2.1, fun i fn hfn => ⟨fn, h.2.2.2.1 i fn hfn, rfl, rfl, fun _ => rfl⟩,
    h.2.2.2.2.1, h.2.2.2.2.2.1, h.2.2.2.2.2.2.1, h.2.2.2.2.2.2.2⟩

/-- What happened around a function that `g` did not have yet leaves `g` as it was. -/
theorem Generator.grownFromAt_new (g2 g1 g : Generator) (f : FuncRef)
    (h2 : g2.grownFromAt g1 f) (h1 : g1.grownFrom g) (hf : g.mod.length ≤ f) :
    g2.grownFrom g := by
  refine ⟨h2.1.trans h1.1, h2.2.1.trans h1.2.1, Nat.le_trans h1.2.2.1 h2.2.2.1, ?_,
    fun k h => h2.2.2.2.2.1 k (h1.2.2.2.2.1 k h),
    fun k h => h2.2.2.2.2.2.1 k (h1.2.2.2.2.2.1 k h),
    Generator.typesFrom_trans g2 g1 g h2.2.2.2.2.2.2.1 h1.2.2.2.2.2.2.1 h1.2.2.1
      (fun i fn h => by
        obtain ⟨fn2, hfn2, hs2, _⟩ := h2.2.2.2.1 i fn h
        exact ⟨fn2, hfn2, hs2⟩),
    Generator.bodiesFrom_trans g2 g1 g h2.2.2.2.2.2.2.2 h1.2.2.2.2.2.2.2⟩
  intro i fn h
  have hlt : i < g.mod.length := (List.get?_eq_some.mp h).1
  obtain ⟨fn2, hfn2, _, _, he2⟩ := h2.2.2.2.1 i fn (h1.2.2.2.1 i fn h)
  rw [hfn2, he2 (by omega)]

theorem Generator.grownFromAt_updateBlock (g : Generator) (b : BlockRef) (F : Block → Block)
    (hF : ∀ blk, (F blk).Term = blk.Term) : (g.updateBlock b F).grownFromAt g b.func := by
  refine ⟨rfl, rfl, by rw [Generator.updateBlock_length], ?_, fun _ h => h, fun _ h => h,
    Generator.typesFrom_same _ g rfl, Generator.bodiesFrom_same _ g rfl⟩
  intro i fn hfn
  by_cases hi : i = b.func
  · subst hi
    refine ⟨{ fn with Blocks := updateAt F fn.Blocks b.block }, ?_, rfl, ?_,
      fun hne => absurd rfl hne⟩
    · simp only [Generator.updateBlock, updateAt_get?, hfn, Option.map]
    · exact updateAt_map F Block.Term hF fn.Blocks b.block
  · exact ⟨fn, by simp only [Generator.updateBlock, updateAt_get?_ne _ _ _ _ hi, hfn], rfl, rfl,
      fun _ => rfl⟩

theorem Generator.grownFromAt_emit (g : Generator) (b : BlockRef) (i : Inst) :
    (g.emit b i).2.grownFromAt g b.func :=
  Generator.grownFromAt_updateBlock g b _ (fun _ => rfl)

/-- Line 103: the call node is overwritten by the call with its arguments substituted. -/
theorem Generator.grownFrom_store (g : Generator) (bind : Nat) (path : List Step)
    (n : String) (args : List Arg) (binds : Map Expr)
    (hnode : g.deref (Ref.body bind path) = Expr.FuncCall n args) :
    (g.store bind path (Expr.FuncCall n (args.map (substArg binds)))).grownFrom g := by
  refine ⟨rfl, ?_, Nat.le_refl _, fun _ _ h => h, fun _ h => h, fun _ h => h,
    Generator.typesFrom_same _ g rfl, ?_⟩
  · unfold Generator.store
    apply updateAt_map
    intro bnd
    rfl
  · intro i b hb
    by_cases hi : i = bind
    · subst hi
      refine ⟨{ b with Expr := b.Expr.set path (Expr.FuncCall n (args.map (substArg binds))) },
        ?_, rfl, rfl, ?_⟩
      · simp only [Generator.store, updateAt_get?, hb, Option.map]
      · simp only [Generator.deref, hb] at hnode
        apply Expr.skel_set _ _ _ args _ hnode
        simp [List.map_map, Function.comp_def, substArg_Ident]
    · refine ⟨b, ?_, rfl, rfl, rfl⟩
      simp only [Generator.store]
      rw [updateAt_get?_ne _ _ _ _ hi]
      exact hb

theorem List.get?_append_old {α : Type} (l : List α) (x : α) (i : Nat) (y : α)
    (h : l.get? i = some y) : (l ++ [x]).get? i = some y := by
  have hlt : i < l.length := (List.get?_eq_some.mp h).1
  rw [List.get?_eq_getElem?, List.getElem?_append_left hlt, ← List.get?_eq_getElem?]
  exact h

/-- Lines 83-86: registering the type and appending the declaration. -/
theorem Generator.grownFrom_declare (g gB : Generator) (fn : Func) (key : String) (t : Ty)
    (hb : gB.bindMap = g.bindMap) (hh : gB.heap = g.heap) (hmod : gB.mod = g.mod ++ [fn])
    (ht : gB.typMap = g.typMap.insert key t) (hi : gB.implsOfBinding = g.implsOfBinding)
    (hkey : sigKey fn.sig = key) :
    gB.grownFrom g := by
  refine ⟨hb, by rw [hh], by simp [hmod], ?_, ?_, by rw [hi]; exact fun _ h => h, ?_,
    Generator.bodiesFrom_same _ g hh⟩
  · intro i fn' h
    rw [hmod]
    exact List.get?_append_old _ _ _ _ h
  · intro k h
    rw [ht]
    exact Map.lookup_insert_isSome _ _ _ _ h
  · intro k h
    by_cases hk : k = key
    · right
      refine ⟨g.mod.length, fn, Nat.le_refl _, ?_, by rw [hk]; exact hkey⟩
      rw [hmod]
      simp
    · left
      rw [ht, Map.lookup_insert_ne _ _ _ _ hk] at h
      exact h

theorem inferReturnType_frame_step (fuel : Nat) (ihM : MustGetImplFrame fuel)
    (ihI : InferFrame fuel) : InferFrame (fuel + 1) := by
  intro g bind path binds typeMap
  simp only [inferReturnType]
  split
  · next FuncName ExprList hnode =>
    split
    · exact Generator.grownFrom_refl g
    · next callee hcallee =>
      have hs := Generator.grownFrom_store g bind path FuncName ExprList binds hnode
      have hM := ihM (g.store bind path (Expr.FuncCall FuncName (ExprList.map (substArg binds))))
        callee (ExprList.map (substArg binds))
      split
      · trivial
      · next e g2 heq =>
        rw [heq] at hM
        exact Generator.grownFrom_trans _ _ _ hM hs
      · next f g2 heq =>
        rw [heq] at hM
        have hgrown : g2.grownFrom g := Generator.grownFrom_trans _ _ _ hM hs
        split
        · exact hgrown
        · split
          · exact hgrown
          · exact hgrown
  · next l r op hnode =>
    have hL := ihI g bind (path ++ [Step.L]) binds typeMap
    split
    · trivial
    · next e g1 heq => rw [heq] at hL; exact hL
    · next lt g1 heq =>
      rw [heq] at hL
      have hR := ihI g1 bind (path ++ [Step.R]) binds typeMap
      split
      · trivial
      · next e g2 heq2 => rw [heq2] at hR; exact Generator.grownFrom_trans _ _ _ hR hL
      · next rt g2 heq2 =>
        rw [heq2] at hR
        have hgrown : g2.grownFrom g := Generator.grownFrom_trans _ _ _ hR hL
        split
        · exact hgrown
        · exact hgrown
  · split
    · exact Generator.grownFrom_refl g
    · exact Generator.grownFrom_refl g
  · exact Generator.grownFrom_refl g

theorem genExpr_frame_step (fuel : Nat) (ihM : MustGetImplFrame fuel)
    (ihG : GenExprFrame fuel) (ihA : GenArgsFrame fuel) : GenExprFrame (fuel + 1) := by
  intro g b r binds typeMap
  simp only [genExpr]
  split
  · next FuncName ExprList hnode =>
    split
    · exact Generator.grownFromAt_refl g _
    · next bind hbind =>
      have hM := ihM g bind ExprList
      split
      · trivial
      · next e g1 heq => rw [heq] at hM; exact Generator.grownFrom_at _ _ _ hM
      · next f g1 heq =>
        rw [heq] at hM
        have hM' := Generator.grownFrom_at _ _ b.func hM
        have hA := ihA g1 b r 0 (g1.exprList r).length binds typeMap []
        split
        · trivial
        · next e g2 heq2 => rw [heq2] at hA; exact Generator.grownFromAt_trans _ _ _ _ hA hM'
        · next valueList g2 heq2 =>
          rw [heq2] at hA
          exact Generator.grownFromAt_trans _ _ _ _ (Generator.grownFromAt_emit g2 b _)
            (Generator.grownFromAt_trans _ _ _ _ hA hM')
  · next l r' op hnode =>
    have hL := ihG g b (r.child Step.L) binds typeMap
    split
    · trivial
    · next e g1 heq => rw [heq] at hL; exact hL
    · next x g1 heq =>
      rw [heq] at hL
      have hR := ihG g1 b (r.child Step.R) binds typeMap
      split
      · trivial
      · next e g2 heq2 => rw [heq2] at hR; exact Generator.grownFromAt_trans _ _ _ _ hR hL
      · next y g2 heq2 =>
        rw [heq2] at hR
        have hgrown : g2.grownFromAt g b.func := Generator.grownFromAt_trans _ _ _ _ hR hL
        have hemit : ∀ i, (g2.emit b i).2.grownFromAt g b.func := fun i =>
          Generator.grownFromAt_trans _ _ _ _ (Generator.grownFromAt_emit g2 b i) hgrown
        split
        · exact hgrown
        · split
          · exact hgrown
          · split
            · split
              · split
                · exact hemit _
                · split
                  · exact hemit _
                  · split
                    · exact hemit _
                    · split
                      · exact hemit _
                      · exact hgrown
              · exact hgrown
            · exact hgrown
  · exact ihG g b _ binds typeMap
  · exact Generator.grownFromAt_refl g _
  · exact Generator.grownFromAt_refl g _

theorem genArgs_frame_step (fuel : Nat) (ihG : GenExprFrame fuel) (ihA : GenArgsFrame fuel) :
    GenArgsFrame (fuel + 1) := by
  intro g b r i n binds typeMap valueList
  cases n with
  | zero =>
    simp only [genArgs]
    exact Generator.grownFromAt_refl g _
  | succ n =>
    simp only [genArgs]
    have hG := ihG g b (r.child (Step.arg i)) binds typeMap
    split
    · trivial
    · next e g1 heq => rw [heq] at hG; exact hG
    · next v g1 heq =>
      rw [heq] at hG
      have hA := ihA g1 b r (i + 1) n binds typeMap (valueList ++ [v])
      generalize genArgs fuel g1 b r (i + 1) n binds typeMap (valueList ++ [v]) = res at hA
      cases res with
      | diverge => trivial
      | panic e g2 => exact Generator.grownFromAt_trans _ _ _ _ hA hG
      | ok vs g2 => exact Generator.grownFromAt_trans _ _ _ _ hA hG

theorem funcBody_frame_step (fuel : Nat) (ihG : GenExprFrame fuel) :
    FuncBodyFrame (fuel + 1) := by
  intro g b r binds typeMap
  simp only [funcBody]
  have hG := ihG g b r binds typeMap
  split
  · trivial
  · next e g1 heq => rw [heq] at hG; exact hG
  · next v g1 heq =>
    rw [heq] at hG
    exact ⟨v, g1, rfl, hG⟩

/-- Line 89 after the return was added: the functions the request found are as they were. -/
theorem Generator.grownFrom_finish (g5 gB g : Generator) (b : BlockRef) (v : Value)
    (key : String) (h5 : g5.grownFromAt gB b.func) (hB : gB.grownFrom g)
    (hf : g.mod.length ≤ b.func) :
    ({ g5.NewRet b v with
        implsOfBinding := (g5.NewRet b v).implsOfBinding.insert key b.func } :
      Generator).grownFrom g := by
  have h := Generator.grownFromAt_new g5 gB g b.func h5 hB hf
  refine ⟨h.1, h.2.1, ?_, ?_, h.2.2.2.2.1, ?_, ?_, h.2.2.2.2.2.2.2⟩
  · show g.mod.length ≤ (g5.NewRet b v).mod.length
    rw [Generator.NewRet_length]
    exact h.2.2.1
  · intro i fn hfn
    have hlt : i < g.mod.length := (List.get?_eq_some.mp hfn).1
    show (g5.NewRet b v).mod.get? i = some fn
    have hne : i ≠ b.func := by omega
    simp only [Generator.NewRet, Generator.updateBlock, updateAt_get?_ne _ _ _ _ hne]
    exact h.2.2.2.1 i fn hfn
  · intro k hk
    exact Map.lookup_insert_isSome _ _ _ _ (h.2.2.2.2.2.1 k hk)
  · intro k hk
    rcases h.2.2.2.2.2.2.1 k hk with hk0 | ⟨i, fn, hi, hfn, hkey⟩
    · exact Or.inl hk0
    · obtain ⟨fn', hfn', hcase⟩ := Generator.updateBlock_get? g5 b
        (fun blk => { blk with Term := some v }) i fn hfn
      refine Or.inr ⟨i, fn', hi, hfn', ?_⟩
      rcases hcase with rfl | rfl
      · exact hkey
      · exact hkey

theorem mustGetImpl_frame_step (fuel : Nat) (ihI : InferFrame fuel) (ihF : FuncBodyFrame fuel) :
    MustGetImplFrame (fuel + 1) := by
  intro g bind argList
  simp only [mustGetImpl]
  split
  · exact Generator.grownFrom_refl g
  · next bnd hb =>
    split
    · exact Generator.grownFrom_refl g
    · next key hk =>
      split
      · exact Generator.grownFrom_refl g
      · split
        · exact Generator.grownFrom_refl g
        · split
          · exact Generator.grownFrom_refl g
          · next typeList hts =>
            split
            · exact Generator.grownFrom_refl g
            · next binds params hba =>
              split
              · exact Generator.grownFrom_refl g
              · next typeMap hbt =>
                have hI := ihI g bind [] binds typeMap
                split
                · trivial
                · next e g1 heq => rw [heq] at hI; exact hI
                · next inferT g1 heq =>
                  rw [heq] at hI
                  let g2 : Generator := { g1 with typMap := g1.typeOfBinding.insert key inferT }
                  let fg := g2.NewFunc bnd.Name inferT.llvm params
                  let bg := fg.2.NewBlock fg.1
                  have hd := Generator.declare_mod g2 bnd.Name inferT.llvm params
                  have hkey : sigKey (bnd.Name, params.map Param.typ) = key := by
                    obtain ⟨ts, hts1, hkey⟩ := genKeyByArg_some _ _ _ hk
                    rw [hts] at hts1
                    injection hts1 with hts1
                    subst hts1
                    have htl : typeList.length = argList.length := by
                      simpa using typesOf_length _ _ hts
                    have hp := bindArgs_params _ _ _ _ _ _ hba htl
                    simp only [List.map_nil, List.nil_append] at hp
                    rw [hp, hkey]
                    exact sigKey_request bnd.Name argList typeList hts
                  have hB1 : bg.2.grownFrom g1 :=
                    Generator.grownFrom_declare g1 bg.2 _ key inferT rfl rfl hd.2.2.1 rfl rfl
                      hkey
                  have hB : bg.2.grownFrom g := Generator.grownFrom_trans _ _ _ hB1 hI
                  have hbg1 : bg.1 = ⟨g1.mod.length, 0⟩ := hd.2.1
                  have hF := ihF bg.2 bg.1 (Ref.body bind []) binds typeMap
                  have hfg1 : fg.1 = g1.mod.length := rfl
                  have hlen : g.mod.length ≤ bg.1.func := by
                    rw [hbg1]; exact hI.2.2.1
                  simp only [bg, fg, g2] at hF hbg1 hfg1 hB hlen
                  split
                  · trivial
                  · next e g5 heq5 =>
                    rw [heq5] at hF
                    exact Generator.grownFromAt_new _ _ _ _ hF hB hlen
                  · next u g5 heq5 =>
                    rw [heq5] at hF
                    obtain ⟨v, g5', hg5, hF⟩ := hF
                    rw [hg5]
                    exact Generator.grownFrom_finish g5' _ g _ v key hF hB hlen

theorem run_frame (fuel : Nat) :
    MustGetImplFrame fuel ∧ InferFrame fuel ∧ FuncBodyFrame fuel ∧ GenExprFrame fuel ∧
      GenArgsFrame fuel := by
  induction fuel with
  | zero =>
    refine ⟨?_, ?_, ?_, ?_, ?_⟩
    · intro g bind argList; simp only [mustGetImpl]; trivial
    · intro g bind path binds typeMap; simp only [inferReturnType]; trivial
    · intro g b r binds typeMap; simp only [funcBody]; trivial
    · intro g b r binds typeMap; simp only [genExpr]; trivial
    · intro g b r i n binds typeMap vs; simp only [genArgs]; trivial
  | succ fuel ih =>
    obtain ⟨ihM, ihI, ihF, ihG, ihA⟩ := ih
    exact ⟨mustGetImpl_frame_step fuel ihI ihF, inferReturnType_frame_step fuel ihM ihI,
      funcBody_frame_step fuel ihG, genExpr_frame_step fuel ihM ihG ihA,
      genArgs_frame_step fuel ihG ihA⟩

/-! ## Lemmas: the invariant of a generator over a ranked table -/

theorem Expr.Ranked_child (rank : String → Nat) (r : Nat) (e : Expr) (s : Step)
    (h : Expr.Ranked rank r e) : Expr.Ranked rank r (e.child s) := by
  cases h with
  | nil => cases s <;> exact Expr.Ranked.nil
  | int lit => cases s <;> exact Expr.Ranked.nil
  | ident lit => cases s <;> exact Expr.Ranked.nil
  | binary l r' op hl hr =>
    cases s with
    | L => exact hl
    | R => exact hr
    | arg i => exact Expr.Ranked.nil
    | inner => exact Expr.Ranked.nil
  | call n args h0 h1 hargs =>
    cases s with
    | L => exact Expr.Ranked.nil
    | R => exact Expr.Ranked.nil
    | arg i =>
      simp only [Expr.child]
      cases ha : args.get? i with
      | none => exact Expr.Ranked.nil
      | some a => exact hargs a (List.get?_mem ha)
    | inner => exact Expr.Ranked.nil
  | ofArg a ha =>
    cases s with
    | L => exact Expr.Ranked.nil
    | R => exact Expr.Ranked.nil
    | arg i => exact Expr.Ranked.nil
    | inner => exact ha

theorem Expr.Ranked_get (rank : String → Nat) (r : Nat) (e : Expr) (p : List Step)
    (h : Expr.Ranked rank r e) : Expr.Ranked rank r (e.get p) := by
  induction p generalizing e with
  | nil => exact h
  | cons s p ih => exact ih _ (Expr.Ranked_child rank r e s h)

theorem Expr.Ranked_of_callFree (rank : String → Nat) (r : Nat) :
    ∀ (e : Expr), e.callFree = true → Expr.Ranked rank r e
  | Expr.nil, _ => Expr.Ranked.nil
  | Expr.Int lit, _ => Expr.Ranked.int lit
  | Expr.Ident lit, _ => Expr.Ranked.ident lit
  | Expr.FuncCall _ _, h => by simp [Expr.callFree] at h
  | Expr.BinaryExpr l r' op, h => by
    simp only [Expr.callFree, Bool.and_eq_true] at h
    exact Expr.Ranked.binary l r' op (Expr.Ranked_of_callFree rank r l h.1)
      (Expr.Ranked_of_callFree rank r r' h.2)
  | Expr.ofArg (Arg.mk i e), h => by
    simp only [Expr.callFree] at h
    exact Expr.Ranked.ofArg _ (Expr.Ranked_of_callFree rank r e h)

theorem updateAt_get?_cases {α : Type} (f : α → α) (l : List α) (i j : Nat) (y : α)
    (h : (updateAt f l i).get? j = some y) :
    (j ≠ i ∧ l.get? j = some y) ∨ (j = i ∧ ∃ x, l.get? i = some x ∧ y = f x) := by
  by_cases hj : j = i
  · subst hj
    right
    rw [updateAt_get?] at h
    cases hx : l.get? j with
    | none => rw [hx] at h; simp at h
    | some x =>
      rw [hx] at h
      simp only [Option.map, Option.some.injEq] at h
      exact ⟨rfl, x, rfl, h.symm⟩
  · left
    rw [updateAt_get?_ne _ _ _ _ hj] at h
    exact ⟨hj, h⟩

theorem Expr.Ranked_set (rank : String → Nat) (r : Nat) (new : Expr)
    (hnew : Expr.Ranked rank r new) :
    ∀ (p : List Step) (e : Expr), Expr.Ranked rank r e → Expr.Ranked rank r (e.set p new) := by
  intro p
  induction p with
  | nil =>
    intro e _
    cases e <;> exact hnew
  | cons s p ih =>
    intro e h
    cases h with
    | nil => exact Expr.Ranked.nil
    | int lit => exact Expr.Ranked.int lit
    | ident lit => exact Expr.Ranked.ident lit
    | binary l r' op hl hr =>
      cases s with
      | L => exact Expr.Ranked.binary _ _ _ (ih l hl) hr
      | R => exact Expr.Ranked.binary _ _ _ hl (ih r' hr)
      | arg i => exact Expr.Ranked.binary _ _ _ hl hr
      | inner => exact Expr.Ranked.binary _ _ _ hl hr
    | call n args h0 h1 hargs =>
      cases s with
      | L => exact Expr.Ranked.call _ _ h0 h1 hargs
      | R => exact Expr.Ranked.call _ _ h0 h1 hargs
      | arg i =>
        simp only [Expr.set]
        refine Expr.Ranked.call _ _ h0 h1 ?_
        intro a ha
        rcases mem_updateAt _ _ _ _ ha with ha | ⟨x, hx, rfl⟩
        · exact hargs a ha
        · exact ih _ (hargs x hx)
      | inner => exact Expr.Ranked.call _ _ h0 h1 hargs
    | ofArg a ha =>
      cases s with
      | L => exact Expr.Ranked.ofArg _ ha
      | R => exact Expr.Ranked.ofArg _ ha
      | arg i => exact Expr.Ranked.ofArg _ ha
      | inner =>
        simp only [Expr.set]
        exact Expr.Ranked.ofArg _ (ih _ ha)

theorem Expr.Ranked_substArg (rank : String → Nat) (r : Nat) (binds : Map Expr)
    (hbinds : ∀ k e, binds.lookup k = some e → e.callFree = true) (a : Arg)
    (h : Expr.Ranked rank r a.Expr) : Expr.Ranked rank r (substArg binds a).Expr := by
  cases a with
  | mk label e =>
    cases e with
    | Ident lit =>
      simp only [substArg, Arg.Expr]
      cases hl : binds.lookup lit with
      | none => exact Expr.Ranked.nil
      | some e => exact Expr.Ranked_of_callFree rank r e (hbinds lit e hl)
    | nil => exact h
    | Int _ => exact h
    | BinaryExpr _ _ _ => exact h
    | FuncCall _ _ => exact h
    | ofArg _ => exact h

theorem List.get?_of_map_eq {α β : Type} (p : α → β) (l1 l2 : List α)
    (h : l1.map p = l2.map p) (i : Nat) (x : α) (hx : l1.get? i = some x) :
    ∃ y, l2.get? i = some y ∧ p y = p x := by
  induction l1 generalizing l2 i with
  | nil => simp at hx
  | cons a l1 ih =>
    cases l2 with
    | nil => simp at h
    | cons b l2 =>
      simp only [List.map_cons, List.cons.injEq] at h
      cases i with
      | zero =>
        simp only [List.get?_cons_zero, Option.some.injEq] at hx
        subst hx
        exact ⟨b, rfl, h.1.symm⟩
      | succ i =>
        simp only [List.get?_cons_succ] at hx ⊢
        exact ih l2 h.2 i hx

theorem Func.finished_congr (fn fn' : Func)
    (h : fn'.Blocks.map Block.Term = fn.Blocks.map Block.Term) : fn'.finished = fn.finished := by
  simp only [Func.finished, h]

theorem Generator.Orderly_store (rank : String → Nat) (g : Generator) (bind : Nat)
    (path : List Step) (new : Expr) (hg : g.Orderly rank)
    (hnew : ∀ bnd, g.heap.get? bind = some bnd → 0 < rank bnd.Name →
      Expr.Ranked rank (rank bnd.Name) new) :
    (g.store bind path new).Orderly rank := by
  have hheap : ∀ i bnd', (g.store bind path new).heap.get? i = some bnd' →
      ∃ bnd, g.heap.get? i = some bnd ∧ bnd'.Name = bnd.Name ∧
        (bnd' = bnd ∨ (i = bind ∧ bnd'.Expr = bnd.Expr.set path new)) := by
    intro i bnd' h
    simp only [Generator.store] at h
    rcases updateAt_get?_cases _ _ _ _ _ h with ⟨_, h⟩ | ⟨hi, x, hx, rfl⟩
    · exact ⟨bnd', h, rfl, Or.inl rfl⟩
    · subst hi
      exact ⟨x, hx, rfl, Or.inr ⟨rfl, rfl⟩⟩
  refine ⟨⟨?_, ?_, ?_⟩, hg.declNames, hg.finishedCached, hg.earlierUnfinished,
    hg.cachedFinished⟩
  · intro n i bnd' hn hb
    obtain ⟨bnd, hb0, hname, _⟩ := hheap i bnd' hb
    rw [hname]
    exact hg.table.1 n i bnd hn hb0
  · intro i bnd' hb
    obtain ⟨bnd, hb0, hname, _⟩ := hheap i bnd' hb
    rw [hname]
    exact hg.table.2.1 i bnd hb0
  · intro i bnd' hb hpos
    obtain ⟨bnd, hb0, hname, hcase⟩ := hheap i bnd' hb
    rw [hname] at hpos ⊢
    rcases hcase with rfl | ⟨hi, hexpr⟩
    · exact hg.table.2.2 i _ hb0 hpos
    · subst hi
      rw [hexpr]
      exact Expr.Ranked_set rank _ new (hnew bnd hb0 hpos) path _ (hg.table.2.2 i bnd hb0 hpos)

/-- A state that differs from an orderly one at most in the instructions of its blocks and
in its type cache is orderly. -/
theorem Generator.Orderly_of_view (rank : String → Nat) (g g1 : Generator)
    (hg : g.Orderly rank) (hb : g1.bindMap = g.bindMap) (hh : g1.heap = g.heap)
    (hi : g1.implsOfBinding = g.implsOfBinding)
    (hm : g1.mod.map (fun fn => (fn.sig, fn.Blocks.map Block.Term)) =
      g.mod.map (fun fn => (fn.sig, fn.Blocks.map Block.Term))) : g1.Orderly rank := by
  have hback : ∀ i fn1, g1.mod.get? i = some fn1 →
      ∃ fn, g.mod.get? i = some fn ∧ fn.sig = fn1.sig ∧ fn.finished = fn1.finished := by
    intro i fn1 h
    obtain ⟨fn, hfn, hv⟩ := List.get?_of_map_eq _ _ _ hm i fn1 h
    simp only [Prod.mk.injEq] at hv
    exact ⟨fn, hfn, hv.1, Func.finished_congr _ _ hv.2⟩
  have hforth : ∀ i fn, g.mod.get? i = some fn →
      ∃ fn1, g1.mod.get? i = some fn1 ∧ fn1.sig = fn.sig ∧ fn1.finished = fn.finished := by
    intro i fn h
    obtain ⟨fn1, hfn1, hv⟩ := List.get?_of_map_eq _ _ _ hm.symm i fn h
    simp only [Prod.mk.injEq] at hv
    exact ⟨fn1, hfn1, hv.1, Func.finished_congr _ _ hv.2⟩
  refine ⟨by rw [hb, hh]; exact hg.table, ?_, ?_, ?_, ?_⟩
  · intro i fn1 h
    obtain ⟨fn, hfn, hs, _⟩ := hback i fn1 h
    have : fn1.name = fn.name := by
      have := congrArg Prod.fst hs
      exact this.symm
    rw [this]
    exact hg.declNames i fn hfn
  · intro i fn1 h hfin
    obtain ⟨fn, hfn, hs, hf⟩ := hback i fn1 h
    rw [hi, ← hs]
    exact hg.finishedCached i fn hfn (by rw [hf]; exact hfin)
  · intro i j fi fj hij h1 h2 hsig
    obtain ⟨fi0, hfi0, hs1, hf1⟩ := hback i fi h1
    obtain ⟨fj0, hfj0, hs2, _⟩ := hback j fj h2
    rw [← hf1]
    exact hg.earlierUnfinished i j fi0 fj0 hij hfi0 hfj0 (by rw [hs1, hs2]; exact hsig)
  · intro k f hk
    rw [hi] at hk
    obtain ⟨fn, hfn, hfin, hkey⟩ := hg.cachedFinished k f hk
    obtain ⟨fn1, hfn1, hs, hf⟩ := hforth f fn hfn
    exact ⟨fn1, hfn1, by rw [hf]; exact hfin, by rw [hs]; exact hkey⟩

theorem Generator.Orderly_emit (rank : String → Nat) (g : Generator) (b : BlockRef) (i : Inst)
    (hg : g.Orderly rank) : (g.emit b i).2.Orderly rank := by
  apply Generator.Orderly_of_view rank g (g.emit b i).2 hg rfl rfl rfl
  simp only [Generator.emit, Generator.updateBlock]
  apply updateAt_map
  intro fn
  simp only [Func.sig, Prod.mk.injEq, true_and]
  apply updateAt_map
  intro blk
  rfl

theorem List.get?_append_singleton {α : Type} (l : List α) (x y : α) (i : Nat)
    (h : (l ++ [x]).get? i = some y) : l.get? i = some y ∨ (i = l.length ∧ y = x) := by
  by_cases hlt : i < l.length
  · left
    rw [List.get?_eq_getElem?, List.getElem?_append_left hlt, ← List.get?_eq_getElem?] at h
    exact h
  · right
    have hlen : i < (l ++ [x]).length := (List.get?_eq_some.mp h).1
    simp only [List.length_append, List.length_singleton] at hlen
    have hi : i = l.length := by omega
    subst hi
    simp at h
    exact ⟨rfl, h.symm⟩

/-- Lines 83-86: registering the type and appending an unfinished declaration whose earlier
namesakes are unfinished. -/
theorem Generator.Orderly_declare (rank : String → Nat) (g gB : Generator) (fn : Func)
    (hg : g.Orderly rank) (hb : gB.bindMap = g.bindMap) (hh : gB.heap = g.heap)
    (hi : gB.implsOfBinding = g.implsOfBinding) (hmod : gB.mod = g.mod ++ [fn])
    (hfin : fn.finished = false) (hname : '(' ∉ fn.name.data)
    (hearlier : ∀ i fi, g.mod.get? i = some fi → fi.sig = fn.sig → fi.finished = false) :
    gB.Orderly rank := by
  have hcase : ∀ i f', gB.mod.get? i = some f' →
      g.mod.get? i = some f' ∨ (i = g.mod.length ∧ f' = fn) := by
    intro i f' h
    rw [hmod] at h
    exact List.get?_append_singleton _ _ _ _ h
  refine ⟨by rw [hb, hh]; exact hg.table, ?_, ?_, ?_, ?_⟩
  · intro i f' h
    rcases hcase i f' h with h | ⟨_, rfl⟩
    · exact hg.declNames i f' h
    · exact hname
  · intro i f' h hf
    rcases hcase i f' h with h | ⟨_, rfl⟩
    · rw [hi]; exact hg.finishedCached i f' h hf
    · rw [hfin] at hf; cases hf
  · intro i j fi fj hij h1 h2 hsig
    rcases hcase j fj h2 with h2 | ⟨hj, rfl⟩
    · rcases hcase i fi h1 with h1 | ⟨hi', _⟩
      · exact hg.earlierUnfinished i j fi fj hij h1 h2 hsig
      · have := (List.get?_eq_some.mp h2).1
        omega
    · rcases hcase i fi h1 with h1 | ⟨hi', _⟩
      · exact hearlier i fi h1 hsig
      · omega
  · intro k f hk
    rw [hi] at hk
    obtain ⟨f', hf', hfin', hkey⟩ := hg.cachedFinished k f hk
    refine ⟨f', ?_, hfin', hkey⟩
    rw [hmod]
    exact List.get?_append_old _ _ _ _ hf'

theorem blocks_of_terms (blocks : List Block) (h : blocks.map Block.Term = [none]) :
    ∃ blk, blocks = [blk] := by
  cases blocks with
  | nil => simp at h
  | cons blk rest =>
    cases rest with
    | nil => exact ⟨blk, rfl⟩
    | cons blk2 rest => simp at h

/-- Lines 153-154 and 89: the return is added to the function under construction and its key
is cached; no later declaration has its name and parameter types. -/
theorem Generator.Orderly_finish (rank : String → Nat) (g5 : Generator) (f : FuncRef)
    (v : Value) (key : String) (fn5 : Func) (hg : g5.Orderly rank)
    (hfn5 : g5.mod.get? f = some fn5) (hterm : fn5.Blocks.map Block.Term = [none])
    (hkey : sigKey fn5.sig = key)
    (hlater : ∀ j fj, f < j → g5.mod.get? j = some fj → fj.sig ≠ fn5.sig) :
    ({ g5.NewRet ⟨f, 0⟩ v with
        implsOfBinding := (g5.NewRet ⟨f, 0⟩ v).implsOfBinding.insert key f } :
      Generator).Orderly rank := by
  obtain ⟨blk5, hblk5⟩ := blocks_of_terms _ hterm
  have hnew := Generator.NewRet_block g5 f v fn5 blk5 hfn5 hblk5
  have hcase : ∀ i fn, (g5.NewRet ⟨f, 0⟩ v).mod.get? i = some fn →
      (i ≠ f ∧ g5.mod.get? i = some fn) ∨
      (i = f ∧ fn.sig = fn5.sig ∧ fn.finished = true) := by
    intro i fn h
    by_cases hi : i = f
    · subst hi
      right
      rw [hnew] at h
      injection h with h
      subst h
      exact ⟨rfl, rfl, rfl⟩
    · left
      simp only [Generator.NewRet, Generator.updateBlock, updateAt_get?_ne _ _ _ _ hi] at h
      exact ⟨hi, h⟩
  have hforth : ∀ i fn, g5.mod.get? i = some fn →
      ∃ fn', (g5.NewRet ⟨f, 0⟩ v).mod.get? i = some fn' ∧ fn'.sig = fn.sig ∧
        (fn.finished = true → fn'.finished = true) := by
    intro i fn h
    by_cases hi : i = f
    · subst hi
      rw [hfn5] at h
      injection h with h
      subst h
      exact ⟨_, hnew, rfl, fun _ => rfl⟩
    · exact ⟨fn, by simp only [Generator.NewRet, Generator.updateBlock,
        updateAt_get?_ne _ _ _ _ hi, h], rfl, fun h => h⟩
  refine ⟨hg.table, ?_, ?_, ?_, ?_⟩
  · intro i fn h
    rcases hcase i fn h with ⟨_, h⟩ | ⟨hi, hs, _⟩
    · exact hg.declNames i fn h
    · have : fn.name = fn5.name := congrArg Prod.fst hs
      rw [this]
      exact hg.declNames f fn5 hfn5
  · intro i fn h hfin
    show ((Map.insert _ key f).lookup (sigKey fn.sig)).isSome = true
    rcases hcase i fn h with ⟨_, h⟩ | ⟨hi, hs, _⟩
    · exact Map.lookup_insert_isSome _ _ _ _ (hg.finishedCached i fn h hfin)
    · rw [hs, hkey, Map.lookup_insert_self]
      rfl
  · intro i j fi fj hij h1 h2 hsig
    rcases hcase i fi h1 with ⟨hne, h1a⟩ | ⟨hi, hs, _⟩
    · rcases hcase j fj h2 with ⟨_, h2a⟩ | ⟨hj, hs2, _⟩
      · exact hg.earlierUnfinished i j fi fj hij h1a h2a hsig
      · rw [hj] at hij
        exact hg.earlierUnfinished i f fi fn5 hij h1a hfn5 (by rw [hsig, hs2])
    · exfalso
      rw [hi] at hij
      rcases hcase j fj h2 with ⟨_, h2a⟩ | ⟨hj, _, _⟩
      · exact hlater j fj hij h2a (by rw [← hsig, hs])
      · omega
  · intro k f' hk
    have hk' : (Map.insert (g5.NewRet ⟨f, 0⟩ v).implsOfBinding key f).lookup k = some f' := hk
    by_cases hkk : k = key
    · subst hkk
      rw [Map.lookup_insert_self] at hk'
      injection hk' with hk'
      subst hk'
      obtain ⟨fn', hfn', hs, _⟩ := hforth f fn5 hfn5
      rcases hcase f fn' hfn' with ⟨hne, _⟩ | ⟨_, _, hfin⟩
      · exact absurd rfl hne
      · exact ⟨fn', hfn', hfin, by rw [hs]; exact hkey⟩
    · rw [Map.lookup_insert_ne _ _ _ _ hkk] at hk'
      obtain ⟨fn, hfn, hfin, hkey'⟩ := hg.cachedFinished k f' hk'
      obtain ⟨fn', hfn', hs, hf⟩ := hforth f' fn hfn
      exact ⟨fn', hfn', hf hfin, by rw [hs]; exact hkey'⟩

theorem newBelow_same (rank : String → Nat) (g g1 : Generator) (R : Nat)
    (h : g1.mod.length = g.mod.length) : newBelow rank g g1 R := by
  intro i fn hi hfn
  have := (List.get?_eq_some.mp hfn).1
  omega

theorem newBelow_mono (rank : String → Nat) (g g1 : Generator) (R R' : Nat) (hR : R ≤ R')
    (h : newBelow rank g g1 R) : newBelow rank g g1 R' :=
  fun i fn hi hfn => Nat.lt_of_lt_of_le (h i fn hi hfn) hR

theorem newBelow_trans (rank : String → Nat) (g g1 g2 : Generator) (R : Nat) (f : FuncRef)
    (h1 : newBelow rank g g1 R) (hgrown : g2.grownFromAt g1 f) (h2 : newBelow rank g1 g2 R) :
    newBelow rank g g2 R := by
  intro i fn hi hfn
  by_cases hlt : i < g1.mod.length
  · obtain ⟨fn1, hfn1⟩ : ∃ fn1, g1.mod.get? i = some fn1 :=
      ⟨g1.mod.get ⟨i, hlt⟩, List.get?_eq_get hlt⟩
    obtain ⟨fn', hfn', hs, _⟩ := hgrown.2.2.2.1 i fn1 hfn1
    rw [hfn] at hfn'
    injection hfn' with hfn'
    subst hfn'
    have hname : fn.name = fn1.name := congrArg Prod.fst hs
    rw [hname]
    exact h1 i fn1 hi hfn1
  · exact h2 i fn (by omega) hfn

theorem Generator.deref_ranked (rank : String → Nat) (g : Generator) (r : Nat) (ref : Ref)
    (hg : g.Orderly rank) (h : g.refRanked rank r ref) : Expr.Ranked rank r (g.deref ref) := by
  cases ref with
  | body bind path =>
    simp only [Generator.deref]
    cases hb : g.heap.get? bind with
    | none => exact Expr.Ranked.nil
    | some bnd =>
      obtain ⟨hpos, hr⟩ := h bnd hb
      have := hg.table.2.2 bind bnd hb hpos
      rw [hr] at this
      exact Expr.Ranked_get rank r _ path this
  | val e => exact h

theorem Generator.refRanked_child (rank : String → Nat) (g : Generator) (r : Nat) (ref : Ref)
    (s : Step) (h : g.refRanked rank r ref) : g.refRanked rank r (ref.child s) := by
  cases ref with
  | body bind path => exact h
  | val e => exact Expr.Ranked_child rank r e s h

theorem Generator.refRanked_grown (rank : String → Nat) (g g1 : Generator) (r : Nat)
    (ref : Ref) (hnames : g1.heap.map Binding.Name = g.heap.map Binding.Name)
    (h : g.refRanked rank r ref) : g1.refRanked rank r ref := by
  cases ref with
  | body bind path =>
    intro bnd1 hb1
    obtain ⟨bnd, hb, hname⟩ := List.get?_of_map_eq _ _ _ hnames bind bnd1 hb1
    rw [← hname]
    exact h bnd hb
  | val e => exact h

/-! ## Lemmas: runs over a ranked table keep the invariant -/

theorem once_then (rank : String → Nat) (g g1 g2 : Generator) (r : Nat) (f : FuncRef)
    (h1 : newBelow rank g g1 r) (hgrown : g2.grownFromAt g1 f)
    (h2 : g2.Orderly rank ∧ newBelow rank g1 g2 r) :
    g2.Orderly rank ∧ newBelow rank g g2 r :=
  ⟨h2.1, newBelow_trans rank g g1 g2 r f h1 hgrown h2.2⟩

theorem once_emit (rank : String → Nat) (g g2 : Generator) (b : BlockRef) (i : Inst) (r : Nat)
    (h : g2.Orderly rank ∧ newBelow rank g g2 r) :
    (g2.emit b i).2.Orderly rank ∧ newBelow rank g (g2.emit b i).2 r :=
  ⟨Generator.Orderly_emit rank g2 b i h.1,
    newBelow_trans rank g g2 _ r b.func h.2 (Generator.grownFromAt_emit g2 b i)
      (newBelow_same rank _ _ r (Generator.emit_length g2 b i))⟩

theorem once_refl (rank : String → Nat) (g : Generator) (r : Nat) (hg : g.Orderly rank) :
    g.Orderly rank ∧ newBelow rank g g r :=
  ⟨hg, newBelow_same rank g g r rfl⟩

theorem inferReturnType_once_step (rank : String → Nat) (fuel : Nat)
    (ihM : MustGetImplOnce rank fuel) (ihI : InferOnce rank fuel) :
    InferOnce rank (fuel + 1) := by
  intro g bind path binds typeMap r hg href hbinds
  have hranked := Generator.deref_ranked rank g r _ hg href
  simp only [inferReturnType]
  split
  · next FuncName ExprList hnode =>
    rw [hnode] at hranked
    cases hranked with
    | call _ _ h0 h1 hargs =>
      split
      · exact once_refl rank g r hg
      · next callee hcallee =>
        have hnew : Expr.Ranked rank r (Expr.FuncCall FuncName (ExprList.map (substArg binds))) := by
          refine Expr.Ranked.call _ _ h0 h1 ?_
          intro a ha
          obtain ⟨a0, ha0, rfl⟩ := List.mem_map.mp ha
          exact Expr.Ranked_substArg rank r binds hbinds a0 (hargs a0 ha0)
        have hg1 := Generator.Orderly_store rank g bind path
          (Expr.FuncCall FuncName (ExprList.map (substArg binds))) hg
          (by intro bnd hb _; rw [(href bnd hb).2]; exact hnew)
        have hM := ihM (g.store bind path (Expr.FuncCall FuncName (ExprList.map (substArg binds))))
          callee (ExprList.map (substArg binds)) r hg1
          (by intro bndc hbc
              have := hg1.table.1 FuncName callee bndc hcallee hbc
              rw [this]
              exact ⟨h0, h1⟩)
        split
        · trivial
        · next e g2 heq =>
          rw [heq] at hM
          exact hM
        · next f g2 heq =>
          rw [heq] at hM
          split
          · exact hM
          · split
            · exact hM
            · exact hM
  · next l r' op hnode =>
    have hL := ihI g bind (path ++ [Step.L]) binds typeMap r hg href hbinds
    have hLf := (run_frame fuel).2.1 g bind (path ++ [Step.L]) binds typeMap
    split
    · trivial
    · next e g1 heq => rw [heq] at hL; exact hL
    · next lt g1 heq =>
      rw [heq] at hL hLf
      have href1 : g1.refRanked rank r (Ref.body bind (path ++ [Step.R])) :=
        Generator.refRanked_grown rank g g1 r _ hLf.2.1 href
      have hR := ihI g1 bind (path ++ [Step.R]) binds typeMap r hL.1 href1 hbinds
      have hRf := (run_frame fuel).2.1 g1 bind (path ++ [Step.R]) binds typeMap
      split
      · trivial
      · next e g2 heq2 =>
        rw [heq2] at hR hRf
        exact once_then rank g g1 g2 r 0 hL.2 (Generator.grownFrom_at _ _ _ hRf) hR
      · next rt g2 heq2 =>
        rw [heq2] at hR hRf
        have := once_then rank g g1 g2 r 0 hL.2 (Generator.grownFrom_at _ _ _ hRf) hR
        split
        · exact this
        · exact this
  · split
    · exact once_refl rank g r hg
    · exact once_refl rank g r hg
  · exact once_refl rank g r hg

theorem genExpr_once_step (rank : String → Nat) (fuel : Nat)
    (ihM : MustGetImplOnce rank fuel) (ihG : GenExprOnce rank fuel)
    (ihA : GenArgsOnce rank fuel) : GenExprOnce rank (fuel + 1) := by
  intro g b ref binds typeMap r hg href hbinds
  have hranked := Generator.deref_ranked rank g r _ hg href
  simp only [genExpr]
  split
  · next FuncName ExprList hnode =>
    rw [hnode] at hranked
    cases hranked with
    | call _ _ h0 h1 hargs =>
      split
      · exact once_refl rank g r hg
      · next bind hbind =>
        have hM := ihM g bind ExprList r hg
          (by intro bndc hbc
              have := hg.table.1 FuncName bind bndc hbind hbc
              rw [this]
              exact ⟨h0, h1⟩)
        have hMf := (run_frame fuel).1 g bind ExprList
        split
        · trivial
        · next e g1 heq => rw [heq] at hM; exact hM
        · next f g1 heq =>
          rw [heq] at hM hMf
          have href1 : g1.refRanked rank r ref :=
            Generator.refRanked_grown rank g g1 r _ hMf.2.1 href
          have hA := ihA g1 b ref 0 (g1.exprList ref).length binds typeMap [] r hM.1 href1 hbinds
          have hAf := (run_frame fuel).2.2.2.2 g1 b ref 0 (g1.exprList ref).length binds
            typeMap []
          split
          · trivial
          · next e g2 heq2 =>
            rw [heq2] at hA hAf
            exact once_then rank g g1 g2 r b.func hM.2 hAf hA
          · next valueList g2 heq2 =>
            rw [heq2] at hA hAf
            exact once_emit rank g g2 b _ r (once_then rank g g1 g2 r b.func hM.2 hAf hA)
  · next l r' op hnode =>
    have hL := ihG g b (ref.child Step.L) binds typeMap r hg
      (Generator.refRanked_child rank g r ref _ href) hbinds
    have hLf := (run_frame fuel).2.2.2.1 g b (ref.child Step.L) binds typeMap
    split
    · trivial
    · next e g1 heq => rw [heq] at hL; exact hL
    · next x g1 heq =>
      rw [heq] at hL hLf
      have href1 : g1.refRanked rank r (ref.child Step.R) :=
        Generator.refRanked_grown rank g g1 r _ hLf.2.1
          (Generator.refRanked_child rank g r ref _ href)
      have hR := ihG g1 b (ref.child Step.R) binds typeMap r hL.1 href1 hbinds
      have hRf := (run_frame fuel).2.2.2.1 g1 b (ref.child Step.R) binds typeMap
      split
      · trivial
      · next e g2 heq2 =>
        rw [heq2] at hR hRf
        exact once_then rank g g1 g2 r b.func hL.2 hRf hR
      · next y g2 heq2 =>
        rw [heq2] at hR hRf
        have hdone := once_then rank g g1 g2 r b.func hL.2 hRf hR
        split
        · exact hdone
        · split
          · exact hdone
          · split
            · split
              · split
                · exact once_emit rank g g2 b _ r hdone
                · split
                  · exact once_emit rank g g2 b _ r hdone
                  · split
                    · exact once_emit rank g g2 b _ r hdone
                    · split
                      · exact once_emit rank g g2 b _ r hdone
                      · exact hdone
              · exact hdone
            · exact hdone
  · next lit hnode =>
    apply ihG g b _ binds typeMap r hg _ hbinds
    show Expr.Ranked rank r ((binds.lookup lit).getD Expr.nil)
    cases hl : binds.lookup lit with
    | none => exact Expr.Ranked.nil
    | some e => exact Expr.Ranked_of_callFree rank r e (hbinds lit e hl)
  · exact once_refl rank g r hg
  · exact once_refl rank g r hg

theorem genArgs_once_step (rank : String → Nat) (fuel : Nat) (ihG : GenExprOnce rank fuel)
    (ihA : GenArgsOnce rank fuel) : GenArgsOnce rank (fuel + 1) := by
  intro g b ref i n binds typeMap valueList r hg href hbinds
  cases n with
  | zero =>
    simp only [genArgs]
    exact once_refl rank g r hg
  | succ n =>
    simp only [genArgs]
    have hG := ihG g b (ref.child (Step.arg i)) binds typeMap r hg
      (Generator.refRanked_child rank g r ref _ href) hbinds
    have hGf := (run_frame fuel).2.2.2.1 g b (ref.child (Step.arg i)) binds typeMap
    split
    · trivial
    · next e g1 heq => rw [heq] at hG; exact hG
    · next v g1 heq =>
      rw [heq] at hG hGf
      have href1 : g1.refRanked rank r ref :=
        Generator.refRanked_grown rank g g1 r _ hGf.2.1 href
      have hA := ihA g1 b ref (i + 1) n binds typeMap (valueList ++ [v]) r hG.1 href1 hbinds
      have hAf := (run_frame fuel).2.2.2.2 g1 b ref (i + 1) n binds typeMap (valueList ++ [v])
      generalize genArgs fuel g1 b ref (i + 1) n binds typeMap (valueList ++ [v]) = res
        at hA hAf
      cases res with
      | diverge => trivial
      | panic e g2 => exact once_then rank g g1 g2 r b.func hG.2 hAf hA
      | ok vs g2 => exact once_then rank g g1 g2 r b.func hG.2 hAf hA

theorem funcBody_once_step (rank : String → Nat) (fuel : Nat) (ihG : GenExprOnce rank fuel) :
    FuncBodyOnce rank (fuel + 1) := by
  intro g b ref binds typeMap r hg href hbinds
  simp only [funcBody]
  have hG := ihG g b ref binds typeMap r hg href hbinds
  have hGf := (run_frame fuel).2.2.2.1 g b ref binds typeMap
  split
  · trivial
  · next e g1 heq => rw [heq] at hG hGf; exact ⟨hG.1, hG.2, hGf⟩
  · next v g1 heq =>
    rw [heq] at hG hGf
    exact ⟨v, g1, rfl, hG.1, hG.2, hGf⟩

theorem newBelow_NewRet (rank : String → Nat) (g g5 : Generator) (b : BlockRef) (v : Value)
    (R : Nat) (h : newBelow rank g g5 R) : newBelow rank g (g5.NewRet b v) R := by
  intro i fn hi hfn
  obtain ⟨fn5, hfn5, hs⟩ := List.get?_of_map_eq Func.sig _ _
    (Generator.NewRet_same g5 b v).2.2.2.2 i fn hfn
  have hname : fn.name = fn5.name := (congrArg Prod.fst hs).symm
  rw [hname]
  exact h i fn5 hi hfn5

theorem mustGetImpl_once_step (rank : String → Nat) (fuel : Nat) (ihI : InferOnce rank fuel)
    (ihF : FuncBodyOnce rank fuel) : MustGetImplOnce rank (fuel + 1) := by
  intro g bind argList R hg hbind
  simp only [mustGetImpl]
  split
  · exact once_refl rank g R hg
  · next bnd hb =>
    obtain ⟨hpos, hR⟩ := hbind bnd hb
    split
    · exact once_refl rank g R hg
    · next key hk =>
      split
      · exact once_refl rank g R hg
      · next hc =>
        split
        · exact once_refl rank g R hg
        · split
          · exact once_refl rank g R hg
          · next typeList hts =>
            split
            · exact once_refl rank g R hg
            · next binds params hba =>
              split
              · exact once_refl rank g R hg
              · next typeMap hbt =>
                have htl : typeList.length = argList.length := by
                  simpa using typesOf_length _ _ hts
                have hbinds : ∀ k e, binds.lookup k = some e → e.callFree = true :=
                  bindArgs_callFree _ _ _ _ _ _ hba (by intro k e h; simp [Map.lookup] at h)
                    (typesOf_callFree _ _ hts)
                have hparams : params.map Param.typ = typeList.map Ty.llvm := by
                  simpa using bindArgs_params _ _ _ _ _ _ hba htl
                have hkey : key = genKeyByTypes bnd.Name typeList := by
                  simp only [genKeyByArg, genKey, hts, Option.some.injEq] at hk
                  exact hk.symm
                have href : g.refRanked rank (rank bnd.Name) (Ref.body bind []) := by
                  intro bnd' hb'
                  rw [hb] at hb'
                  injection hb' with hb'
                  subst hb'
                  exact ⟨hpos, rfl⟩
                have hI := ihI g bind [] binds typeMap (rank bnd.Name) hg href hbinds
                have hIf := (run_frame fuel).2.1 g bind [] binds typeMap
                split
                · trivial
                · next e g1 heq =>
                  rw [heq] at hI
                  exact ⟨hI.1, newBelow_mono rank g g1 _ R (Nat.le_of_lt hR) hI.2⟩
                · next inferT g1 heq =>
                  rw [heq] at hI hIf
                  let g2 : Generator := { g1 with typMap := g1.typeOfBinding.insert key inferT }
                  let fg := g2.NewFunc bnd.Name inferT.llvm params
                  let bg := fg.2.NewBlock fg.1
                  let fnew : Func := { name := bnd.Name, retType := inferT.llvm, Params := params,
                                       Blocks := [⟨[], none⟩] }
                  have hd := Generator.declare_mod g2 bnd.Name inferT.llvm params
                  have hmodB : bg.2.mod = g1.mod ++ [fnew] := hd.2.2.1
                  have hsk : sigKey fnew.sig = key := by
                    rw [hkey, ← sigKey_request bnd.Name argList typeList hts]
                    simp only [fnew, Func.sig, hparams]
                  have hearlier : ∀ i fi, g1.mod.get? i = some fi → fi.sig = fnew.sig →
                      fi.finished = false := by
                    intro i fi hfi hsig
                    by_cases hlt : i < g.mod.length
                    · have hfi0 : g.mod.get? i = some (g.mod.get ⟨i, hlt⟩) :=
                        List.get?_eq_get hlt
                      have := hIf.2.2.2.1 i _ hfi0
                      rw [hfi] at this
                      injection this with this
                      cases hfin : fi.finished with
                      | false => rfl
                      | true =>
                        exfalso
                        rw [this] at hfin hsig
                        have hcached := hg.finishedCached i _ hfi0 hfin
                        rw [hsig, hsk, hc] at hcached
                        cases hcached
                    · exfalso
                      have hlt' := hI.2 i fi (by omega) hfi
                      have hname : fi.name = bnd.Name := congrArg Prod.fst hsig
                      rw [hname] at hlt'
                      exact Nat.lt_irrefl _ hlt'
                  have hBord : bg.2.Orderly rank :=
                    Generator.Orderly_declare rank g1 bg.2 fnew hI.1 rfl rfl rfl hmodB rfl
                      (hg.table.2.1 bind bnd hb) hearlier
                  have hBnew : newBelow rank g bg.2 R := by
                    intro i fn hi hfn
                    rw [hmodB] at hfn
                    rcases List.get?_append_singleton _ _ _ _ hfn with hfn | ⟨_, rfl⟩
                    · exact Nat.lt_trans (hI.2 i fn hi hfn) hR
                    · exact hR
                  have hrefB : bg.2.refRanked rank (rank bnd.Name) (Ref.body bind []) :=
                    Generator.refRanked_grown rank g bg.2 _ _ hIf.2.1 href
                  have hF := ihF bg.2 bg.1 (Ref.body bind []) binds typeMap (rank bnd.Name)
                    hBord hrefB hbinds
                  have hbg1 : bg.1 = ⟨g1.mod.length, 0⟩ := hd.2.1
                  have hfB : bg.2.mod.get? g1.mod.length = some fnew := by
                    rw [hmodB]
                    simp
                  have hlenB : bg.2.mod.length = g1.mod.length + 1 := by
                    rw [hmodB]
                    simp
                  simp only [bg, fg, g2] at hF hbg1 hBord hBnew hfB hlenB
                  split
                  · trivial
                  · next e g5 heq5 =>
                    rw [heq5] at hF
                    exact ⟨hF.1, newBelow_trans rank g _ g5 R _ hBnew hF.2.2
                      (newBelow_mono rank _ g5 _ R (Nat.le_of_lt hR) hF.2.1)⟩
                  · next u g5 heq5 =>
                    rw [heq5] at hF
                    obtain ⟨v, g5', hg5, hord5, hnew5, hgrown5⟩ := hF
                    rw [hbg1] at hgrown5 hg5
                    obtain ⟨fn5, hfn5, hs5, ht5, _⟩ := hgrown5.2.2.2.1 _ fnew hfB
                    have hlater : ∀ j fj, g1.mod.length < j → g5'.mod.get? j = some fj →
                        fj.sig ≠ fn5.sig := by
                      intro j fj hj hfj hsig
                      have hlt' := hnew5 j fj (by rw [hlenB]; omega) hfj
                      have hname : fj.name = bnd.Name := by
                        have := congrArg Prod.fst (hsig.trans hs5)
                        exact this
                      rw [hname] at hlt'
                      exact Nat.lt_irrefl _ hlt'
                    have hfin := Generator.Orderly_finish rank g5' g1.mod.length v key fn5 hord5
                      hfn5 ht5 (by rw [hs5]; exact hsk) hlater
                    rw [hg5]
                    refine ⟨hfin, ?_⟩
                    apply newBelow_NewRet
                    exact newBelow_trans rank g _ g5' R _ hBnew hgrown5
                      (newBelow_mono rank _ g5' _ R (Nat.le_of_lt hR) hnew5)

theorem run_once (rank : String → Nat) (fuel : Nat) :
    MustGetImplOnce rank fuel ∧ InferOnce rank fuel ∧ FuncBodyOnce rank fuel ∧
      GenExprOnce rank fuel ∧ GenArgsOnce rank fuel := by
  induction fuel with
  | zero =>
    refine ⟨?_, ?_, ?_, ?_, ?_⟩
    · intro g bind argList R _ _; simp only [mustGetImpl]; trivial
    · intro g bind path binds typeMap r _ _ _; simp only [inferReturnType]; trivial
    · intro g b ref binds typeMap r _ _ _; simp only [funcBody]; trivial
    · intro g b ref binds typeMap r _ _ _; simp only [genExpr]; trivial
    · intro g b ref i n binds typeMap vs r _ _ _; simp only [genArgs]; trivial
  | succ fuel ih =>
    obtain ⟨ihM, ihI, ihF, ihG, ihA⟩ := ih
    exact ⟨mustGetImpl_once_step rank fuel ihI ihF,
      inferReturnType_once_step rank fuel ihM ihI, funcBody_once_step rank fuel ihG,
      genExpr_once_step rank fuel ihM ihG ihA, genArgs_once_step rank fuel ihG ihA⟩

/-! ## Lemmas: the key of a declaration determines its name and parameter types -/

theorem llvmTypes_eq_of_length : ∀ (l l' : List LLVMType), l.length = l'.length → l = l'
  | [], [], _ => rfl
  | [], _ :: _, h => by simp at h
  | _ :: _, [], h => by simp at h
  | LLVMType.I64 :: l, LLVMType.I64 :: l', h => by
    rw [llvmTypes_eq_of_length l l' (by simpa using h)]

theorem sigKey_injective (n n' : String) (l l' : List LLVMType)
    (hn : '(' ∉ n.data) (hn' : '(' ∉ n'.data) (h : sigKey (n, l) = sigKey (n', l')) :
    (n, l) = (n', l') := by
  have hparen : ("(" : String).data = ['('] := rfl
  cases l with
  | nil =>
    cases l' with
    | nil =>
      simp only [sigKey, List.map_nil, genKeyByTypes, List.getLast?_nil] at h
      rw [h]
    | cons t ts =>
      exfalso
      simp only [sigKey, List.map_nil, List.map_cons, genKeyByTypes_cons] at h
      simp only [genKeyByTypes, List.getLast?_nil] at h
      apply hn
      rw [h]
      simp [String.data_append, hparen]
  | cons t ts =>
    cases l' with
    | nil =>
      exfalso
      simp only [sigKey, List.map_nil, List.map_cons, genKeyByTypes_cons] at h
      simp only [genKeyByTypes, List.getLast?_nil] at h
      apply hn'
      rw [← h]
      simp [String.data_append, hparen]
    | cons u us =>
      simp only [sigKey, List.map_cons, genKeyByTypes_cons] at h
      have hd := congrArg String.data h
      simp only [String.data_append, hparen, List.append_assoc, List.singleton_append] at hd
      obtain ⟨hname, hrest⟩ := split_unique '(' _ _ _ _ hn hn' hd
      have hrest2 := List.append_cancel_right hrest
      have hgo : String.intercalate.go Ty.Int.name ","
            ((ts.map (fun _ => Ty.Int)).map Ty.name) =
          String.intercalate.go Ty.Int.name "," ((us.map (fun _ => Ty.Int)).map Ty.name) := by
        apply String.ext
        simpa [String.intercalate] using hrest2
      have hint : ',' ∉ Ty.Int.name.data := by decide
      have hall : ∀ (xs : List LLVMType), ∀ s ∈ (xs.map (fun _ => Ty.Int)).map Ty.name,
          ',' ∉ s.data := by
        intro xs s hs
        simp only [List.map_map, List.mem_map, Function.comp] at hs
        obtain ⟨_, _, rfl⟩ := hs
        exact hint
      have hlists := intercalate_go_injective _ _ _ _ hint hint (hall ts) (hall us) hgo
      have hlen : (t :: ts).length = (u :: us).length := by
        have := congrArg List.length hlists
        simpa using this
      rw [String.ext hname, llvmTypes_eq_of_length _ _ hlen]

/-! ## Lemmas: states reached over a ranked table -/

theorem Map.lookup_mem {α : Type} (m : Map α) (k : String) (v : α)
    (h : m.lookup k = some v) : (k, v) ∈ m := by
  induction m with
  | nil => simp [Map.lookup] at h
  | cons kv m ih =>
    obtain ⟨k0, x⟩ := kv
    simp only [Map.lookup] at h
    split at h
    · next hk =>
      injection h with h
      subst hk; subst h
      exact List.mem_cons_self _ _
    · exact List.mem_cons_of_mem _ (ih h)

theorem rankedTable_intro (rank : String → Nat) (heap : List Binding) (bindMap : Map Nat)
    (h1 : ∀ p ∈ bindMap, ∀ bnd, heap.get? p.2 = some bnd → bnd.Name = p.1)
    (h2 : ∀ bnd ∈ heap, '(' ∉ bnd.Name.data ∧
      (0 < rank bnd.Name → Expr.Ranked rank (rank bnd.Name) bnd.Expr)) :
    rankedTable rank heap bindMap :=
  ⟨fun n i bnd hn hb => h1 (n, i) (Map.lookup_mem _ _ _ hn) bnd hb,
    fun _ bnd hb => (h2 bnd (List.get?_mem hb)).1,
    fun _ bnd hb => (h2 bnd (List.get?_mem hb)).2⟩

theorem New_orderly (rank : String → Nat) (heap : List Binding) (bindMap : Map Nat)
    (h : rankedTable rank heap bindMap) : (New heap bindMap).Orderly rank := by
  refine ⟨h, ?_, ?_, ?_, ?_⟩
  · intro i fn hfn; simp [New] at hfn
  · intro i fn hfn; simp [New] at hfn
  · intro i j fi fj _ hfi; simp [New] at hfi
  · intro k f hk; simp [New, Map.lookup] at hk

theorem mustGetImpl_orderly (rank : String → Nat) (fuel : Nat) (g g1 : Generator) (bind : Nat)
    (argList : List Arg) (hg : g.Orderly rank)
    (hr : ∀ bnd, g.heap.get? bind = some bnd → 0 < rank bnd.Name)
    (h : (mustGetImpl fuel g bind argList).state? = some g1) : g1.Orderly rank := by
  have hR : ∃ R, ∀ bnd, g.heap.get? bind = some bnd → 0 < rank bnd.Name ∧ rank bnd.Name < R := by
    cases hb : g.heap.get? bind with
    | none => exact ⟨0, fun bnd h => by cases h⟩
    | some bnd =>
      refine ⟨rank bnd.Name + 1, fun bnd' h => ?_⟩
      injection h with h
      subst h
      exact ⟨hr _ hb, Nat.lt_succ_self _⟩
  obtain ⟨R, hR⟩ := hR
  have hM := (run_once rank fuel).1 g bind argList R hg hR
  generalize mustGetImpl fuel g bind argList = res at h hM
  cases res with
  | diverge => simp [Res.state?] at h
  | panic e g2 =>
    simp only [Res.state?, Option.some.injEq] at h
    subst h
    exact hM.1
  | ok f g2 =>
    simp only [Res.state?, Option.some.injEq] at h
    subst h
    exact hM.1

theorem ReachesRanked_orderly (rank : String → Nat) (g g1 : Generator) (hg : g.Orderly rank)
    (h : ReachesRanked rank g g1) : g1.Orderly rank := by
  induction h with
  | refl => exact hg
  | call g1 g2 fuel bind argList _ hr hstep ih =>
    exact mustGetImpl_orderly rank fuel g1 g2 bind argList ih hr hstep

theorem ReachesRanked_reaches (rank : String → Nat) (g g1 : Generator)
    (h : ReachesRanked rank g g1) : Reaches g g1 := by
  induction h with
  | refl => exact Reaches.refl
  | call g1 g2 fuel bind argList _ _ hstep ih =>
    exact Reaches.call g1 g2 fuel bind argList ih hstep

theorem filter_le_one {α : Type} (p : α → Bool) (l : List α)
    (h : ∀ i j x y, i < j → l.get? i = some x → l.get? j = some y → p x = true →
      p y = true → False) : (l.filter p).length ≤ 1 := by
  induction l with
  | nil => simp
  | cons a l ih =>
    have ih' := ih (fun i j x y hij hx hy => h (i + 1) (j + 1) x y (by omega)
      (by simpa using hx) (by simpa using hy))
    cases hp : p a with
    | false => simpa [List.filter_cons, hp] using ih'
    | true =>
      have hnone : l.filter p = [] := by
        rw [List.filter_eq_nil_iff]
        intro y hy hpy
        obtain ⟨j, hj⟩ := List.get?_of_mem hy
        exact h 0 (j + 1) a y (by omega) (by simp) (by simpa using hj) hp hpy
      simp [List.filter_cons, hp, hnone]

theorem TypeOf_ofArg (a : Arg) : TypeOf (Expr.ofArg a) = TypeOf a.Expr := by
  cases a with
  | mk i e => simp [TypeOf, Arg.Expr]

theorem typesOf_of_typed (as : List Arg) (h : ∀ a ∈ as, (TypeOf a.Expr).isSome = true) :
    ∃ ts, typesOf (as.map Expr.ofArg) = some ts := by
  induction as with
  | nil => exact ⟨[], rfl⟩
  | cons a as ih =>
    obtain ⟨ts, hts⟩ := ih (fun a' ha' => h a' (List.mem_cons_of_mem _ ha'))
    have ha := h a (List.mem_cons_self _ _)
    rw [← TypeOf_ofArg] at ha
    obtain ⟨t, ht⟩ := Option.isSome_iff_exists.mp ha
    exact ⟨t :: ts, by simp [typesOf, ht, hts]⟩

theorem typed_of_typesOf (as : List Arg) (ts : List Ty)
    (h : typesOf (as.map Expr.ofArg) = some ts) : ∀ a ∈ as, (TypeOf a.Expr).isSome = true := by
  induction as generalizing ts with
  | nil => intro a ha; simp at ha
  | cons a0 as ih =>
    simp only [List.map, typesOf] at h
    split at h
    · simp at h
    · next t ht =>
      split at h
      · simp at h
      · next ts' hts =>
        intro a ha
        rcases List.mem_cons.mp ha with rfl | ha
        · rw [← TypeOf_ofArg, ht]; rfl
        · exact ih ts' hts a ha

theorem bindArgs_typed (ps : List String) (ts : List Ty) (as : List Arg)
    (binds : Map Expr) (params : List Param) (r : Map Expr × List Param)
    (h : bindArgs ps ts as binds params = Except.ok r)
    (hb : ∀ k e, binds.lookup k = some e → (TypeOf e).isSome = true)
    (ha : ∀ a ∈ as, (TypeOf a.Expr).isSome = true) :
    ∀ k e, r.1.lookup k = some e → (TypeOf e).isSome = true := by
  induction as generalizing ps ts binds params with
  | nil =>
    simp only [bindArgs] at h
    injection h with h
    subst h
    exact hb
  | cons a as ih =>
    cases ps with
    | nil => simp [bindArgs] at h
    | cons p ps =>
      cases ts with
      | nil => simp [bindArgs] at h
      | cons t ts =>
        simp only [bindArgs] at h
        by_cases hbad : p ≠ (if a.Ident = "" then p else a.Ident)
        · rw [if_pos hbad] at h
          simp at h
        · rw [if_neg hbad] at h
          refine ih ps ts _ _ h ?_ (fun a' ha' => ha a' (List.mem_cons_of_mem _ ha'))
          intro k e hke
          rcases Map.lookup_insert_cases _ _ _ _ _ hke with rfl | hke
          · exact ha a (List.mem_cons_self _ _)
          · exact hb k e hke

theorem bindArgs_present (ps : List String) (ts : List Ty) (as : List Arg)
    (binds : Map Expr) (params : List Param) (r : Map Expr × List Param)
    (h : bindArgs ps ts as binds params = Except.ok r) (hlen : as.length = ps.length) :
    ∀ q, (q ∈ ps ∨ (binds.lookup q).isSome = true) → (r.1.lookup q).isSome = true := by
  induction as generalizing ps ts binds params with
  | nil =>
    simp only [bindArgs] at h
    injection h with h
    subst h
    cases ps with
    | nil => intro q hq; simpa using hq
    | cons p ps => simp at hlen
  | cons a as ih =>
    cases ps with
    | nil => simp [bindArgs] at h
    | cons p ps =>
      cases ts with
      | nil => simp [bindArgs] at h
      | cons t ts =>
        simp only [bindArgs] at h
        by_cases hbad : p ≠ (if a.Ident = "" then p else a.Ident)
        · rw [if_pos hbad] at h
          simp at h
        · rw [if_neg hbad] at h
          have hgood : (if a.Ident = "" then p else a.Ident) = p := by
            by_contra hne; exact hbad (fun e => hne e.symm)
          rw [hgood] at h
          intro q hq
          apply ih ps ts _ _ h (by simpa using hlen) q
          rcases hq with hq | hq
          · rcases List.mem_cons.mp hq with rfl | hq
            · right; rw [Map.lookup_insert_self]; rfl
            · left; exact hq
          · right; exact Map.lookup_insert_isSome _ _ _ _ hq

theorem bindTypes_present (ps : List String) (ts : List Ty) (typeMap r : Map Ty)
    (h : bindTypes ps ts typeMap = Except.ok r) (hlen : ts.length = ps.length) :
    ∀ q, (q ∈ ps ∨ (typeMap.lookup q).isSome = true) → (r.lookup q).isSome = true := by
  induction ts generalizing ps typeMap with
  | nil =>
    cases ps with
    | nil =>
      simp only [bindTypes] at h
      injection h with h
      subst h
      intro q hq; simpa using hq
    | cons p ps => simp at hlen
  | cons t ts ih =>
    cases ps with
    | nil => simp at hlen
    | cons p ps =>
      simp only [bindTypes] at h
      intro q hq
      apply ih ps _ h (by simpa using hlen) q
      rcases hq with hq | hq
      · rcases List.mem_cons.mp hq with rfl | hq
        · right; rw [Map.lookup_insert_self]; rfl
        · left; exact hq
      · right; exact Map.lookup_insert_isSome _ _ _ _ hq

theorem map_const_of_length {α β γ : Type} (c : γ) (l : List α) (m : List β)
    (h : l.length = m.length) : l.map (fun _ => c) = m.map (fun _ => c) := by
  induction l generalizing m with
  | nil =>
    cases m with
    | nil => rfl
    | cons y m => simp at h
  | cons x l ih =>
    cases m with
    | nil => simp at h
    | cons y m => simp [ih m (by simpa using h)]

theorem argsReenter_length (all ps : List String) (as : List Arg)
    (h : argsReenter all ps as = true) : as.length = ps.length := by
  induction ps generalizing as with
  | nil =>
    cases as with
    | nil => rfl
    | cons a as => simp [argsReenter] at h
  | cons p ps ih =>
    cases as with
    | nil => simp [argsReenter] at h
    | cons a as =>
      simp only [argsReenter, Bool.and_eq_true] at h
      simp [ih as h.2]

theorem argsReenter_labels (all ps : List String) (as : List Arg)
    (h : argsReenter all ps as = true) : ¬ labelMismatch ps as := by
  induction ps generalizing as with
  | nil =>
    rintro ⟨i, a, p, _, hp, _⟩
    simp at hp
  | cons p ps ih =>
    cases as with
    | nil =>
      rintro ⟨i, a, p, ha, _⟩
      simp at ha
    | cons a as =>
      simp only [argsReenter, Bool.and_eq_true, argReenters, Bool.or_eq_true, beq_iff_eq] at h
      rintro ⟨i, a', p', ha, hp, hne, hne'⟩
      cases i with
      | zero =>
        simp at ha hp
        subst ha; subst hp
        rcases h.1.1 with h0 | h0
        · exact hne h0
        · exact hne' h0
      | succ i =>
        exact ih as h.2 ⟨i, a', p', by simpa using ha, by simpa using hp, hne, hne'⟩

theorem argReenters_subst (all : List String) (p : String) (a : Arg) (binds : Map Expr)
    (hb : ∀ q ∈ all, ∃ e, binds.lookup q = some e ∧ (TypeOf e).isSome = true)
    (h : argReenters all p a = true) :
    argReenters all p (substArg binds a) = true ∧
      (TypeOf (substArg binds a).Expr).isSome = true := by
  cases a with
  | mk label e =>
    simp only [argReenters, Bool.and_eq_true, Arg.Ident, Arg.Expr] at h
    obtain ⟨hl, he⟩ := h
    cases e with
    | Ident q =>
      have hmem : q ∈ all := by simpa using he
      obtain ⟨e, hq, hte⟩ := hb q hmem
      have hsub : substArg binds (Arg.mk label (Expr.Ident q)) = Arg.mk label e := by
        simp [substArg, hq]
      rw [hsub]
      refine ⟨?_, hte⟩
      simp only [argReenters, Bool.and_eq_true, Arg.Ident, Arg.Expr]
      refine ⟨hl, ?_⟩
      cases e with
      | Ident q' => simp [TypeOf] at hte
      | nil => exact hte
      | Int l => exact hte
      | BinaryExpr l r op => exact hte
      | FuncCall m args => exact hte
      | ofArg a' => exact hte
    | nil => simp [TypeOf] at he
    | Int l => exact ⟨by simp [argReenters, substArg, Arg.Ident, Arg.Expr, hl, TypeOf], by simp [substArg, Arg.Expr, TypeOf]⟩
    | BinaryExpr l r op => simp [TypeOf] at he
    | FuncCall m args => simp [TypeOf] at he
    | ofArg a' =>
      have hsub : substArg binds (Arg.mk label (Expr.ofArg a')) = Arg.mk label (Expr.ofArg a') := by
        simp [substArg]
      rw [hsub]
      exact ⟨by simp only [argReenters, Bool.and_eq_true, Arg.Ident, Arg.Expr]; exact ⟨hl, he⟩, he⟩

theorem argsReenter_subst (all ps : List String) (as : List Arg) (binds : Map Expr)
    (hb : ∀ q ∈ all, ∃ e, binds.lookup q = some e ∧ (TypeOf e).isSome = true)
    (h : argsReenter all ps as = true) :
    argsReenter all ps (as.map (substArg binds)) = true ∧
      ∀ a ∈ as.map (substArg binds), (TypeOf a.Expr).isSome = true := by
  induction ps generalizing as with
  | nil =>
    cases as with
    | nil => exact ⟨rfl, by intro a ha; simp at ha⟩
    | cons a as => simp [argsReenter] at h
  | cons p ps ih =>
    cases as with
    | nil => simp [argsReenter] at h
    | cons a as =>
      simp only [argsReenter, Bool.and_eq_true] at h
      obtain ⟨h1, h2⟩ := argReenters_subst all p a binds hb h.1
      obtain ⟨h3, h4⟩ := ih as h.2
      refine ⟨by simp only [List.map, argsReenter, Bool.and_eq_true]; exact ⟨h1, h3⟩, ?_⟩
      intro a' ha'
      simp only [List.map, List.mem_cons] at ha'
      rcases ha' with rfl | ha'
      · exact h2
      · exact h4 a' ha'

theorem Expr.spine_get (fam : List (String × List String)) (ps : List String) (e : Expr) (p : List Step)
    (h : e.spine fam ps p = true) : (e.get p).reenters fam ps = true := by
  induction p generalizing e with
  | nil => simpa [Expr.spine, Expr.get] using h
  | cons s p ih =>
    cases e with
    | BinaryExpr l r op =>
      cases s with
      | L => exact ih l (by simpa [Expr.spine] using h)
      | R =>
        simp only [Expr.spine, Bool.and_eq_true] at h
        exact ih r h.2
      | arg i => simp [Expr.spine] at h
      | inner => simp [Expr.spine] at h
    | nil => simp [Expr.spine] at h
    | Int l => simp [Expr.spine] at h
    | Ident q => simp [Expr.spine] at h
    | FuncCall m args => simp [Expr.spine] at h
    | ofArg a => simp [Expr.spine] at h

theorem Expr.spine_root (fam : List (String × List String)) (ps : List String) (e : Expr) (p : List Step)
    (h : e.spine fam ps p = true) : e.reenters fam ps = true := by
  induction p generalizing e with
  | nil => simpa [Expr.spine] using h
  | cons s p ih =>
    cases e with
    | BinaryExpr l r op =>
      cases s with
      | L =>
        have := ih l (by simpa [Expr.spine] using h)
        simp [Expr.reenters, this]
      | R =>
        simp only [Expr.spine, Bool.and_eq_true] at h
        have := ih r h.2
        simp [Expr.reenters, this, h.1]
      | arg i => simp [Expr.spine] at h
      | inner => simp [Expr.spine] at h
    | nil => simp [Expr.spine] at h
    | Int l => simp [Expr.spine] at h
    | Ident q => simp [Expr.spine] at h
    | FuncCall m args => simp [Expr.spine] at h
    | ofArg a => simp [Expr.spine] at h

theorem Expr.spine_set (fam : List (String × List String)) (ps : List String) (e new : Expr) (p : List Step)
    (h : e.spine fam ps p = true) (hnew : new.reenters fam ps = true) :
    (e.set p new).spine fam ps p = true := by
  induction p generalizing e with
  | nil => simpa [Expr.spine, Expr.set] using hnew
  | cons s p ih =>
    cases e with
    | BinaryExpr l r op =>
      cases s with
      | L =>
        simp only [Expr.set, Expr.spine]
        exact ih l (by simpa [Expr.spine] using h)
      | R =>
        simp only [Expr.spine, Bool.and_eq_true] at h
        simp only [Expr.set, Expr.spine, Bool.and_eq_true]
        exact ⟨h.1, ih r h.2⟩
      | arg i => simp [Expr.spine] at h
      | inner => simp [Expr.spine] at h
    | nil => simp [Expr.spine] at h
    | Int l => simp [Expr.spine] at h
    | Ident q => simp [Expr.spine] at h
    | FuncCall m args => simp [Expr.spine] at h
    | ofArg a => simp [Expr.spine] at h

theorem Expr.spine_step (fam : List (String × List String)) (ps : List String) (e l r : Expr) (op : String)
    (p : List Step) (h : e.spine fam ps p = true) (hget : e.get p = Expr.BinaryExpr l r op) :
    (l.reenters fam ps = true → e.spine fam ps (p ++ [Step.L]) = true) ∧
    (isParam ps l = true → r.reenters fam ps = true → e.spine fam ps (p ++ [Step.R]) = true) := by
  induction p generalizing e with
  | nil =>
    simp only [Expr.get] at hget
    subst hget
    constructor
    · intro hl; simpa [Expr.spine] using hl
    · intro hl hr; simp [Expr.spine, hl, hr]
  | cons s p ih =>
    cases e with
    | BinaryExpr l0 r0 op0 =>
      cases s with
      | L =>
        have := ih l0 (by simpa [Expr.spine] using h) (by simpa [Expr.get, Expr.child] using hget)
        simpa [Expr.spine] using this
      | R =>
        simp only [Expr.spine, Bool.and_eq_true] at h
        have := ih r0 h.2 (by simpa [Expr.get, Expr.child] using hget)
        constructor
        · intro hl
          simp only [List.cons_append, Expr.spine, Bool.and_eq_true]
          exact ⟨h.1, this.1 hl⟩
        · intro hl hr
          simp only [List.cons_append, Expr.spine, Bool.and_eq_true]
          exact ⟨h.1, this.2 hl hr⟩
      | arg i => simp [Expr.spine] at h
      | inner => simp [Expr.spine] at h
    | nil => simp [Expr.spine] at h
    | Int l => simp [Expr.spine] at h
    | Ident q => simp [Expr.spine] at h
    | FuncCall m args => simp [Expr.spine] at h
    | ofArg a => simp [Expr.spine] at h

theorem Generator.cyclic_store (g : Generator) (fam : List (String × List String))
    (bp : Nat) (bnd : Binding) (path : List Step) (new : Expr)
    (hg : g.cyclic fam) (hb : g.heap.get? bp = some bnd)
    (hsp : bnd.Expr.spine fam bnd.ParamList path = true)
    (hnew : new.reenters fam bnd.ParamList = true) :
    (g.store bp path new).cyclic fam := by
  intro m ps hm
  obtain ⟨i, b, hi, hbi, hname, hps, hre, hc⟩ := hg m ps hm
  by_cases hib : i = bp
  · subst hib
    rw [hb] at hbi
    injection hbi with hbi
    subst hbi
    refine ⟨i, { bnd with Expr := bnd.Expr.set path new }, hi, ?_, hname, hps, ?_, hc⟩
    · simp only [Generator.store, updateAt_get?, hb, Option.map]
    · rw [← hps]
      exact Expr.spine_root fam _ _ path (Expr.spine_set fam _ _ _ path hsp hnew)
  · refine ⟨i, b, hi, ?_, hname, hps, hre, hc⟩
    simp only [Generator.store]
    rw [updateAt_get?_ne _ _ _ _ hib]
    exact hbi

theorem reentry_diverges (fam : List (String × List String)) (fuel : Nat) :
    (∀ (g : Generator) (m : String) (ps : List String) (bp : Nat) (argList : List Arg),
      g.cyclic fam → (m, ps) ∈ fam → g.bindMap.lookup m = some bp →
      argList.length = ps.length → (∀ a ∈ argList, (TypeOf a.Expr).isSome = true) →
      ¬ labelMismatch ps argList →
      mustGetImpl fuel g bp argList = Res.diverge) ∧
    (∀ (g : Generator) (bp : Nat) (bnd : Binding) (path : List Step) (binds : Map Expr)
      (typeMap : Map Ty),
      g.cyclic fam → g.heap.get? bp = some bnd →
      bnd.Expr.spine fam bnd.ParamList path = true →
      (∀ q ∈ bnd.ParamList, ∃ e, binds.lookup q = some e ∧ (TypeOf e).isSome = true) →
      (∀ q ∈ bnd.ParamList, (typeMap.lookup q).isSome = true) →
      inferReturnType fuel g bp path binds typeMap = Res.diverge) := by
  induction fuel with
  | zero => exact ⟨by intros; simp [mustGetImpl], by intros; simp [inferReturnType]⟩
  | succ fuel ih =>
    obtain ⟨ihM, ihI⟩ := ih
    constructor
    · intro g m ps bp argList hg hm hn hlen hty hlab
      obtain ⟨i, bnd, hi, hb, hname, hps, hre, hc⟩ := hg m ps hm
      rw [hn] at hi
      injection hi with hi
      subst hi
      obtain ⟨ts, hts⟩ := typesOf_of_typed argList hty
      have htsInt : ts = ps.map (fun _ => Ty.Int) := by
        rw [typesOf_int _ _ hts]
        exact map_const_of_length Ty.Int _ _ (by simp [hlen])
      have hk : genKeyByArg bnd.Name argList = some (genKeyByTypes m ts) := by
        simp [genKeyByArg, genKey, hts, hname]
      have htl : ts.length = argList.length := by simpa using typesOf_length _ _ hts
      obtain ⟨⟨binds, params⟩, hba⟩ := bindArgs_agree bnd.ParamList ts argList [] []
        (by rw [hps]; exact hlen) htl (by rw [hps]; exact hlab)
      obtain ⟨typeMap, hbt⟩ := bindTypes_ok bnd.ParamList ts [] (by rw [hps, htl, hlen])
      have hbinds : ∀ q ∈ bnd.ParamList,
          ∃ e, binds.lookup q = some e ∧ (TypeOf e).isSome = true := by
        intro q hq
        have h1 := bindArgs_present bnd.ParamList ts argList [] [] _ hba
          (by rw [hps]; exact hlen) q (Or.inl hq)
        obtain ⟨e, he⟩ := Option.isSome_iff_exists.mp h1
        exact ⟨e, he, bindArgs_typed bnd.ParamList ts argList [] [] _ hba
          (by intro k e hke; simp [Map.lookup] at hke) hty q e he⟩
      have htm : ∀ q ∈ bnd.ParamList, (typeMap.lookup q).isSome = true := by
        intro q hq
        exact bindTypes_present bnd.ParamList ts [] typeMap hbt (by rw [hps, htl, hlen]) q
          (Or.inl hq)
      have hdiv := ihI g bp bnd [] binds typeMap hg hb
        (by rw [hps]; simpa [Expr.spine] using hre) hbinds htm
      rw [← htsInt] at hc
      simp only [mustGetImpl, hb, hk, hc]
      rw [if_neg (by rw [hps]; simp [hlen])]
      simp only [hts, hba, hbt, hdiv]
    · intro g bp bnd path binds typeMap hg hb hsp hbinds htm
      have hnode := Expr.spine_get fam bnd.ParamList bnd.Expr path hsp
      have hderef : g.deref (Ref.body bp path) = bnd.Expr.get path := by
        simp only [Generator.deref, hb]
      cases hnd : bnd.Expr.get path with
      | FuncCall m args =>
        rw [hnd] at hnode
        simp only [Expr.reenters, List.any_eq_true, Bool.and_eq_true, beq_iff_eq] at hnode
        obtain ⟨⟨m1, ps1⟩, hmem, hm, hargs⟩ := hnode
        simp only at hm hargs
        subst hm
        obtain ⟨hargs1, htyped⟩ := argsReenter_subst bnd.ParamList ps1 args binds hbinds hargs
        have hnew : (Expr.FuncCall m1 (args.map (substArg binds))).reenters fam bnd.ParamList
            = true := by
          simp only [Expr.reenters, List.any_eq_true, Bool.and_eq_true, beq_iff_eq]
          exact ⟨(m1, ps1), hmem, rfl, hargs1⟩
        obtain ⟨i1, b1, hi1, _⟩ := hg m1 ps1 hmem
        have hnext := ihM (g.store bp path (Expr.FuncCall m1 (args.map (substArg binds))))
          m1 ps1 i1 (args.map (substArg binds))
          (Generator.cyclic_store g fam bp bnd path _ hg hb hsp hnew) hmem hi1
          (argsReenter_length _ _ _ hargs1) htyped (argsReenter_labels _ _ _ hargs1)
        simp only [inferReturnType, hderef, hnd, hi1, hnext]
      | BinaryExpr l r op =>
        rw [hnd] at hnode
        simp only [Expr.reenters, Bool.or_eq_true, Bool.and_eq_true] at hnode
        obtain ⟨hL, hR⟩ := Expr.spine_step fam bnd.ParamList bnd.Expr l r op path hsp hnd
        simp only [inferReturnType, hderef, hnd]
        by_cases hl : l.reenters fam bnd.ParamList = true
        · rw [ihI g bp bnd (path ++ [Step.L]) binds typeMap hg hb (hL hl) hbinds htm]
        · rcases hnode with h | ⟨hp, hr⟩
          · exact absurd h hl
          · have hRdiv := ihI g bp bnd (path ++ [Step.R]) binds typeMap hg hb (hR hp hr)
              hbinds htm
            cases l with
            | Ident q =>
              cases fuel with
              | zero => simp [inferReturnType]
              | succ fuel =>
                have hq : q ∈ bnd.ParamList := by simpa [isParam] using hp
                obtain ⟨t, ht⟩ := Option.isSome_iff_exists.mp (htm q hq)
                have hLd : g.deref (Ref.body bp (path ++ [Step.L])) = Expr.Ident q := by
                  simp only [Generator.deref, hb, Expr.get_append, hnd, Expr.child]
                have hLres : inferReturnType (fuel + 1) g bp (path ++ [Step.L]) binds typeMap =
                    Res.ok t g := by
                  simp only [inferReturnType, hLd, ht]
                rw [hLres]
                simp only
                rw [hRdiv]
            | nil => simp [isParam] at hp
            | Int l0 => simp [isParam] at hp
            | BinaryExpr l0 r0 op0 => simp [isParam] at hp
            | FuncCall m args => simp [isParam] at hp
            | ofArg a => simp [isParam] at hp
      | nil => rw [hnd] at hnode; simp [Expr.reenters] at hnode
      | Int l0 => rw [hnd] at hnode; simp [Expr.reenters] at hnode
      | Ident q => rw [hnd] at hnode; simp [Expr.reenters] at hnode
      | ofArg a => rw [hnd] at hnode; simp [Expr.reenters] at hnode

theorem labels_agree_unlabelled (ps : List String) (as : List Arg)
    (h : ∀ a ∈ as, a.Ident = "") : ¬ labelMismatch ps as := by
  rintro ⟨i, a, p, ha, _, hne, _⟩
  exact hne (h a (List.get?_mem ha))

/-! ## Lemmas: skeletons, plain bodies and leftovers -/

theorem Expr.flat_of_skel (e e1 : Expr) (h : e1.skel = e.skel) : e1.flat = e.flat := by
  cases e with
  | BinaryExpr l r op =>
    cases e1 with
    | BinaryExpr l1 r1 op1 =>
      simp only [Expr.skel, Expr.BinaryExpr.injEq] at h
      obtain ⟨hl, hr, hop⟩ := h
      have hli : l1.isIdent = l.isIdent := by
        cases l <;> cases l1 <;> simp [Expr.skel, Expr.isIdent] at hl ⊢
      have hri : r1.isIdent = r.isIdent := by
        cases r <;> cases r1 <;> simp [Expr.skel, Expr.isIdent] at hr ⊢
      simp only [Expr.flat, hli, hri, hop]
    | nil => simp [Expr.skel] at h
    | Int l0 => simp [Expr.skel] at h
    | Ident q => simp [Expr.skel] at h
    | FuncCall m args => simp [Expr.skel] at h
    | ofArg a => simp [Expr.skel] at h
  | nil => cases e1 <;> simp [Expr.skel, Expr.flat] at h ⊢
  | Int l0 => cases e1 <;> simp [Expr.skel, Expr.flat] at h ⊢
  | Ident q => cases e1 <;> simp [Expr.skel, Expr.flat] at h ⊢
  | FuncCall m args => cases e1 <;> simp [Expr.skel, Expr.flat] at h ⊢
  | ofArg a => cases e1 <;> simp [Expr.skel, Expr.flat] at h ⊢

theorem Expr.skel_binary (e l r : Expr) (op : String)
    (h : e.skel = (Expr.BinaryExpr l r op).skel) :
    ∃ l1 r1, e = Expr.BinaryExpr l1 r1 op ∧ l1.skel = l.skel ∧ r1.skel = r.skel := by
  cases e with
  | BinaryExpr l1 r1 op1 =>
    simp only [Expr.skel, Expr.BinaryExpr.injEq] at h
    obtain ⟨hl, hr, hop⟩ := h
    subst hop
    exact ⟨l1, r1, rfl, hl, hr⟩
  | nil => simp [Expr.skel] at h
  | Int l0 => simp [Expr.skel] at h
  | Ident q => simp [Expr.skel] at h
  | FuncCall m args => simp [Expr.skel] at h
  | ofArg a => simp [Expr.skel] at h

theorem Expr.skel_call (e : Expr) (n : String) (args : List Arg)
    (h : e.skel = (Expr.FuncCall n args).skel) :
    ∃ args1, e = Expr.FuncCall n args1 ∧ args1.length = args.length := by
  cases e with
  | FuncCall m args1 =>
    simp only [Expr.skel, Expr.FuncCall.injEq] at h
    obtain ⟨hm, hargs⟩ := h
    subst hm
    refine ⟨args1, rfl, ?_⟩
    have := congrArg List.length hargs
    simpa using this
  | nil => simp [Expr.skel] at h
  | Int l0 => simp [Expr.skel] at h
  | Ident q => simp [Expr.skel] at h
  | BinaryExpr l r op => simp [Expr.skel] at h
  | ofArg a => simp [Expr.skel] at h

theorem Expr.skel_ident (e : Expr) (q : String) (h : e.skel = (Expr.Ident q).skel) :
    e = Expr.Ident q := by
  cases e <;> simp [Expr.skel] at h ⊢
  exact h

theorem Expr.nil_get (p : List Step) : Expr.nil.get p = Expr.nil := by
  induction p with
  | nil => rfl
  | cons s p ih => simpa [Expr.get, Expr.child] using ih

theorem Expr.plain_of_plainArg (e : Expr) (h : e.plainArg = true) : e.plain = true := by
  cases e <;> simp [Expr.plainArg, Expr.plain] at h ⊢

theorem Expr.plain_child (e : Expr) (s : Step) (h : e.plain = true) :
    (e.child s).plain = true := by
  cases e with
  | BinaryExpr l r op =>
    simp only [Expr.plain, Bool.and_eq_true] at h
    cases s with
    | L => exact h.1
    | R => exact h.2
    | arg i => rfl
    | inner => rfl
  | FuncCall m args =>
    cases s with
    | arg i =>
      simp only [Expr.child]
      cases ha : args.get? i with
      | none => rfl
      | some a =>
        simp only [Expr.plain, List.all_eq_true] at h
        exact Expr.plain_of_plainArg _ (h a (List.get?_mem ha))
    | L => rfl
    | R => rfl
    | inner => rfl
  | ofArg a => simp [Expr.plain] at h
  | nil => cases s <;> rfl
  | Int l0 => cases s <;> rfl
  | Ident q => cases s <;> rfl

theorem Expr.plain_get (e : Expr) (p : List Step) (h : e.plain = true) :
    (e.get p).plain = true := by
  induction p generalizing e with
  | nil => exact h
  | cons s p ih => exact ih _ (Expr.plain_child e s h)

theorem Expr.plainArg_get (e : Expr) (p : List Step) (n : String) (args : List Arg)
    (h : e.plainArg = true) : e.get p ≠ Expr.FuncCall n args := by
  cases p with
  | nil => cases e <;> simp [Expr.plainArg, Expr.get] at h ⊢
  | cons s p =>
    cases e <;> simp [Expr.plainArg] at h <;> simp [Expr.get, Expr.child, Expr.nil_get]

theorem Expr.plain_set (e new : Expr) (p : List Step) (n : String) (args : List Arg)
    (h : e.plain = true) (hget : e.get p = Expr.FuncCall n args) (hnew : new.plain = true) :
    (e.set p new).plain = true := by
  induction p generalizing e with
  | nil => simpa [Expr.set] using hnew
  | cons s p ih =>
    cases e with
    | BinaryExpr l r op =>
      simp only [Expr.plain, Bool.and_eq_true] at h
      cases s with
      | L =>
        simp only [Expr.set, Expr.plain, Bool.and_eq_true]
        exact ⟨ih l h.1 (by simpa [Expr.get, Expr.child] using hget), h.2⟩
      | R =>
        simp only [Expr.set, Expr.plain, Bool.and_eq_true]
        exact ⟨h.1, ih r h.2 (by simpa [Expr.get, Expr.child] using hget)⟩
      | arg i => simpa [Expr.set, Expr.plain] using h
      | inner => simpa [Expr.set, Expr.plain] using h
    | FuncCall m args0 =>
      cases s with
      | arg i =>
        exfalso
        simp only [Expr.get, Expr.child] at hget
        cases ha : args0.get? i with
        | none =>
          rw [ha] at hget
          simp [Expr.nil_get] at hget
        | some a =>
          rw [ha] at hget
          simp only [Expr.plain, List.all_eq_true] at h
          exact Expr.plainArg_get _ p n args (h a (List.get?_mem ha)) hget
      | L => simpa [Expr.set] using h
      | R => simpa [Expr.set] using h
      | inner => simpa [Expr.set] using h
    | ofArg a => simp [Expr.plain] at h
    | nil => simp [Expr.set, Expr.plain]
    | Int l0 => simp [Expr.set, Expr.plain]
    | Ident q => simp [Expr.set, Expr.plain]

theorem substArg_plainArg (binds : Map Expr) (a : Arg) (hb : literalBinds binds)
    (h : a.Expr.plainArg = true) : (substArg binds a).Expr.plainArg = true := by
  cases a with
  | mk label e =>
    cases e with
    | Ident q =>
      simp only [substArg, Arg.Expr]
      cases hq : binds.lookup q with
      | none => rfl
      | some v =>
        have := hb q v hq
        cases v <;> simp [Expr.isInt] at this
        rfl
    | nil => exact h
    | Int l => exact h
    | BinaryExpr l r op => exact h
    | FuncCall m args => exact h
    | ofArg a0 => exact h

theorem Generator.tidy_of_same (g1 g : Generator) (hg : g.tidy) (hh : g1.heap = g.heap)
    (hb : g1.bindMap = g.bindMap) : g1.tidy := by
  refine ⟨?_, ?_⟩
  · rw [hh, hb]; exact hg.1
  · rw [hh]; exact hg.2

/-- Line 103 keeps the table tidy when the values substituted are integer literals. -/
theorem Generator.tidy_store (g : Generator) (bind : Nat) (path : List Step) (n : String)
    (args : List Arg) (binds : Map Expr) (hg : g.tidy) (hb : literalBinds binds)
    (hnode : g.deref (Ref.body bind path) = Expr.FuncCall n args) :
    (g.store bind path (Expr.FuncCall n (args.map (substArg binds)))).tidy := by
  have hcase : ∀ i b1, (g.store bind path (Expr.FuncCall n (args.map (substArg binds)))).heap.get? i
      = some b1 → ∃ b, g.heap.get? i = some b ∧ b1.Name = b.Name ∧
        (b1 = b ∨ (i = bind ∧
          b1.Expr = b.Expr.set path (Expr.FuncCall n (args.map (substArg binds))))) := by
    intro i b1 h
    simp only [Generator.store] at h
    rcases updateAt_get?_cases _ _ _ _ _ h with ⟨_, h⟩ | ⟨hi, x, hx, rfl⟩
    · exact ⟨b1, h, rfl, Or.inl rfl⟩
    · subst hi
      exact ⟨x, hx, rfl, Or.inr ⟨rfl, rfl⟩⟩
  refine ⟨?_, ?_⟩
  · intro m i b1 hm hb1
    obtain ⟨b, hb0, hname, _⟩ := hcase i b1 hb1
    rw [hname]
    exact hg.1 m i b hm hb0
  · intro i b1 hb1
    obtain ⟨b, hb0, _, hc⟩ := hcase i b1 hb1
    rcases hc with rfl | ⟨hi, hexpr⟩
    · exact hg.2 i _ hb0
    · subst hi
      rw [hexpr]
      simp only [Generator.deref, hb0] at hnode
      have hpl := hg.2 i b hb0
      have hnodepl := Expr.plain_get _ path hpl
      rw [hnode] at hnodepl
      simp only [Expr.plain, List.all_eq_true] at hnodepl
      apply Expr.plain_set _ _ path n args hpl hnode
      simp only [Expr.plain, List.all_eq_true, List.mem_map]
      rintro a1 ⟨a, ha, rfl⟩
      exact substArg_plainArg binds a hb (hnodepl a ha)

theorem Generator.heap_back (g1 g : Generator) (f : FuncRef) (h : g1.grownFromAt g f)
    (i : Nat) (b1 : Binding) (hb1 : g1.heap.get? i = some b1) :
    ∃ b, g.heap.get? i = some b ∧ b1.Expr.skel = b.Expr.skel := by
  have hlen : g1.heap.length = g.heap.length := by
    have := congrArg List.length h.2.1
    simpa using this
  have hi : i < g.heap.length := by
    rw [← hlen]
    exact (List.get?_eq_some.mp hb1).1
  obtain ⟨b1', hb1', _, _, hs⟩ := h.2.2.2.2.2.2.2 i _ (List.get?_eq_get hi)
  rw [hb1] at hb1'
  injection hb1' with hb1'
  subst hb1'
  exact ⟨_, List.get?_eq_get hi, hs⟩

theorem Generator.doomed_grown (g1 g : Generator) (f : FuncRef) (n : String)
    (h : g1.grownFromAt g f) (hd : g.doomed n) : g1.doomed n := by
  intro i b1 hn hb1
  rw [h.1] at hn
  obtain ⟨b, hb, hs⟩ := Generator.heap_back g1 g f h i b1 hb1
  rw [Expr.flat_of_skel _ _ hs]
  exact hd i b hn hb

theorem Generator.blessed_grown (g1 g : Generator) (f : FuncRef) (n : String)
    (h : g1.grownFromAt g f) (hd : g.blessed n) : g1.blessed n := by
  intro i b1 hn hb1
  rw [h.1] at hn
  obtain ⟨b, hb, hs⟩ := Generator.heap_back g1 g f h i b1 hb1
  rw [Expr.flat_of_skel _ _ hs]
  exact hd i b hn hb

theorem Generator.doomed_of_same (g1 g : Generator) (n : String) (hh : g1.heap = g.heap)
    (hb : g1.bindMap = g.bindMap) (hd : g.doomed n) : g1.doomed n := by
  intro i b hn hbi
  rw [hb] at hn
  rw [hh] at hbi
  exact hd i b hn hbi

theorem Generator.blessed_of_same (g1 g : Generator) (n : String) (hh : g1.heap = g.heap)
    (hb : g1.bindMap = g.bindMap) (hd : g.blessed n) : g1.blessed n := by
  intro i b hn hbi
  rw [hb] at hn
  rw [hh] at hbi
  exact hd i b hn hbi

theorem leftovers_of_length (g g1 : Generator) (h : g1.mod.length ≤ g.mod.length) :
    leftovers g g1 := by
  intro i fn hi hfn
  have := (List.get?_eq_some.mp hfn).1
  omega

theorem leftovers_trans (g g1 g2 : Generator) (f : FuncRef) (h1 : leftovers g g1)
    (h2 : leftovers g1 g2) (hgrown : g2.grownFromAt g1 f) : leftovers g g2 := by
  intro i fn2 hi hfn2
  by_cases hlt : i < g1.mod.length
  · obtain ⟨fn2', hfn2', hs, ht, _⟩ := hgrown.2.2.2.1 i _ (List.get?_eq_get hlt)
    rw [hfn2] at hfn2'
    injection hfn2' with hfn2'
    subst hfn2'
    have hn : fn2.name = (g1.mod.get ⟨i, hlt⟩).name := congrArg Prod.fst hs
    have hf := Func.finished_congr _ _ ht
    have h0 := h1 i _ hi (List.get?_eq_get hlt)
    rw [hn, hf]
    exact ⟨fun hu => Generator.doomed_grown g2 g1 f _ hgrown (h0.1 hu),
      fun hu => Generator.blessed_grown g2 g1 f _ hgrown (h0.2 hu)⟩
  · exact h2 i fn2 (by omega) hfn2

/-- The return that `funcBody` adds to a function that `g` had leaves the declarations added
since as they were. -/
theorem leftovers_NewRet (g g1 : Generator) (b : BlockRef) (v : Value)
    (hbf : b.func < g.mod.length) (h : leftovers g g1) : leftovers g (g1.NewRet b v) := by
  intro i fn hi hfn
  have hne : i ≠ b.func := by
    intro h
    rw [h] at hi
    exact Nat.lt_irrefl _ (Nat.lt_of_lt_of_le hbf hi)
  simp only [Generator.NewRet, Generator.updateBlock, updateAt_get?_ne _ _ _ _ hne] at hfn
  have h0 := h i fn hi hfn
  exact ⟨fun hu => Generator.doomed_of_same _ g1 _ rfl rfl (h0.1 hu),
    fun hu => Generator.blessed_of_same _ g1 _ rfl rfl (h0.2 hu)⟩

/-! ## Lemmas: lowering a body on which a request can succeed -/

theorem Expr.isInt_of_typed (e : Expr) (hp : e.plainArg = true)
    (ht : (TypeOf e).isSome = true) : e.isInt = true := by
  cases e <;> simp [Expr.plainArg, TypeOf, Expr.isInt] at hp ht ⊢

theorem Expr.eq_int_of_isInt (e : Expr) (h : e.isInt = true) : ∃ lit, e = Expr.Int lit := by
  cases e <;> simp [Expr.isInt] at h
  exact ⟨_, rfl⟩

theorem typeOfBind_isSome (g : Generator) (key : String) (t : Ty)
    (h : g.typeOfBind key = some t) : (g.typMap.lookup key).isSome = true := by
  simp only [Generator.typeOfBind, Generator.typeOfBuiltInBinding, Generator.typeOfBinding] at h
  split at h
  · next t0 h0 => rw [h0]; rfl
  · rw [h]; rfl

theorem genExpr_of_int (fuel : Nat) (g : Generator) (b : BlockRef) (ref : Ref)
    (binds : Map Expr) (typeMap : Map Ty) (lit : String)
    (hd : g.deref ref = Expr.Int lit) :
    genExpr fuel g b ref binds typeMap = Res.diverge ∨
      genExpr fuel g b ref binds typeMap = Res.ok (Value.const lit) g := by
  cases fuel with
  | zero => left; simp only [genExpr]
  | succ fuel => right; simp only [genExpr, hd]

theorem genExpr_of_ident (fuel : Nat) (g : Generator) (b : BlockRef) (ref : Ref)
    (binds : Map Expr) (typeMap : Map Ty) (q lit : String)
    (hd : g.deref ref = Expr.Ident q) (hq : binds.lookup q = some (Expr.Int lit)) :
    genExpr fuel g b ref binds typeMap = Res.diverge ∨
      genExpr fuel g b ref binds typeMap = Res.ok (Value.const lit) g := by
  cases fuel with
  | zero => left; simp only [genExpr]
  | succ fuel =>
    simp only [genExpr, hd, hq, Option.getD]
    exact genExpr_of_int fuel g b _ binds typeMap lit rfl

theorem genArgs_of_literals (g : Generator) (b : BlockRef) (ref : Ref) (n : String)
    (A : List Arg) (binds : Map Expr) (typeMap : Map Ty)
    (hroot : g.deref ref = Expr.FuncCall n A) (hA : ∀ a ∈ A, a.Expr.isInt = true) :
    ∀ (k fuel i : Nat) (vs : List Value), i + k = A.length →
      genArgs fuel g b ref i k binds typeMap vs = Res.diverge ∨
        ∃ vs1, genArgs fuel g b ref i k binds typeMap vs = Res.ok vs1 g := by
  intro k
  induction k with
  | zero =>
    intro fuel i vs _
    cases fuel with
    | zero => left; simp only [genArgs]
    | succ fuel => right; exact ⟨vs, by simp only [genArgs]⟩
  | succ k ih =>
    intro fuel i vs hik
    cases fuel with
    | zero => left; simp only [genArgs]
    | succ fuel =>
      have hi : i < A.length := by omega
      obtain ⟨lit, hlit⟩ := Expr.eq_int_of_isInt _ (hA _ (List.get_mem A i hi))
      have hd : g.deref (ref.child (Step.arg i)) = Expr.Int lit := by
        rw [Generator.deref_child, hroot]
        simp only [Expr.child, List.get?_eq_get hi]
        exact hlit
      simp only [genArgs]
      rcases genExpr_of_int fuel g b (ref.child (Step.arg i)) binds typeMap lit hd with h | h
      · left; rw [h]
      · rw [h]
        exact ih fuel (i + 1) _ (by omega)

/-- Once the body of a binding has been inferred, lowering it does not panic when the body is
one on which a request can succeed: lowering returns, or the bound on nested calls is
exhausted. -/
theorem funcBody_of_flat (fuel fuelI : Nat) (g gI gB : Generator) (bind : Nat) (bnd : Binding)
    (binds : Map Expr) (typeMap : Map Ty) (inferT : Ty) (b : BlockRef)
    (hb : g.heap.get? bind = some bnd) (hflat : bnd.Expr.flat = true)
    (hbinds : literalBinds binds)
    (htm : ∀ q t, typeMap.lookup q = some t → t = Ty.Int ∧ ∃ e, binds.lookup q = some e)
    (hinf : inferReturnType fuelI g bind [] binds typeMap = Res.ok inferT gI)
    (hgI : gI.tidy)
    (hBh : gB.heap = gI.heap) (hBb : gB.bindMap = gI.bindMap)
    (hBi : gB.implsOfBinding = gI.implsOfBinding)
    (hBt : ∀ k, (gI.typMap.lookup k).isSome = true → (gB.typMap.lookup k).isSome = true) :
    ∀ e g5, funcBody fuel gB b (Ref.body bind []) binds typeMap ≠ Res.panic e g5 := by
  intro e g5
  have hgrown := (run_frame fuelI).2.1 g bind [] binds typeMap
  rw [hinf] at hgrown
  have hlit : ∀ q t, typeMap.lookup q = some t → ∃ lit, binds.lookup q = some (Expr.Int lit) := by
    intro q t hq
    obtain ⟨_, v, hv⟩ := htm q t hq
    obtain ⟨lit, rfl⟩ := Expr.eq_int_of_isInt v (hbinds q v hv)
    exact ⟨lit, hv⟩
  obtain ⟨bI, hbI, _, _, hskel⟩ := hgrown.2.2.2.2.2.2.2 bind bnd hb
  have hrootB : gB.deref (Ref.body bind []) = bI.Expr := by
    simp only [Generator.deref, hBh, hbI, Expr.get]
  cases fuelI with
  | zero => simp only [inferReturnType] at hinf; cases hinf
  | succ kI =>
  have hrootg : g.deref (Ref.body bind []) = bnd.Expr := by
    simp only [Generator.deref, hb, Expr.get]
  cases hE : bnd.Expr with
  | Ident q =>
    rw [hE] at hskel hrootg
    have hI := Expr.skel_ident _ q hskel
    rw [hI] at hrootB
    simp only [inferReturnType, hrootg] at hinf
    cases hq : typeMap.lookup q with
    | none => rw [hq] at hinf; cases hinf
    | some t =>
      obtain ⟨lit, hl⟩ := hlit q t hq
      cases fuel with
      | zero => simp only [funcBody]; intro h; cases h
      | succ k =>
        simp only [funcBody]
        rcases genExpr_of_ident k gB b _ binds typeMap q lit hrootB hl with h | h
        · rw [h]; intro h'; cases h'
        · rw [h]; intro h'; cases h'
  | BinaryExpr l r op =>
    rw [hE] at hskel hrootg hflat
    simp only [Expr.flat, Bool.and_eq_true] at hflat
    obtain ⟨⟨hl, hr⟩, hop⟩ := hflat
    obtain ⟨l1, r1, hbIe, hl1, hr1⟩ := Expr.skel_binary _ l r op hskel
    rw [hbIe] at hrootB
    cases l with
    | Ident a =>
      cases r with
      | Ident c =>
        have hl1' := Expr.skel_ident _ a hl1
        have hr1' := Expr.skel_ident _ c hr1
        subst hl1'
        subst hr1'
        -- what inference found
        have hdL : g.deref (Ref.body bind ([] ++ [Step.L])) = Expr.Ident a := by
          simp only [Generator.deref, hb, hE, List.nil_append, Expr.get, Expr.child]
        have hdR : g.deref (Ref.body bind ([] ++ [Step.R])) = Expr.Ident c := by
          simp only [Generator.deref, hb, hE, List.nil_append, Expr.get, Expr.child]
        simp only [inferReturnType, hrootg] at hinf
        cases kI with
        | zero => simp only [inferReturnType] at hinf; cases hinf
        | succ kI =>
          simp only [inferReturnType, hdL] at hinf
          cases ha : typeMap.lookup a with
          | none => rw [ha] at hinf; cases hinf
          | some ta =>
            rw [ha] at hinf
            simp only [hdR] at hinf
            cases hc : typeMap.lookup c with
            | none => rw [hc] at hinf; cases hinf
            | some tc =>
              rw [hc] at hinf
              simp only at hinf
              have hta := (htm a ta ha).1
              have htc := (htm c tc hc).1
              subst hta
              subst htc
              cases hkey : g.typeOfBind (genKeyByTypes op [Ty.Int, Ty.Int]) with
              | none => rw [hkey] at hinf; cases hinf
              | some t =>
                rw [hkey] at hinf
                injection hinf with _ hgI'
                have hkB : gB.isBuiltIn (genKeyByTypes op [Ty.Int, Ty.Int]) = true := by
                  apply hBt
                  rw [← hgI']
                  exact typeOfBind_isSome g _ t hkey
                obtain ⟨la, hla⟩ := hlit a _ ha
                obtain ⟨lc, hlc⟩ := hlit c _ hc
                have hdLB : gB.deref ((Ref.body bind []).child Step.L) = Expr.Ident a := by
                  rw [Generator.deref_child, hrootB]; rfl
                have hdRB : gB.deref ((Ref.body bind []).child Step.R) = Expr.Ident c := by
                  rw [Generator.deref_child, hrootB]; rfl
                cases fuel with
                | zero => simp only [funcBody]; intro h; cases h
                | succ k =>
                  simp only [funcBody]
                  cases k with
                  | zero => simp only [genExpr]; intro h; cases h
                  | succ k =>
                    simp only [genExpr, hrootB]
                    rcases genExpr_of_ident k gB b _ binds typeMap a la hdLB hla with h | h
                    · rw [h]; intro h'; cases h'
                    · rw [h]
                      simp only
                      rcases genExpr_of_ident k gB b _ binds typeMap c lc hdRB hlc with h2 | h2
                      · rw [h2]; intro h'; cases h'
                      · rw [h2]
                        simp only [hdLB, hdRB, getType, ha, hc, hkB]
                        simp only [lowersOp, Bool.or_eq_true, beq_iff_eq] at hop
                        rcases hop with ((hop | hop) | hop) | hop
                        · subst hop; simp [Ty.Int]
                        · subst hop; simp [Ty.Int]
                        · subst hop; simp [Ty.Int]
                        · subst hop; simp [Ty.Int]
      | nil => simp [Expr.isIdent] at hr
      | Int l0 => simp [Expr.isIdent] at hr
      | BinaryExpr l0 r0 op0 => simp [Expr.isIdent] at hr
      | FuncCall m args => simp [Expr.isIdent] at hr
      | ofArg a0 => simp [Expr.isIdent] at hr
    | nil => simp [Expr.isIdent] at hl
    | Int l0 => simp [Expr.isIdent] at hl
    | BinaryExpr l0 r0 op0 => simp [Expr.isIdent] at hl
    | FuncCall m args => simp [Expr.isIdent] at hl
    | ofArg a0 => simp [Expr.isIdent] at hl
  | FuncCall n args =>
    rw [hE] at hrootg
    simp only [inferReturnType, hrootg] at hinf
    cases hcal : g.bindMap.lookup n with
    | none => rw [hcal] at hinf; cases hinf
    | some callee =>
      rw [hcal] at hinf
      simp only at hinf
      cases hM : mustGetImpl kI (g.store bind [] (Expr.FuncCall n (args.map (substArg binds))))
          callee (args.map (substArg binds)) with
      | diverge => rw [hM] at hinf; cases hinf
      | panic e1 g1 => rw [hM] at hinf; cases hinf
      | ok f0 g2 =>
        rw [hM] at hinf
        simp only at hinf
        cases hk0 : genKeyByArg n (g2.exprList (Ref.body bind [])) with
        | none => rw [hk0] at hinf; cases hinf
        | some key0 =>
          rw [hk0] at hinf
          simp only at hinf
          cases ht0 : g2.typeOfBind key0 with
          | none => rw [ht0] at hinf; cases hinf
          | some t0 =>
            rw [ht0] at hinf
            injection hinf with _ hg2
            subst hg2
            -- the call node as it is after inference
            have hMf := (run_frame kI).1 (g.store bind [] (Expr.FuncCall n
              (args.map (substArg binds)))) callee (args.map (substArg binds))
            rw [hM] at hMf
            have hstore : (g.store bind [] (Expr.FuncCall n (args.map (substArg binds)))).heap.get?
                bind = some { bnd with Expr := Expr.FuncCall n (args.map (substArg binds)) } := by
              simp only [Generator.store, updateAt_get?, hb, Option.map, Expr.set]
            obtain ⟨bI2, hbI2, _, _, hskel2⟩ := hMf.2.2.2.2.2.2.2 bind _ hstore
            rw [hbI] at hbI2
            injection hbI2 with hbI2
            subst hbI2
            obtain ⟨A, hA, hAlen⟩ := Expr.skel_call _ n _ hskel2
            rw [hA] at hrootB
            have hex : g2.exprList (Ref.body bind []) = A := by
              simp only [Generator.exprList, Generator.deref, hbI, Expr.get, hA]
            rw [hex] at hk0
            obtain ⟨tsA, htsA, _⟩ := genKeyByArg_some _ _ _ hk0
            have hAint : ∀ a ∈ A, a.Expr.isInt = true := by
              intro a ha
              apply Expr.isInt_of_typed
              · have hpl := hgI.2 bind bI hbI
                rw [hA] at hpl
                simp only [Expr.plain, List.all_eq_true] at hpl
                exact hpl a ha
              · exact typed_of_typesOf A tsA htsA a ha
            -- the key of the call is cached
            obtain ⟨bc0, key1, hbc0, hkey1, hcache⟩ := mustGetImpl_ok_lookup kI _ g2 callee _ f0 hM
            obtain ⟨bc, hbc, hbcn, _, _⟩ := hMf.2.2.2.2.2.2.2 callee bc0 hbc0
            have hkeyB : genKeyByArg bc.Name A = some key1 := by
              obtain ⟨ts1, hts1, hk1⟩ := genKeyByArg_some _ _ _ hkey1
              simp only [genKeyByArg, genKey, htsA, Option.some.injEq]
              rw [hk1, hbcn, typesOf_int _ _ htsA, typesOf_int _ _ hts1]
              congr 1
              apply map_const_of_length
              simp [hAlen]
            have hcalB : gB.bindMap.lookup n = some callee := by
              rw [hBb, hgrown.1]; exact hcal
            cases fuel with
            | zero => simp only [funcBody]; intro h; cases h
            | succ k =>
              simp only [funcBody]
              cases k with
              | zero => simp only [genExpr]; intro h; cases h
              | succ k =>
                simp only [genExpr, hrootB, hcalB]
                cases k with
                | zero => simp only [mustGetImpl]; intro h; cases h
                | succ k =>
                  rw [mustGetImpl_cached k gB callee A bc key1 f0 (by rw [hBh]; exact hbc) hkeyB
                    (by rw [hBi]; exact hcache)]
                  simp only
                  have hexB : gB.exprList (Ref.body bind []) = A := by
                    simp only [Generator.exprList, hrootB]
                  rcases genArgs_of_literals gB b (Ref.body bind []) n A binds typeMap hrootB hAint
                    A.length (k + 1) 0 [] (by omega) with h | ⟨vs1, h⟩
                  · rw [hexB, h]; intro h'; cases h'
                  · rw [hexB, h]; intro h'; cases h'
  | nil => rw [hE] at hflat; simp [Expr.flat] at hflat
  | Int l0 => rw [hE] at hflat; simp [Expr.flat] at hflat
  | ofArg a0 => rw [hE] at hflat; simp [Expr.flat] at hflat

/-! ## Lemmas: a request succeeds only on a body that can be inferred and lowered -/

theorem Expr.skel_kind (e e1 : Expr) (h : e1.skel = e.skel) :
    e1.isIdent = e.isIdent ∧ e1.isNode = e.isNode := by
  cases e <;> cases e1 <;> simp [Expr.skel, Expr.isIdent, Expr.isNode] at h ⊢

theorem getType_node (e : Expr) (typeMap : Map Ty) (t? : Option Ty)
    (hnode : e.isNode = true) (h : getType e typeMap = Except.ok t?) : False := by
  cases e <;> simp [Expr.isNode] at hnode <;> simp [getType, TypeOf] at h

theorem inferReturnType_ok_shape (fuel : Nat) (g g1 : Generator) (bind : Nat)
    (path : List Step) (binds : Map Expr) (typeMap : Map Ty) (t : Ty)
    (h : inferReturnType fuel g bind path binds typeMap = Res.ok t g1) :
    (g.deref (Ref.body bind path)).isIdent = true ∨
      (g.deref (Ref.body bind path)).isNode = true := by
  cases fuel with
  | zero => simp only [inferReturnType] at h; cases h
  | succ fuel =>
    cases hd : g.deref (Ref.body bind path) with
    | Ident q => left; rfl
    | FuncCall n args => right; rfl
    | BinaryExpr l r op => right; rfl
    | nil => simp only [inferReturnType, hd] at h; cases h
    | Int l0 => simp only [inferReturnType, hd] at h; cases h
    | ofArg a => simp only [inferReturnType, hd] at h; cases h

theorem inferReturnType_binary_ok (fuel : Nat) (g g1 : Generator) (bind : Nat)
    (path : List Step) (binds : Map Expr) (typeMap : Map Ty) (t : Ty) (l r : Expr)
    (op : String) (hd : g.deref (Ref.body bind path) = Expr.BinaryExpr l r op)
    (h : inferReturnType (fuel + 1) g bind path binds typeMap = Res.ok t g1) :
    ∃ lt gL rt, inferReturnType fuel g bind (path ++ [Step.L]) binds typeMap = Res.ok lt gL ∧
      inferReturnType fuel gL bind (path ++ [Step.R]) binds typeMap = Res.ok rt g1 := by
  simp only [inferReturnType, hd] at h
  cases hL : inferReturnType fuel g bind (path ++ [Step.L]) binds typeMap with
  | diverge => rw [hL] at h; cases h
  | panic e gL => rw [hL] at h; cases h
  | ok lt gL =>
    rw [hL] at h
    simp only at h
    cases hR : inferReturnType fuel gL bind (path ++ [Step.R]) binds typeMap with
    | diverge => rw [hR] at h; cases h
    | panic e gR => rw [hR] at h; cases h
    | ok rt gR =>
      rw [hR] at h
      simp only at h
      split at h
      · cases h
      · injection h with _ hg
        subst hg
        exact ⟨lt, gL, rt, rfl, hR⟩

theorem genExpr_binary_ok (fuel : Nat) (g g1 : Generator) (b : BlockRef) (ref : Ref)
    (binds : Map Expr) (typeMap : Map Ty) (v : Value) (l r : Expr) (op : String)
    (hd : g.deref ref = Expr.BinaryExpr l r op)
    (h : genExpr (fuel + 1) g b ref binds typeMap = Res.ok v g1) :
    ∃ x gA y gC lt? rt?, genExpr fuel g b (ref.child Step.L) binds typeMap = Res.ok x gA ∧
      genExpr fuel gA b (ref.child Step.R) binds typeMap = Res.ok y gC ∧
      getType (gC.deref (ref.child Step.L)) typeMap = Except.ok lt? ∧
      getType (gC.deref (ref.child Step.R)) typeMap = Except.ok rt? ∧
      lowersOp op = true := by
  simp only [genExpr, hd] at h
  cases hL : genExpr fuel g b (ref.child Step.L) binds typeMap with
  | diverge => rw [hL] at h; cases h
  | panic e gA => rw [hL] at h; cases h
  | ok x gA =>
    rw [hL] at h
    simp only at h
    cases hR : genExpr fuel gA b (ref.child Step.R) binds typeMap with
    | diverge => rw [hR] at h; cases h
    | panic e gC => rw [hR] at h; cases h
    | ok y gC =>
      rw [hR] at h
      simp only at h
      cases hlt : getType (gC.deref (ref.child Step.L)) typeMap with
      | error e => rw [hlt] at h; cases h
      | ok lt? =>
        rw [hlt] at h
        simp only at h
        cases hrt : getType (gC.deref (ref.child Step.R)) typeMap with
        | error e => rw [hrt] at h; cases h
        | ok rt? =>
          rw [hrt] at h
          simp only at h
          refine ⟨x, gA, y, gC, lt?, rt?, rfl, hR, hlt, hrt, ?_⟩
          cases lt? with
          | none => cases h
          | some lt =>
            cases rt? with
            | none => cases h
            | some rt =>
              simp only at h
              split at h
              · simp only [lowersOp, Bool.or_eq_true, beq_iff_eq]
                by_cases h1 : op = "+"
                · exact Or.inl (Or.inl (Or.inl h1))
                · by_cases h2 : op = "-"
                  · exact Or.inl (Or.inl (Or.inr h2))
                  · by_cases h3 : op = "*"
                    · exact Or.inl (Or.inr h3)
                    · by_cases h4 : op = "/"
                      · exact Or.inr h4
                      · rw [if_neg h1, if_neg h2, if_neg h3, if_neg h4] at h
                        cases h
              · cases h

/-- Lowering a binary expression returns only when the operator is one of the four and
neither operand is a call or a binary expression. -/
theorem funcBody_binary_ok (fuel : Nat) (gB gI g5 : Generator) (b : BlockRef) (bind : Nat)
    (bI : Binding) (binds : Map Expr) (typeMap : Map Ty) (lI rI : Expr) (op : String)
    (h : funcBody fuel gB b (Ref.body bind []) binds typeMap = Res.ok () g5)
    (hBh : gB.heap = gI.heap)
    (hbI0 : gI.heap.get? bind = some bI) (hbIe : bI.Expr = Expr.BinaryExpr lI rI op) :
    lowersOp op = true ∧ lI.isNode = false ∧ rI.isNode = false := by
  have hbI : gB.heap.get? bind = some bI := by rw [hBh]; exact hbI0
  obtain ⟨k, v, g5', _, hgen, _⟩ := funcBody_ok _ _ _ _ _ _ _ h
  cases k with
  | zero => simp only [genExpr] at hgen; cases hgen
  | succ k =>
    have hrootB : gB.deref (Ref.body bind []) = Expr.BinaryExpr lI rI op := by
      simp only [Generator.deref, hbI, hbIe, Expr.get]
    obtain ⟨x, gA, y, gC, lt?, rt?, hgL, hgR, hgtL, hgtR, hop⟩ :=
      genExpr_binary_ok k gB g5' b _ binds typeMap v lI rI op hrootB hgen
    have hAf := (run_frame k).2.2.2.1 gB b ((Ref.body bind []).child Step.L) binds typeMap
    have hCf := (run_frame k).2.2.2.1 gA b ((Ref.body bind []).child Step.R) binds typeMap
    rw [hgL] at hAf
    rw [hgR] at hCf
    obtain ⟨bA, hbA, _, _, hsA⟩ := hAf.2.2.2.2.2.2.2 bind bI hbI
    obtain ⟨bC, hbC, _, _, hsC⟩ := hCf.2.2.2.2.2.2.2 bind bA hbA
    rw [hbIe] at hsA
    obtain ⟨lA, rA, hbAe, hlA, hrA⟩ := Expr.skel_binary _ lI rI op hsA
    rw [hbAe] at hsC
    obtain ⟨lC, rC, hbCe, hlC, hrC⟩ := Expr.skel_binary _ lA rA op hsC
    have hdL : gC.deref ((Ref.body bind []).child Step.L) = lC := by
      simp only [Ref.child, Generator.deref, hbC, hbCe, List.nil_append, Expr.get, Expr.child]
    have hdR : gC.deref ((Ref.body bind []).child Step.R) = rC := by
      simp only [Ref.child, Generator.deref, hbC, hbCe, List.nil_append, Expr.get, Expr.child]
    rw [hdL] at hgtL
    rw [hdR] at hgtR
    refine ⟨hop, ?_, ?_⟩
    · cases hn : lI.isNode with
      | false => rfl
      | true =>
        exfalso
        have h1 := (Expr.skel_kind _ _ hlA).2
        have h2 := (Expr.skel_kind _ _ hlC).2
        exact getType_node lC typeMap lt? (by rw [h2, h1, hn]) hgtL
    · cases hn : rI.isNode with
      | false => rfl
      | true =>
        exfalso
        have h1 := (Expr.skel_kind _ _ hrA).2
        have h2 := (Expr.skel_kind _ _ hrC).2
        exact getType_node rC typeMap rt? (by rw [h2, h1, hn]) hgtR

/-- A body that has been inferred and lowered is an identifier, a call, or one of the four
arithmetic operators applied to two identifiers. -/
theorem flat_of_lowered (k : Nat) (g gI gB g5 : Generator) (b : BlockRef) (bind : Nat)
    (bnd : Binding) (binds : Map Expr) (typeMap : Map Ty) (inferT : Ty) (u : Unit)
    (hb : g.heap.get? bind = some bnd)
    (heq : inferReturnType k g bind [] binds typeMap = Res.ok inferT gI)
    (heq5 : funcBody k gB b (Ref.body bind []) binds typeMap = Res.ok u g5)
    (hBh : gB.heap = gI.heap) : bnd.Expr.flat = true := by
  have hrootg : g.deref (Ref.body bind []) = bnd.Expr := by
    simp only [Generator.deref, hb, Expr.get]
  have hshape := inferReturnType_ok_shape k g gI bind [] binds typeMap inferT heq
  rw [hrootg] at hshape
  cases hE : bnd.Expr with
  | Ident q => rfl
  | FuncCall n args => rfl
  | nil => rw [hE] at hshape; simp [Expr.isIdent, Expr.isNode] at hshape
  | Int l0 => rw [hE] at hshape; simp [Expr.isIdent, Expr.isNode] at hshape
  | ofArg a => rw [hE] at hshape; simp [Expr.isIdent, Expr.isNode] at hshape
  | BinaryExpr l r op =>
    rw [hE] at hrootg
    cases k with
    | zero => simp only [inferReturnType] at heq; cases heq
    | succ k =>
    obtain ⟨lt, gL, rt, hL, hR⟩ := inferReturnType_binary_ok k g gI bind [] binds
      typeMap inferT l r op hrootg heq
    have hLshape := inferReturnType_ok_shape k g gL bind _ binds typeMap lt hL
    have hRshape := inferReturnType_ok_shape k gL gI bind _ binds typeMap rt hR
    have hLf := (run_frame k).2.1 g bind ([] ++ [Step.L]) binds typeMap
    have hRf := (run_frame k).2.1 gL bind ([] ++ [Step.R]) binds typeMap
    rw [hL] at hLf
    rw [hR] at hRf
    obtain ⟨bL, hbL, _, _, hsL⟩ := hLf.2.2.2.2.2.2.2 bind bnd hb
    obtain ⟨bI, hbI, _, _, hsI⟩ := hRf.2.2.2.2.2.2.2 bind bL hbL
    rw [hE] at hsL
    obtain ⟨lL, rL, hbLe, hlL, hrL⟩ := Expr.skel_binary _ l r op hsL
    rw [hbLe] at hsI
    obtain ⟨lI, rI, hbIe, hlI, hrI⟩ := Expr.skel_binary _ lL rL op hsI
    have hdl : g.deref (Ref.body bind ([] ++ [Step.L])) = l := by
      simp only [Generator.deref, hb, hE, List.nil_append, Expr.get, Expr.child]
    have hdr : gL.deref (Ref.body bind ([] ++ [Step.R])) = rL := by
      simp only [Generator.deref, hbL, hbLe, List.nil_append, Expr.get, Expr.child]
    rw [hdl] at hLshape
    rw [hdr] at hRshape
    obtain ⟨hop, hnl, hnr⟩ := funcBody_binary_ok _ gB gI g5 b bind bI binds typeMap
      lI rI op heq5 hBh hbI hbIe
    have hl1 := Expr.skel_kind _ _ hlL
    have hl2 := Expr.skel_kind _ _ hlI
    have hr1 := Expr.skel_kind _ _ hrL
    have hr2 := Expr.skel_kind _ _ hrI
    have hlid : l.isIdent = true := by
      rcases hLshape with h | h
      · exact h
      · rw [hl2.2, hl1.2, h] at hnl; cases hnl
    have hrid : r.isIdent = true := by
      rcases hRshape with h | h
      · rw [← hr1.1]; exact h
      · rw [hr2.2, h] at hnr; cases hnr
    simp [Expr.flat, hlid, hrid, hop]

/-! ## Lemmas: what requests leave in the module of a tidy table -/

theorem bindArgs_literal (ps : List String) (ts : List Ty) (as : List Arg)
    (binds : Map Expr) (params : List Param) (r : Map Expr × List Param)
    (h : bindArgs ps ts as binds params = Except.ok r)
    (hb : literalBinds binds) (ha : ∀ a ∈ as, a.Expr.isInt = true) : literalBinds r.1 := by
  induction as generalizing ps ts binds params with
  | nil =>
    simp only [bindArgs] at h
    injection h with h
    subst h
    exact hb
  | cons a as ih =>
    cases ps with
    | nil => simp [bindArgs] at h
    | cons p ps =>
      cases ts with
      | nil => simp [bindArgs] at h
      | cons t ts =>
        simp only [bindArgs] at h
        by_cases hbad : p ≠ (if a.Ident = "" then p else a.Ident)
        · rw [if_pos hbad] at h
          simp at h
        · rw [if_neg hbad] at h
          refine ih ps ts _ _ h ?_ (fun a' ha' => ha a' (List.mem_cons_of_mem _ ha'))
          intro k e hke
          rcases Map.lookup_insert_cases _ _ _ _ _ hke with rfl | hke
          · exact ha a (List.mem_cons_self _ _)
          · exact hb k e hke

theorem bindTypes_lookup (ps : List String) (ts : List Ty) (typeMap r : Map Ty)
    (h : bindTypes ps ts typeMap = Except.ok r) :
    ∀ q t, r.lookup q = some t → typeMap.lookup q = some t ∨ (t ∈ ts ∧ q ∈ ps) := by
  induction ts generalizing ps typeMap with
  | nil =>
    simp only [bindTypes] at h
    injection h with h
    subst h
    intro q t hq
    exact Or.inl hq
  | cons t0 ts ih =>
    cases ps with
    | nil => simp [bindTypes] at h
    | cons p ps =>
      simp only [bindTypes] at h
      intro q t hq
      rcases ih ps _ h q t hq with h1 | ⟨h1, h2⟩
      · by_cases hqp : q = p
        · subst hqp
          rw [Map.lookup_insert_self] at h1
          injection h1 with h1
          subst h1
          exact Or.inr ⟨List.mem_cons_self _ _, List.mem_cons_self _ _⟩
        · rw [Map.lookup_insert_ne _ _ _ _ hqp] at h1
          exact Or.inl h1
      · exact Or.inr ⟨List.mem_cons_of_mem _ h1, List.mem_cons_of_mem _ h2⟩

theorem Generator.deref_plain (g : Generator) (ref : Ref) (hg : g.tidy)
    (href : ∀ e, ref = Ref.val e → e.plain = true) : (g.deref ref).plain = true := by
  cases ref with
  | body bind path =>
    simp only [Generator.deref]
    cases hb : g.heap.get? bind with
    | none => rfl
    | some bnd => exact Expr.plain_get _ path (hg.2 bind bnd hb)
  | val e => exact href e rfl

theorem Ref.val_child_plain (ref : Ref) (s : Step)
    (href : ∀ e, ref = Ref.val e → e.plain = true) :
    ∀ e, ref.child s = Ref.val e → e.plain = true := by
  intro e he
  cases ref with
  | body bind path => simp [Ref.child] at he
  | val e0 =>
    simp only [Ref.child, Ref.val.injEq] at he
    subst he
    exact Expr.plain_child e0 s (href e0 rfl)

theorem flat_refl (g : Generator) (hg : g.tidy) : g.tidy ∧ leftovers g g :=
  ⟨hg, leftovers_of_length g g (Nat.le_refl _)⟩

theorem flat_then (g g1 g2 : Generator) (f : FuncRef) (h1 : g1.tidy ∧ leftovers g g1)
    (h2 : g2.tidy ∧ leftovers g1 g2) (hgrown : g2.grownFromAt g1 f) :
    g2.tidy ∧ leftovers g g2 :=
  ⟨h2.1, leftovers_trans g g1 g2 f h1.2 h2.2 hgrown⟩

theorem flat_emit (g g2 : Generator) (b : BlockRef) (i : Inst)
    (h : g2.tidy ∧ leftovers g g2) :
    (g2.emit b i).2.tidy ∧ leftovers g (g2.emit b i).2 :=
  flat_then g g2 _ b.func h
    ⟨Generator.tidy_of_same _ g2 h.1 rfl rfl,
      leftovers_of_length g2 _ (by rw [Generator.emit_length])⟩
    (Generator.grownFromAt_emit g2 b i)

theorem inferReturnType_flat_step (fuel : Nat) (ihM : MustGetImplFlat fuel)
    (ihI : InferFlat fuel) : InferFlat (fuel + 1) := by
  intro g bind path binds typeMap hg hb
  simp only [inferReturnType]
  split
  · next FuncName ExprList hnode =>
    split
    · exact flat_refl g hg
    · next callee hcallee =>
      have hs := Generator.tidy_store g bind path FuncName ExprList binds hg hb hnode
      have hsF := Generator.grownFrom_store g bind path FuncName ExprList binds hnode
      have hs0 : (g.store bind path (Expr.FuncCall FuncName (ExprList.map (substArg binds)))).tidy
          ∧ leftovers g
            (g.store bind path (Expr.FuncCall FuncName (ExprList.map (substArg binds)))) :=
        ⟨hs, leftovers_of_length _ _ (Nat.le_refl _)⟩
      have hargs : ∀ a ∈ ExprList.map (substArg binds), a.Expr.plainArg = true := by
        have hpl := Generator.deref_plain g (Ref.body bind path) hg (by intro e he; cases he)
        rw [hnode] at hpl
        simp only [Expr.plain, List.all_eq_true] at hpl
        intro a1 ha1
        obtain ⟨a, ha, rfl⟩ := List.mem_map.mp ha1
        exact substArg_plainArg binds a hb (hpl a ha)
      have hentry : ∀ bc,
          (g.store bind path (Expr.FuncCall FuncName (ExprList.map (substArg binds)))).heap.get?
            callee = some bc →
          (g.store bind path (Expr.FuncCall FuncName (ExprList.map (substArg binds)))).bindMap.lookup
            bc.Name = some callee := by
        intro bc hbc
        have := hs.1 FuncName callee bc hcallee hbc
        rw [this]
        exact hcallee
      have hM := ihM _ callee (ExprList.map (substArg binds)) hs hentry hargs
      have hMf := (run_frame fuel).1
        (g.store bind path (Expr.FuncCall FuncName (ExprList.map (substArg binds)))) callee
        (ExprList.map (substArg binds))
      split
      · trivial
      · next e g2 heq =>
        rw [heq] at hM hMf
        exact flat_then g _ g2 0 hs0 hM (Generator.grownFrom_at _ _ _ hMf)
      · next f g2 heq =>
        rw [heq] at hM hMf
        have hres := flat_then g _ g2 0 hs0 hM (Generator.grownFrom_at _ _ _ hMf)
        split
        · exact hres
        · split
          · exact hres
          · exact hres
  · next l r op hnode =>
    have hL := ihI g bind (path ++ [Step.L]) binds typeMap hg hb
    have hLf := (run_frame fuel).2.1 g bind (path ++ [Step.L]) binds typeMap
    split
    · trivial
    · next e g1 heq => rw [heq] at hL; exact hL
    · next lt g1 heq =>
      rw [heq] at hL hLf
      have hR := ihI g1 bind (path ++ [Step.R]) binds typeMap hL.1 hb
      have hRf := (run_frame fuel).2.1 g1 bind (path ++ [Step.R]) binds typeMap
      split
      · trivial
      · next e g2 heq2 =>
        rw [heq2] at hR hRf
        exact flat_then g g1 g2 0 hL hR (Generator.grownFrom_at _ _ _ hRf)
      · next rt g2 heq2 =>
        rw [heq2] at hR hRf
        have hres := flat_then g g1 g2 0 hL hR (Generator.grownFrom_at _ _ _ hRf)
        split
        · exact hres
        · exact hres
  · split
    · exact flat_refl g hg
    · exact flat_refl g hg
  · exact flat_refl g hg

theorem genExpr_flat_step (fuel : Nat) (ihM : MustGetImplFlat fuel)
    (ihG : GenExprFlat fuel) (ihA : GenArgsFlat fuel) : GenExprFlat (fuel + 1) := by
  intro g b ref binds typeMap hg hb href hbf
  simp only [genExpr]
  split
  · next FuncName ExprList hnode =>
    split
    · exact flat_refl g hg
    · next bind hbind =>
      have hargs : ∀ a ∈ ExprList, a.Expr.plainArg = true := by
        have hpl := Generator.deref_plain g ref hg href
        rw [hnode] at hpl
        simp only [Expr.plain, List.all_eq_true] at hpl
        exact hpl
      have hentry : ∀ bc, g.heap.get? bind = some bc → g.bindMap.lookup bc.Name = some bind := by
        intro bc hbc
        have := hg.1 FuncName bind bc hbind hbc
        rw [this]
        exact hbind
      have hM := ihM g bind ExprList hg hentry hargs
      have hMf := (run_frame fuel).1 g bind ExprList
      split
      · trivial
      · next e g1 heq => rw [heq] at hM; exact hM
      · next f g1 heq =>
        rw [heq] at hM hMf
        have hA := ihA g1 b ref 0 (g1.exprList ref).length binds typeMap [] hM.1 hb href
          (Nat.lt_of_lt_of_le hbf hMf.2.2.1)
        have hAf := (run_frame fuel).2.2.2.2 g1 b ref 0 (g1.exprList ref).length binds typeMap []
        split
        · trivial
        · next e g2 heq2 =>
          rw [heq2] at hA hAf
          exact flat_then g g1 g2 _ hM hA hAf
        · next valueList g2 heq2 =>
          rw [heq2] at hA hAf
          exact flat_emit g g2 b _ (flat_then g g1 g2 _ hM hA hAf)
  · next l r op hnode =>
    have hL := ihG g b (ref.child Step.L) binds typeMap hg hb (Ref.val_child_plain ref _ href)
      hbf
    have hLf := (run_frame fuel).2.2.2.1 g b (ref.child Step.L) binds typeMap
    split
    · trivial
    · next e g1 heq => rw [heq] at hL; exact hL
    · next x g1 heq =>
      rw [heq] at hL hLf
      have hR := ihG g1 b (ref.child Step.R) binds typeMap hL.1 hb (Ref.val_child_plain ref _ href)
        (Nat.lt_of_lt_of_le hbf hLf.2.2.1)
      have hRf := (run_frame fuel).2.2.2.1 g1 b (ref.child Step.R) binds typeMap
      split
      · trivial
      · next e g2 heq2 =>
        rw [heq2] at hR hRf
        exact flat_then g g1 g2 _ hL hR hRf
      · next y g2 heq2 =>
        rw [heq2] at hR hRf
        have hres := flat_then g g1 g2 _ hL hR hRf
        have hemit : ∀ i, (g2.emit b i).2.tidy ∧ leftovers g (g2.emit b i).2 :=
          fun i => flat_emit g g2 b i hres
        split
        · exact hres
        · split
          · exact hres
          · split
            · split
              · split
                · exact hemit _
                · split
                  · exact hemit _
                  · split
                    · exact hemit _
                    · split
                      · exact hemit _
                      · exact hres
              · exact hres
            · exact hres
  · next q hnode =>
    refine ihG g b _ binds typeMap hg hb ?_ hbf
    intro e he
    simp only [Ref.val.injEq] at he
    subst he
    cases hq : binds.lookup q with
    | none => rfl
    | some v =>
      obtain ⟨lit, rfl⟩ := Expr.eq_int_of_isInt v (hb q v hq)
      rfl
  · exact flat_refl g hg
  · exact flat_refl g hg

theorem genArgs_flat_step (fuel : Nat) (ihG : GenExprFlat fuel) (ihA : GenArgsFlat fuel) :
    GenArgsFlat (fuel + 1) := by
  intro g b ref i n binds typeMap valueList hg hb href hbf
  cases n with
  | zero =>
    simp only [genArgs]
    exact flat_refl g hg
  | succ n =>
    simp only [genArgs]
    have hG := ihG g b (ref.child (Step.arg i)) binds typeMap hg hb (Ref.val_child_plain ref _ href)
      hbf
    have hGf := (run_frame fuel).2.2.2.1 g b (ref.child (Step.arg i)) binds typeMap
    split
    · trivial
    · next e g1 heq => rw [heq] at hG; exact hG
    · next v g1 heq =>
      rw [heq] at hG hGf
      have hA := ihA g1 b ref (i + 1) n binds typeMap (valueList ++ [v]) hG.1 hb href
        (Nat.lt_of_lt_of_le hbf hGf.2.2.1)
      have hAf := (run_frame fuel).2.2.2.2 g1 b ref (i + 1) n binds typeMap (valueList ++ [v])
      generalize genArgs fuel g1 b ref (i + 1) n binds typeMap (valueList ++ [v]) = res at hA hAf
      cases res with
      | diverge => trivial
      | panic e g2 => exact flat_then g g1 g2 _ hG hA hAf
      | ok vs g2 => exact flat_then g g1 g2 _ hG hA hAf

theorem funcBody_flat_step (fuel : Nat) (ihG : GenExprFlat fuel) : FuncBodyFlat (fuel + 1) := by
  intro g b ref binds typeMap hg hb href hbf
  simp only [funcBody]
  have hG := ihG g b ref binds typeMap hg hb href hbf
  split
  · trivial
  · next e g1 heq => rw [heq] at hG; exact hG
  · next v g1 heq =>
    rw [heq] at hG
    exact ⟨Generator.tidy_of_same _ g1 hG.1 rfl rfl, leftovers_NewRet g g1 b v hbf hG.2⟩

theorem mustGetImpl_flat_step (fuel : Nat) (ihI : InferFlat fuel) (ihF : FuncBodyFlat fuel) :
    MustGetImplFlat (fuel + 1) := by
  intro g bind argList hg hentry hargs
  simp only [mustGetImpl]
  split
  · exact flat_refl g hg
  · next bnd hb =>
    split
    · exact flat_refl g hg
    · next key hk =>
      split
      · exact flat_refl g hg
      · next hc =>
        split
        · exact flat_refl g hg
        · next hlen0 =>
          split
          · exact flat_refl g hg
          · next typeList hts =>
            split
            · exact flat_refl g hg
            · next binds params hba =>
              split
              · exact flat_refl g hg
              · next typeMap hbt =>
                have hlen : argList.length = bnd.ParamList.length := by
                  by_contra hne; exact hlen0 hne
                have htl : typeList.length = argList.length := by
                  simpa using typesOf_length _ _ hts
                have hints : ∀ a ∈ argList, a.Expr.isInt = true := by
                  intro a ha
                  exact Expr.isInt_of_typed _ (hargs a ha) (typed_of_typesOf argList _ hts a ha)
                have hbinds : literalBinds binds :=
                  bindArgs_literal _ _ _ [] [] _ hba (by intro k e h; simp [Map.lookup] at h) hints
                have htm : ∀ q t, typeMap.lookup q = some t →
                    t = Ty.Int ∧ ∃ e, binds.lookup q = some e := by
                  intro q t hq
                  rcases bindTypes_lookup _ _ [] typeMap hbt q t hq with h0 | ⟨ht, hq'⟩
                  · simp [Map.lookup] at h0
                  · refine ⟨?_, ?_⟩
                    · rw [typesOf_int _ _ hts] at ht
                      simp only [List.mem_map] at ht
                      obtain ⟨_, _, rfl⟩ := ht
                      rfl
                    · have := bindArgs_present bnd.ParamList typeList argList [] [] _ hba hlen q
                        (Or.inl hq')
                      exact Option.isSome_iff_exists.mp this
                have hkeyT : key = genKeyByTypes bnd.Name typeList := by
                  simp only [genKeyByArg, genKey, hts, Option.some.injEq] at hk
                  exact hk.symm
                have hparams : params.map Param.typ = typeList.map Ty.llvm := by
                  simpa using bindArgs_params _ _ _ _ _ _ hba htl
                have hI := ihI g bind [] binds typeMap hg hbinds
                have hIf := (run_frame fuel).2.1 g bind [] binds typeMap
                split
                · trivial
                · next e g1 heq => rw [heq] at hI; exact hI
                · next inferT g1 heq =>
                  rw [heq] at hI hIf
                  let g2 : Generator := { g1 with typMap := g1.typeOfBinding.insert key inferT }
                  let fg := g2.NewFunc bnd.Name inferT.llvm params
                  let bg := fg.2.NewBlock fg.1
                  let fnew : Func := { name := bnd.Name, retType := inferT.llvm, Params := params,
                                       Blocks := [⟨[], none⟩] }
                  have hd := Generator.declare_mod g2 bnd.Name inferT.llvm params
                  have hmodB : bg.2.mod = g1.mod ++ [fnew] := hd.2.2.1
                  have hbg1 : bg.1 = ⟨g1.mod.length, 0⟩ := hd.2.1
                  have hsk : sigKey fnew.sig = key := by
                    rw [hkeyT, ← sigKey_request bnd.Name argList typeList hts]
                    simp only [fnew, Func.sig, hparams]
                  have hB1 : bg.2.grownFrom g1 :=
                    Generator.grownFrom_declare g1 bg.2 fnew key inferT rfl rfl hmodB rfl rfl hsk
                  have hBtidy : bg.2.tidy := Generator.tidy_of_same bg.2 g1 hI.1 rfl rfl
                  have hfB : bg.2.mod.get? g1.mod.length = some fnew := by
                    rw [hmodB]
                    simp
                  have hlenB : bg.2.mod.length = g1.mod.length + 1 := by
                    rw [hmodB]
                    simp
                  have hF := ihF bg.2 bg.1 (Ref.body bind []) binds typeMap hBtidy hbinds
                    (by intro e he; cases he)
                    (by rw [hbg1, hlenB]; exact Nat.lt_succ_self _)
                  have hFf := (run_frame fuel).2.2.1 bg.2 bg.1 (Ref.body bind []) binds typeMap
                  have hnopanic := funcBody_of_flat fuel fuel g g1 bg.2 bind bnd binds typeMap
                    inferT bg.1 hb
                  have hBt : ∀ k, (g1.typMap.lookup k).isSome = true →
                      (bg.2.typMap.lookup k).isSome = true := hB1.2.2.2.2.1
                  simp only [bg, fg, g2] at hF hFf hbg1 hB1 hBtidy hfB hlenB hnopanic hBt
                  split
                  · trivial
                  · next e g5 heq5 =>
                    rw [heq5] at hF hFf
                    rw [hbg1] at hFf
                    have hgrown5 : g5.grownFromAt g1 g1.mod.length :=
                      Generator.grownFromAt_trans _ _ _ _ hFf (Generator.grownFrom_at _ _ _ hB1)
                    have hgrown : g5.grownFromAt g g1.mod.length :=
                      Generator.grownFromAt_trans _ _ _ _ hgrown5 (Generator.grownFrom_at _ _ _ hIf)
                    have hown : g5.doomed bnd.Name := by
                      intro i b1 hn hb1
                      rw [hgrown.1, hentry bnd hb] at hn
                      injection hn with hn
                      subst hn
                      obtain ⟨b1', hb1', _, _, hs⟩ := hgrown.2.2.2.2.2.2.2 _ bnd hb
                      rw [hb1] at hb1'
                      injection hb1' with hb1'
                      subst hb1'
                      cases hfl : b1.Expr.flat with
                      | false => rfl
                      | true =>
                        exfalso
                        rw [Expr.flat_of_skel _ _ hs] at hfl
                        exact hnopanic hfl hbinds htm heq hI.1 rfl rfl rfl hBt e g5 heq5
                    have h15 : leftovers g1 g5 := by
                      intro i fn hi hfn
                      by_cases hi1 : i = g1.mod.length
                      · subst hi1
                        obtain ⟨fn', hfn', hs', ht', _⟩ := hFf.2.2.2.1 _ fnew hfB
                        rw [hfn] at hfn'
                        injection hfn' with hfn'
                        subst hfn'
                        have hname : fn.name = bnd.Name := congrArg Prod.fst hs'
                        have hunf : fn.finished = false := by
                          rw [Func.finished_congr _ _ ht']
                          rfl
                        rw [hname, hunf]
                        exact ⟨fun _ => hown, fun h => by cases h⟩
                      · exact hF.2 i fn (by rw [hlenB]; omega) hfn
                    exact ⟨hF.1, leftovers_trans g g1 g5 _ hI.2 h15 hgrown5⟩
                  · next u g5 heq5 =>
                    rw [heq5] at hF hFf
                    obtain ⟨v, g5', hg5, hFf⟩ := hFf
                    rw [hbg1] at hFf hg5
                    obtain ⟨fn5, hfn5, hs5, ht5, _⟩ := hFf.2.2.2.1 _ fnew hfB
                    obtain ⟨blk5, hblk5⟩ := blocks_of_terms _ ht5
                    have hnew := Generator.NewRet_block g5' g1.mod.length v fn5 blk5 hfn5 hblk5
                    rw [← hg5] at hnew
                    have hgrown6 := Generator.grownFrom_finish g5' _ g1 ⟨g1.mod.length, 0⟩ v key
                      hFf hB1 (Nat.le_refl _)
                    rw [← hg5] at hgrown6
                    have hflat : bnd.Expr.flat = true :=
                      flat_of_lowered fuel g g1 _ g5 _ bind bnd binds typeMap inferT u hb heq
                        heq5 rfl
                    have hown : g5.blessed bnd.Name := by
                      intro i b1 hn hb1
                      have hgrown := Generator.grownFrom_trans _ _ _ hgrown6 hIf
                      have hn' : g.bindMap.lookup bnd.Name = some i := by
                        rw [← hgrown.1]; exact hn
                      rw [hentry bnd hb] at hn'
                      injection hn' with hn'
                      subst hn'
                      obtain ⟨b1', hb1', _, _, hs⟩ := hgrown.2.2.2.2.2.2.2 _ bnd hb
                      have hb1x : g5.heap.get? bind = some b1' := hb1'
                      rw [hb1] at hb1x
                      injection hb1x with hb1x
                      subst hb1x
                      rw [Expr.flat_of_skel _ _ hs]
                      exact hflat
                    have hfin : leftovers g1 g5 := by
                      intro i fn hi hfn
                      by_cases hi1 : i = g1.mod.length
                      · subst hi1
                        rw [hnew] at hfn
                        injection hfn with hfn
                        have hname : fn.name = bnd.Name := by
                          rw [← hfn]
                          exact congrArg Prod.fst hs5
                        have hf : fn.finished = true := by
                          rw [← hfn]
                          rfl
                        rw [hname, hf]
                        exact ⟨fun h => (by cases h), fun _ => hown⟩
                      · exact hF.2 i fn (by rw [hlenB]; omega) hfn
                    refine ⟨Generator.tidy_of_same _ g5 hF.1 rfl rfl, ?_⟩
                    apply leftovers_trans g g1 _ 0 hI.2 _ (Generator.grownFrom_at _ _ _ hgrown6)
                    intro i fn hi hfn
                    have h0 := hfin i fn hi hfn
                    exact ⟨fun hu => Generator.doomed_of_same _ g5 _ rfl rfl (h0.1 hu),
                      fun hu => Generator.blessed_of_same _ g5 _ rfl rfl (h0.2 hu)⟩

theorem run_flat (fuel : Nat) :
    MustGetImplFlat fuel ∧ InferFlat fuel ∧ FuncBodyFlat fuel ∧ GenExprFlat fuel ∧
      GenArgsFlat fuel := by
  induction fuel with
  | zero =>
    refine ⟨?_, ?_, ?_, ?_, ?_⟩
    · intro g bind argList _ _ _; simp only [mustGetImpl]; trivial
    · intro g bind path binds typeMap _ _; simp only [inferReturnType]; trivial
    · intro g b r binds typeMap _ _ _ _; simp only [funcBody]; trivial
    · intro g b r binds typeMap _ _ _ _; simp only [genExpr]; trivial
    · intro g b r i n binds typeMap vs _ _ _ _; simp only [genArgs]; trivial
  | succ fuel ih =>
    obtain ⟨ihM, ihI, ihF, ihG, ihA⟩ := ih
    exact ⟨mustGetImpl_flat_step fuel ihI ihF, inferReturnType_flat_step fuel ihM ihI,
      funcBody_flat_step fuel ihG, genExpr_flat_step fuel ihM ihG ihA,
      genArgs_flat_step fuel ihG ihA⟩

/-! ## Lemmas: states reached by requests with integer literals -/

theorem Expr.plainArg_of_isInt (e : Expr) (h : e.isInt = true) : e.plainArg = true := by
  cases e <;> simp [Expr.isInt, Expr.plainArg] at h ⊢

theorem New_tidy (heap : List Binding) (bindMap : Map Nat)
    (hwf : ∀ n i b, bindMap.lookup n = some i → heap.get? i = some b → b.Name = n)
    (hpl : ∀ b ∈ heap, b.Expr.plain = true) : (New heap bindMap).tidy :=
  ⟨hwf, fun _ b hb => hpl b (List.get?_mem hb)⟩

theorem mustGetImpl_sorted (fuel : Nat) (g g1 : Generator) (bind : Nat) (argList : List Arg)
    (bnd : Binding) (hg : g.tidy) (hs : g.sorted) (hb : g.heap.get? bind = some bnd)
    (hentry : g.bindMap.lookup bnd.Name = some bind)
    (hargs : ∀ a ∈ argList, a.Expr.isInt = true)
    (h : (mustGetImpl fuel g bind argList).state? = some g1) : g1.tidy ∧ g1.sorted := by
  have hM := (run_flat fuel).1 g bind argList hg
    (by
      intro bnd1 hb1
      rw [hb] at hb1
      injection hb1 with hb1
      subst hb1
      exact hentry)
    (fun a ha => Expr.plainArg_of_isInt _ (hargs a ha))
  have hF := (run_frame fuel).1 g bind argList
  have key : ∀ g2, g2.tidy ∧ leftovers g g2 → g2.grownFrom g → g2.tidy ∧ g2.sorted := by
    intro g2 h2 hgrown
    refine ⟨h2.1, ?_⟩
    intro i fn hfn
    by_cases hlt : i < g.mod.length
    · have h0 := hgrown.2.2.2.1 i _ (List.get?_eq_get hlt)
      rw [hfn] at h0
      injection h0 with h0
      have hs0 := hs i _ (List.get?_eq_get hlt)
      rw [← h0] at hs0
      exact ⟨fun hu => Generator.doomed_grown g2 g 0 _ (Generator.grownFrom_at _ _ _ hgrown)
          (hs0.1 hu),
        fun hu => Generator.blessed_grown g2 g 0 _ (Generator.grownFrom_at _ _ _ hgrown)
          (hs0.2 hu)⟩
    · exact h2.2 i fn (by omega) hfn
  cases hres : mustGetImpl fuel g bind argList with
  | diverge => rw [hres] at h; cases h
  | panic e g2 =>
    rw [hres] at h hM hF
    injection h with h
    subst h
    exact key _ hM hF
  | ok f g2 =>
    rw [hres] at h hM hF
    injection h with h
    subst h
    exact key _ hM hF

theorem ReachesLiteral_sorted (rank : String → Nat) (g g1 : Generator) (hg : g.tidy)
    (hs : g.sorted) (h : ReachesLiteral rank g g1) : g1.tidy ∧ g1.sorted := by
  induction h with
  | refl => exact ⟨hg, hs⟩
  | call g1 g2 fuel bind argList bnd _ hb _ hentry hargs hstep ih =>
    exact mustGetImpl_sorted fuel g1 g2 bind argList bnd ih.1 ih.2 hb hentry hargs hstep

theorem New_sorted (heap : List Binding) (bindMap : Map Nat) : (New heap bindMap).sorted := by
  intro i fn hfn
  simp [New] at hfn

/-! ## Lemmas: a request for a binding that calls itself does not return -/

theorem Expr.callsInto_skel (names : List String) :
    ∀ e : Expr, e.skel.callsInto names = e.callsInto names
  | Expr.BinaryExpr l r op => by
    simp only [Expr.skel, Expr.callsInto, Expr.callsInto_skel names l,
      Expr.callsInto_skel names r]
  | Expr.FuncCall m args => by simp only [Expr.skel, Expr.callsInto]
  | Expr.nil => by simp only [Expr.skel]
  | Expr.Int _ => by simp only [Expr.skel]
  | Expr.Ident _ => by simp only [Expr.skel]
  | Expr.ofArg _ => by simp only [Expr.skel, Expr.callsInto]

theorem Expr.skel_child (e : Expr) (s : Step) (hs : s = Step.L ∨ s = Step.R) :
    (e.child s).skel = e.skel.child s := by
  rcases hs with rfl | rfl <;> cases e <;> simp [Expr.child, Expr.skel]

theorem Expr.skel_get (p : List Step) :
    ∀ (e : Expr), (∀ s ∈ p, s = Step.L ∨ s = Step.R) → (e.get p).skel = e.skel.get p := by
  induction p with
  | nil => intro e _; rfl
  | cons s p ih =>
    intro e hp
    simp only [Expr.get]
    rw [ih (e.child s) (fun t ht => hp t (List.mem_cons_of_mem _ ht)),
      Expr.skel_child e s (hp s (List.mem_cons_self _ _))]

theorem Generator.snared_same (g1 g : Generator) (names : List String) (hg : g.snared names)
    (hh : g1.heap = g.heap) (hb : g1.bindMap = g.bindMap)
    (hc : ∀ m ∈ names, ∀ l : List LLVMType, g1.implsOfBinding.lookup (sigKey (m, l)) = none) :
    g1.snared names := by
  refine ⟨?_, ?_, ?_, hc⟩
  · rw [hh, hb]; exact hg.1
  · rw [hh]; exact hg.2.1
  · rw [hh, hb]; exact hg.2.2.1

theorem Generator.snared_mod (g1 g : Generator) (names : List String) (hg : g.snared names)
    (hh : g1.heap = g.heap) (hb : g1.bindMap = g.bindMap)
    (hc : g1.implsOfBinding = g.implsOfBinding) : g1.snared names :=
  Generator.snared_same g1 g names hg hh hb (by rw [hc]; exact hg.2.2.2)

theorem Generator.name_back (g1 g : Generator)
    (hn : g1.heap.map Binding.Name = g.heap.map Binding.Name) (hbd : g1.bodiesFrom g)
    (i : Nat) (b1 : Binding) (hb1 : g1.heap.get? i = some b1) :
    ∃ b, g.heap.get? i = some b ∧ b.Name = b1.Name := by
  have hlen : g1.heap.length = g.heap.length := by
    have := congrArg List.length hn
    simpa using this
  have hi : i < g.heap.length := by
    rw [← hlen]
    exact (List.get?_eq_some.mp hb1).1
  obtain ⟨b1x, hb1x, hname, _, _⟩ := hbd i _ (List.get?_eq_get hi)
  rw [hb1] at hb1x
  injection hb1x with hb1x
  subst hb1x
  exact ⟨_, List.get?_eq_get hi, hname.symm⟩

theorem Generator.snared_grown (g1 g : Generator) (names : List String) (hg : g.snared names)
    (hb : g1.bindMap = g.bindMap)
    (hn : g1.heap.map Binding.Name = g.heap.map Binding.Name) (hbd : g1.bodiesFrom g)
    (hc : ∀ m ∈ names, ∀ l : List LLVMType, g1.implsOfBinding.lookup (sigKey (m, l)) = none) :
    g1.snared names := by
  refine ⟨?_, ?_, ?_, hc⟩
  · intro n i b1 hl hb1
    obtain ⟨b, hbi, hname⟩ := Generator.name_back g1 g hn hbd i b1 hb1
    rw [hb] at hl
    rw [← hname]
    exact hg.1 n i b hl hbi
  · intro i b1 hb1
    obtain ⟨b, hbi, hname⟩ := Generator.name_back g1 g hn hbd i b1 hb1
    rw [← hname]
    exact hg.2.1 i b hbi
  · intro m hm
    obtain ⟨i, b, hl, hbi, hcall⟩ := hg.2.2.1 m hm
    obtain ⟨b1, hb1, _, _, hs⟩ := hbd i b hbi
    refine ⟨i, b1, by rw [hb]; exact hl, hb1, ?_⟩
    rw [← Expr.callsInto_skel, hs, Expr.callsInto_skel]
    exact hcall

theorem Generator.snared_name (g : Generator) (names : List String) (hg : g.snared names)
    (m : String) (hm : m ∈ names) : '(' ∉ m.data := by
  obtain ⟨i, b, hl, hbi, _⟩ := hg.2.2.1 m hm
  have := hg.2.1 i b hbi
  rw [hg.1 m i b hl hbi] at this
  exact this

theorem Generator.snared_entry (g : Generator) (names : List String) (hg : g.snared names)
    (bind : Nat) (bnd : Binding) (hb : g.heap.get? bind = some bnd)
    (ht : g.bindMap.lookup bnd.Name = some bind) (hm : bnd.Name ∈ names) :
    bnd.Expr.callsInto names = true := by
  obtain ⟨i, b, hl, hbi, hcall⟩ := hg.2.2.1 _ hm
  rw [ht] at hl
  injection hl with hl
  subst hl
  rw [hb] at hbi
  injection hbi with hbi
  subst hbi
  exact hcall

theorem Generator.deref_callsInto_grown (g1 g : Generator) (names : List String) (bind : Nat)
    (p : List Step) (hp : ∀ s ∈ p, s = Step.L ∨ s = Step.R)
    (hn : g1.heap.map Binding.Name = g.heap.map Binding.Name) (hbd : g1.bodiesFrom g) :
    (g1.deref (Ref.body bind p)).callsInto names =
      (g.deref (Ref.body bind p)).callsInto names := by
  simp only [Generator.deref]
  cases hb : g.heap.get? bind with
  | none =>
    cases hb1 : g1.heap.get? bind with
    | none => rfl
    | some b1 =>
      obtain ⟨b, hbi, _⟩ := Generator.name_back g1 g hn hbd bind b1 hb1
      rw [hb] at hbi
      cases hbi
  | some b =>
    obtain ⟨b1, hb1, _, _, hs⟩ := hbd bind b hb
    rw [hb1]
    show (b1.Expr.get p).callsInto names = (b.Expr.get p).callsInto names
    rw [← Expr.callsInto_skel names (b1.Expr.get p), Expr.skel_get p _ hp, hs,
      ← Expr.skel_get p _ hp, Expr.callsInto_skel]

theorem binary_path_append (path : List Step) (s : Step)
    (hp : ∀ t ∈ path, t = Step.L ∨ t = Step.R) (hs : s = Step.L ∨ s = Step.R) :
    ∀ t ∈ path ++ [s], t = Step.L ∨ t = Step.R := by
  intro t ht
  rcases List.mem_append.mp ht with h | h
  · exact hp t h
  · rw [List.mem_singleton.mp h]; exact hs

theorem inferReturnType_snared_step (names : List String) (fuel : Nat)
    (ihM : MustGetImplSnared names fuel) (ihI : InferSnared names fuel) :
    InferSnared names (fuel + 1) := by
  intro g bind path binds typeMap hg
  simp only [inferReturnType]
  split
  · next FuncName ExprList hnode =>
    split
    · exact hg
    · next callee hcallee =>
      have hs := Generator.grownFrom_store g bind path FuncName ExprList binds hnode
      have hg1 : (g.store bind path
          (Expr.FuncCall FuncName (ExprList.map (substArg binds)))).snared names :=
        Generator.snared_grown _ g names hg hs.1 hs.2.1 hs.2.2.2.2.2.2.2 hg.2.2.2
      have htab : ∀ bnd, (g.store bind path
            (Expr.FuncCall FuncName (ExprList.map (substArg binds)))).heap.get? callee =
              some bnd →
          (g.store bind path
            (Expr.FuncCall FuncName (ExprList.map (substArg binds)))).bindMap.lookup bnd.Name =
              some callee := by
        intro bnd hb
        rw [hg1.1 FuncName callee bnd hcallee hb]
        exact hcallee
      have hM := ihM _ callee (ExprList.map (substArg binds)) hg1 htab
      split
      · trivial
      · next e g2 heq => rw [heq] at hM; exact hM
      · next f g2 heq =>
        rw [heq] at hM
        have hQ : (Expr.FuncCall FuncName ExprList).callsInto names = false := by
          cases hc : (Expr.FuncCall FuncName ExprList).callsInto names with
          | false => rfl
          | true =>
            exfalso
            simp only [Expr.callsInto] at hc
            have hmem : FuncName ∈ names := by simpa using hc
            obtain ⟨i, b, hl, hbi, _⟩ := hg1.2.2.1 FuncName hmem
            have hi : i = callee := by
              have := hl.symm.trans hcallee
              injection this
            subst hi
            have hname := hg1.1 FuncName i b hl hbi
            exact hM.2 b hbi (by rw [hname]; exact hmem)
        split
        · exact hM.1
        · split
          · exact ⟨hM.1, fun _ => by rw [hnode]; exact hQ⟩
          · exact hM.1
  · next l r op hnode =>
    have hL := ihI g bind (path ++ [Step.L]) binds typeMap hg
    have hfr := (run_frame fuel).2.1 g bind (path ++ [Step.L]) binds typeMap
    split
    · trivial
    · next e g1 heq => rw [heq] at hL; exact hL
    · next lt g1 heq =>
      rw [heq] at hL hfr
      have hR := ihI g1 bind (path ++ [Step.R]) binds typeMap hL.1
      split
      · trivial
      · next e g2 heq2 => rw [heq2] at hR; exact hR
      · next rt g2 heq2 =>
        rw [heq2] at hR
        have hQ : (∀ s ∈ path, s = Step.L ∨ s = Step.R) →
            (Expr.BinaryExpr l r op).callsInto names = false := by
          intro hp
          have hl := hL.2 (binary_path_append path Step.L hp (Or.inl rfl))
          have hr := hR.2 (binary_path_append path Step.R hp (Or.inr rfl))
          rw [Generator.deref_callsInto_grown g1 g names bind _
            (binary_path_append path Step.R hp (Or.inr rfl)) hfr.2.1 hfr.2.2.2.2.2.2.2] at hr
          have hcl := Generator.deref_child g (Ref.body bind path) Step.L
          have hcr := Generator.deref_child g (Ref.body bind path) Step.R
          simp only [Ref.child, hnode, Expr.child] at hcl hcr
          rw [hcl] at hl
          rw [hcr] at hr
          simp only [Expr.callsInto, hl, hr, Bool.or_self]
        split
        · exact hR.1
        · exact ⟨hR.1, fun hp => by rw [hnode]; exact hQ hp⟩
  · next lit hnode =>
    split
    · exact hg
    · exact ⟨hg, fun _ => by rw [hnode]; rfl⟩
  · exact hg

theorem genExpr_snared_step (names : List String) (fuel : Nat)
    (ihM : MustGetImplSnared names fuel) (ihG : GenExprSnared names fuel)
    (ihA : GenArgsSnared names fuel) : GenExprSnared names (fuel + 1) := by
  intro g b r binds typeMap hg
  simp only [genExpr]
  split
  · next FuncName ExprList hnode =>
    split
    · exact hg
    · next bind hbind =>
      have htab : ∀ bnd, g.heap.get? bind = some bnd →
          g.bindMap.lookup bnd.Name = some bind := by
        intro bnd hb
        rw [hg.1 FuncName bind bnd hbind hb]
        exact hbind
      have hM := ihM g bind ExprList hg htab
      split
      · trivial
      · next e g1 heq => rw [heq] at hM; exact hM
      · next f g1 heq =>
        rw [heq] at hM
        have hA := ihA g1 b r 0 (g1.exprList r).length binds typeMap [] hM.1
        split
        · trivial
        · next e g2 heq2 => rw [heq2] at hA; exact hA
        · next valueList g2 heq2 =>
          rw [heq2] at hA
          exact Generator.snared_mod _ g2 names hA rfl rfl rfl
  · next l r' op hnode =>
    have hL := ihG g b (r.child Step.L) binds typeMap hg
    split
    · trivial
    · next e g1 heq => rw [heq] at hL; exact hL
    · next x g1 heq =>
      rw [heq] at hL
      have hR := ihG g1 b (r.child Step.R) binds typeMap hL
      split
      · trivial
      · next e g2 heq2 => rw [heq2] at hR; exact hR
      · next y g2 heq2 =>
        rw [heq2] at hR
        have hemit : ∀ i, (g2.emit b i).2.snared names := fun i =>
          Generator.snared_mod _ g2 names hR rfl rfl rfl
        split
        · exact hR
        · split
          · exact hR
          · split
            · split
              · split
                · exact hemit _
                · split
                  · exact hemit _
                  · split
                    · exact hemit _
                    · split
                      · exact hemit _
                      · exact hR
              · exact hR
            · exact hR
  · exact ihG g b _ binds typeMap hg
  · exact hg
  · exact hg

theorem genArgs_snared_step (names : List String) (fuel : Nat)
    (ihG : GenExprSnared names fuel) (ihA : GenArgsSnared names fuel) :
    GenArgsSnared names (fuel + 1) := by
  intro g b r i n binds typeMap valueList hg
  cases n with
  | zero =>
    simp only [genArgs]
    exact hg
  | succ n =>
    simp only [genArgs]
    have hG := ihG g b (r.child (Step.arg i)) binds typeMap hg
    split
    · trivial
    · next e g1 heq => rw [heq] at hG; exact hG
    · next v g1 heq =>
      rw [heq] at hG
      exact ihA g1 b r (i + 1) n binds typeMap (valueList ++ [v]) hG

theorem funcBody_snared_step (names : List String) (fuel : Nat)
    (ihG : GenExprSnared names fuel) : FuncBodySnared names (fuel + 1) := by
  intro g b r binds typeMap hg
  simp only [funcBody]
  have hG := ihG g b r binds typeMap hg
  split
  · trivial
  · next e g1 heq => rw [heq] at hG; exact hG
  · next v g1 heq =>
    rw [heq] at hG
    exact Generator.snared_mod _ g1 names hG rfl rfl rfl

theorem mustGetImpl_snared_step (names : List String) (fuel : Nat)
    (ihI : InferSnared names fuel) (ihF : FuncBodySnared names fuel) :
    MustGetImplSnared names (fuel + 1) := by
  intro g bind argList hg htab
  simp only [mustGetImpl]
  split
  · exact hg
  · next bnd hb =>
    split
    · exact hg
    · next key hk =>
      obtain ⟨ts, hts, hkey⟩ := genKeyByArg_some _ _ _ hk
      have hsig : key = sigKey (bnd.Name, ts.map Ty.llvm) := by
        rw [hkey, sigKey_request bnd.Name argList ts hts]
      split
      · next impl hc =>
        refine ⟨hg, ?_⟩
        intro bnd1 hb1 hmem
        rw [hb] at hb1
        injection hb1 with hb1
        subst hb1
        rw [hsig, hg.2.2.2 _ hmem] at hc
        cases hc
      · split
        · exact hg
        · split
          · exact hg
          · next typeList htl =>
            split
            · exact hg
            · next binds params hba =>
              split
              · exact hg
              · next typeMap hbt =>
                have hI := ihI g bind [] binds typeMap hg
                split
                · trivial
                · next e g1 heq => rw [heq] at hI; exact hI
                · next inferT g1 heq =>
                  rw [heq] at hI
                  have hbody : (g.deref (Ref.body bind [])).callsInto names = false :=
                    hI.2 (fun s hs => by cases hs)
                  simp only [Generator.deref, hb, Expr.get] at hbody
                  have hnot : bnd.Name ∉ names := by
                    intro hmem
                    rw [Generator.snared_entry g names hg bind bnd hb (htab bnd hb) hmem]
                      at hbody
                    cases hbody
                  let g2 : Generator := { g1 with typMap := g1.typeOfBinding.insert key inferT }
                  let fg := g2.NewFunc bnd.Name inferT.llvm params
                  let bg := fg.2.NewBlock fg.1
                  have hF := ihF bg.2 bg.1 (Ref.body bind []) binds typeMap
                    (Generator.snared_mod _ g1 names hI.1 rfl rfl rfl)
                  simp only [bg, fg, g2] at hF
                  split
                  · trivial
                  · next e g5 heq5 => rw [heq5] at hF; exact hF
                  · next u g5 heq5 =>
                    rw [heq5] at hF
                    refine ⟨Generator.snared_same _ g5 names hF rfl rfl ?_, ?_⟩
                    · intro m hm l
                      have hne : sigKey (m, l) ≠ key := by
                        intro heq
                        rw [hsig] at heq
                        have := sigKey_injective _ _ _ _
                          (Generator.snared_name g names hg m hm) (hg.2.1 bind bnd hb) heq
                        injection this with h1 _
                        exact hnot (h1 ▸ hm)
                      show (g5.implsOfBinding.insert key _).lookup (sigKey (m, l)) = none
                      rw [Map.lookup_insert_ne _ _ _ _ hne]
                      exact hF.2.2.2 m hm l
                    · intro bnd1 hb1
                      rw [hb] at hb1
                      injection hb1 with hb1
                      subst hb1
                      exact hnot

theorem run_snared (names : List String) (fuel : Nat) :
    MustGetImplSnared names fuel ∧ InferSnared names fuel ∧ FuncBodySnared names fuel ∧
      GenExprSnared names fuel ∧ GenArgsSnared names fuel := by
  induction fuel with
  | zero =>
    refine ⟨?_, ?_, ?_, ?_, ?_⟩
    · intro g bind argList _ _; simp only [mustGetImpl]; trivial
    · intro g bind path binds typeMap _; simp only [inferReturnType]; trivial
    · intro g b r binds typeMap _; simp only [funcBody]; trivial
    · intro g b r binds typeMap _; simp only [genExpr]; trivial
    · intro g b r i n binds typeMap vs _; simp only [genArgs]; trivial
  | succ fuel ih =>
    obtain ⟨ihM, ihI, ihF, ihG, ihA⟩ := ih
    exact ⟨mustGetImpl_snared_step names fuel ihI ihF,
      inferReturnType_snared_step names fuel ihM ihI,
      funcBody_snared_step names fuel ihG, genExpr_snared_step names fuel ihM ihG ihA,
      genArgs_snared_step names fuel ihG ihA⟩

/-- A request for a listed binding does not return. -/
theorem mustGetImpl_snared (names : List String) (fuel : Nat) (g : Generator) (n : String)
    (bp : Nat) (argList : List Arg) (hg : g.snared names) (hm : n ∈ names)
    (hn : g.bindMap.lookup n = some bp) (f : FuncRef) (g1 : Generator) :
    mustGetImpl fuel g bp argList ≠ Res.ok f g1 := by
  intro heq
  obtain ⟨i, b, hl, hbi, _⟩ := hg.2.2.1 n hm
  rw [hn] at hl
  injection hl with hl
  subst hl
  have hname := hg.1 n bp b hn hbi
  have h := (run_snared names fuel).1 g bp argList hg (by
    intro bnd hb
    rw [hbi] at hb
    injection hb with hb
    subst hb
    rw [hname]
    exact hn)
  rw [heq] at h
  exact h.2 b hbi (by rw [hname]; exact hm)

/-! ## C11: how often a key is generated -/

theorem testRank_table : rankedTable testRank bindings bindMap := by
  apply rankedTable_intro
  · intro p hp bnd hb
    simp only [bindMap, List.mem_cons, List.mem_singleton, List.not_mem_nil, or_false] at hp
    rcases hp with rfl | rfl
    · simp only [bindings, List.get?_cons_zero, Option.some.injEq] at hb
      subst hb; rfl
    · simp only [bindings, List.get?_cons_succ, List.get?_cons_zero, Option.some.injEq] at hb
      subst hb; rfl
  · intro bnd hbnd
    simp only [bindings, List.mem_cons, List.mem_singleton, List.not_mem_nil, or_false] at hbnd
    rcases hbnd with rfl | rfl
    · refine ⟨by decide, fun _ => ?_⟩
      refine Expr.Ranked.call _ _ (by decide) (by decide) ?_
      intro a ha
      simp only [List.mem_cons, List.mem_singleton, List.not_mem_nil, or_false] at ha
      rcases ha with rfl | rfl
      · exact Expr.Ranked.int _
      · exact Expr.Ranked.ident _
    · exact ⟨by decide, fun _ => Expr.Ranked.binary _ _ _ (Expr.Ranked.ident _)
        (Expr.Ranked.ident _)⟩

/-- C11 (amended): take a table that `rank` orders (well formed, the bindings of positive rank
never reach themselves through their calls) and a state reached from its fresh generator by
specialize requests for bindings of positive rank, each run to its return or to its panic.
Once a request has succeeded, every later request for the same key, made after any further
requests, returns a handle and leaves the whole state unchanged.  Of two declarations with
the same name and parameter types the earlier one is unfinished (it has no return: a request
that failed during lowering left it), so at most one declaration of a key is finished, and
when no declaration of the module is unfinished the module holds at most one declaration for
every name and list of parameter types.  And when the call arguments in the bodies of the
table are identifiers or integer literals and the requests are for entries of the table with
integer literals as arguments, the module holds two declarations for a key only if the body
of the binding is one on which no request can succeed (it is not an identifier, a call, or
one of the four arithmetic operators applied to two identifiers). -/
theorem C11_generated_once (rank : String → Nat) (heap : List Binding) (bindMap : Map Nat)
    (g : Generator) (htable : rankedTable rank heap bindMap)
    (hg : ReachesRanked rank (New heap bindMap) g) :
    (∀ fuel fuel2 bind bind2 argList argList2 bnd bnd2 f g1 g2,
      mustGetImpl fuel g bind argList = Res.ok f g1 → Reaches g1 g2 →
      g.heap.get? bind = some bnd → g2.heap.get? bind2 = some bnd2 →
      bnd2.Name = bnd.Name →
      typesOf (argList2.map Expr.ofArg) = typesOf (argList.map Expr.ofArg) →
      ∃ f2, mustGetImpl (fuel2 + 1) g2 bind2 argList2 = Res.ok f2 g2) ∧
    (∀ i j fi fj, i < j → g.mod.get? i = some fi → g.mod.get? j = some fj →
      fi.sig = fj.sig → fi.finished = false) ∧
    (∀ name ts, ((declsFor g.mod name ts).filter Func.finished).length ≤ 1) ∧
    ((∀ fn ∈ g.mod, fn.finished = true) →
      ∀ name ts, (declsFor g.mod name ts).length ≤ 1) ∧
    ((∀ b ∈ heap, b.Expr.plain = true) → ReachesLiteral rank (New heap bindMap) g →
      ∀ name ts, ¬ g.doomed name → (declsFor g.mod name ts).length ≤ 1) := by
  have hord := ReachesRanked_orderly rank _ g (New_orderly rank heap bindMap htable) hg
  have hreach : Reachable g := ⟨heap, bindMap, ReachesRanked_reaches rank _ g hg⟩
  have hfin : ∀ name ts, ((declsFor g.mod name ts).filter Func.finished).length ≤ 1 := by
    intro name ts
    simp only [declsFor, List.filter_filter]
    apply filter_le_one
    intro i j x y hij hx hy hpx hpy
    simp only [Bool.and_eq_true, decide_eq_true_eq] at hpx hpy
    have := hord.earlierUnfinished i j x y hij hx hy (by rw [hpx.2, hpy.2])
    rw [hpx.1] at this
    cases this
  refine ⟨?_, hord.earlierUnfinished, hfin, ?_, ?_⟩
  · intro fuel fuel2 bind bind2 argList argList2 bnd bnd2 f g1 g2 h h12 hb hb2 hname hty
    obtain ⟨bnd', key, hb', hk, hc⟩ := mustGetImpl_ok_lookup fuel g g1 bind argList f h
    rw [hb] at hb'
    injection hb' with hb'
    subst hb'
    have hr1 : Reachable g1 := Reachable_call g g1 fuel bind argList hreach (by rw [h]; rfl)
    have hafter := Reaches_after g1 g2 (Reachable_consistent g1 hr1) h12
    have hsome := hafter.2.2.2.2 key (by rw [hc]; rfl)
    cases hc2 : g2.implsOfBinding.lookup key with
    | none => rw [hc2] at hsome; cases hsome
    | some f2 =>
      have hk2 : genKeyByArg bnd2.Name argList2 = some key := by
        rw [← hk]
        simp only [genKeyByArg, genKey, hname, hty]
      exact ⟨f2, mustGetImpl_cached fuel2 g2 bind2 argList2 bnd2 key f2 hb2 hk2 hc2⟩
  · intro hall name ts
    have := hfin name ts
    rw [List.filter_eq_self.mpr] at this
    · exact this
    · intro fn hfn
      exact hall fn (List.mem_of_mem_filter hfn)
  · intro hplain hlit name ts hnd
    have hs := (ReachesLiteral_sorted rank _ g (New_tidy heap bindMap htable.1 hplain)
      (New_sorted heap bindMap) hlit).2
    simp only [declsFor]
    apply filter_le_one
    intro i j x y hij hx hy hpx hpy
    simp only [decide_eq_true_eq] at hpx hpy
    have hunf := hord.earlierUnfinished i j x y hij hx hy (by rw [hpx, hpy])
    have hxname : x.name = name := congrArg Prod.fst hpx
    exact hnd (by rw [← hxname]; exact (hs i x hx).1 hunf)

/-- C11 witness: `afterAddOne "2"` is reached from the generator of the test by
`Call(addOne, 2)`, whose inference specializes `add` on the way; afterwards `Call(add, 3, 4)`
returns a handle and leaves the state as it is, and the module holds at most one declaration
of `add` for two ints. -/
theorem C11_generated_once_witness :
    rankedTable testRank bindings bindMap ∧
    ReachesRanked testRank (New bindings bindMap) (afterAddOne "2") ∧
    (∃ f2, mustGetImpl 1 (afterAddOne "2") 1 [intArg "3", intArg "4"] =
      Res.ok f2 (afterAddOne "2")) ∧
    (declsFor (afterAddOne "2").mod "add" [Ty.Int, Ty.Int]).length ≤ 1 :=
  have hr : ReachesRanked testRank (New bindings bindMap) (afterAddOne "2") :=
    ReachesRanked.call _ _ 8 0 [intArg "2"] ReachesRanked.refl
      (by intro bnd hb
          simp only [New, bindings, List.get?_cons_zero, Option.some.injEq] at hb
          subst hb
          decide)
      (by rfl)
  ⟨testRank_table, hr,
    (C11_generated_once testRank bindings bindMap (afterAddOne "2") testRank_table hr).1
      1 0 1 1 [intArg "1", intArg "2"] [intArg "3", intArg "4"] addBinding addBinding 0
      (afterAddOne "2") (afterAddOne "2") (by rfl) Reaches.refl (by rfl) (by rfl) rfl (by rfl),
    (C11_generated_once testRank bindings bindMap (afterAddOne "2") testRank_table hr).2.2.2.1
      (by decide) "add" [Ty.Int, Ty.Int]⟩

/-- C11 counterexample: the table holds the user-defined operator `% x y = x + y` and
`rem x y = x % y`.  After `Call(%, 1, 2)`, `Call(rem, 1, 2)` passes inference (the type of
`%(int,int)` is registered), is declared, and panics during lowering because `%` has no
lowering rule; the same request, retried, panics again and appends a second declaration: the
module holds two declarations for the key `rem(int,int)`. -/
theorem C11_retry_declares_again :
    remStart.bindMap.lookup "%" = some 0 ∧ remStart.bindMap.lookup "rem" = some 1 ∧
    mustGetImpl 8 remStart 0 [intArg "1", intArg "2"] = Res.ok 0 remReady ∧
    mustGetImpl 8 remReady 1 [intArg "1", intArg "2"] =
      Res.panic (Err.unsupportedOperator "%") remFailed ∧
    mustGetImpl 8 remFailed 1 [intArg "1", intArg "2"] =
      Res.panic (Err.unsupportedOperator "%") remFailedTwice ∧
    (declsFor remFailedTwice.mod "rem" [Ty.Int, Ty.Int]).length = 2 :=
  ⟨by decide, by decide, by rfl, by rfl, by rfl, by decide⟩

/-! ## C1: memoization -/

/-- A request that panics after the body was inferred ends in a state whose type cache holds
its key and whose module holds, at the place where inference left the module, an unfinished
declaration with the name of the binding and the types of the arguments. -/
theorem mustGetImpl_panic_in_lowering (fuel : Nat) (g g1 gI : Generator) (bind : Nat)
    (argList : List Arg) (bnd : Binding) (key : String) (e : Err) (ts : List Ty)
    (binds : Map Expr) (params : List Param) (typeMap : Map Ty) (inferT : Ty)
    (hb : g.heap.get? bind = some bnd)
    (hk : genKeyByArg bnd.Name argList = some key)
    (hc : g.implsOfBinding.lookup key = none)
    (hres : mustGetImpl (fuel + 1) g bind argList = Res.panic e g1)
    (hlen : argList.length = bnd.ParamList.length)
    (hts : typesOf (argList.map Expr.ofArg) = some ts)
    (hba : bindArgs bnd.ParamList ts argList [] [] = Except.ok (binds, params))
    (hbt : bindTypes bnd.ParamList ts [] = Except.ok typeMap)
    (hinf : inferReturnType fuel g bind [] binds typeMap = Res.ok inferT gI) :
    (g1.typMap.lookup key).isSome = true ∧ g.mod.length ≤ gI.mod.length ∧
    ∃ fn, g1.mod.get? gI.mod.length = some fn ∧ fn.sig = (bnd.Name, ts.map Ty.llvm) ∧
      fn.finished = false := by
  have htl : ts.length = argList.length := by simpa using typesOf_length _ _ hts
  have hparams : params.map Param.typ = ts.map Ty.llvm := by
    simpa using bindArgs_params _ _ _ _ _ _ hba htl
  have hIf := (run_frame fuel).2.1 g bind [] binds typeMap
  rw [hinf] at hIf
  simp only [mustGetImpl, hb, hk, hc] at hres
  rw [if_neg (by simp [hlen])] at hres
  simp only [hts, hba, hbt, hinf] at hres
  let g2 : Generator := { gI with typMap := gI.typeOfBinding.insert key inferT }
  let fg := g2.NewFunc bnd.Name inferT.llvm params
  let bg := fg.2.NewBlock fg.1
  let fnew : Func := { name := bnd.Name, retType := inferT.llvm, Params := params,
                       Blocks := [⟨[], none⟩] }
  have hd := Generator.declare_mod g2 bnd.Name inferT.llvm params
  have hmodB : bg.2.mod = gI.mod ++ [fnew] := hd.2.2.1
  have hbg1 : bg.1 = ⟨gI.mod.length, 0⟩ := hd.2.1
  have hfB : bg.2.mod.get? gI.mod.length = some fnew := by
    rw [hmodB]
    simp
  have htB : (bg.2.typMap.lookup key).isSome = true := by
    show ((Map.insert gI.typMap key inferT).lookup key).isSome = true
    rw [Map.lookup_insert_self]
    rfl
  have hF := (run_frame fuel).2.2.1 bg.2 bg.1 (Ref.body bind []) binds typeMap
  simp only [bg, fg, g2] at hF hbg1 hfB htB
  split at hres
  · cases hres
  · next e' g5 heq5 =>
    injection hres with _ hg
    subst hg
    rw [heq5] at hF
    rw [hbg1] at hF
    obtain ⟨fn, hfn, hs, ht, _⟩ := hF.2.2.2.1 _ fnew hfB
    refine ⟨hF.2.2.2.2.1 key htB, hIf.2.2.1, fn, hfn, ?_, ?_⟩
    · rw [hs]
      simp only [fnew, Func.sig, hparams]
    · simp only [Func.finished, ht, fnew, List.map]
  · cases hres

/-- A request for a binding of positive rank, issued in an orderly state, whose body fails to
be inferred ends in a state without anything for its key: the implementation cache has no
entry for it, the type cache has an entry only if it had one before, and every declaration
with the name of the binding and the types of the arguments was there before. -/
theorem infer_panic_creates_nothing (rank : String → Nat) (fuel : Nat) (g g2 : Generator)
    (bind : Nat) (argList : List Arg) (bnd : Binding) (key : String) (e2 : Err) (ts : List Ty)
    (binds : Map Expr) (params : List Param) (typeMap : Map Ty)
    (hg : g.Orderly rank) (hb : g.heap.get? bind = some bnd) (hpos : 0 < rank bnd.Name)
    (hk : genKeyByArg bnd.Name argList = some key)
    (hc : g.implsOfBinding.lookup key = none)
    (hts : typesOf (argList.map Expr.ofArg) = some ts)
    (hba : bindArgs bnd.ParamList ts argList [] [] = Except.ok (binds, params))
    (hinf : inferReturnType fuel g bind [] binds typeMap = Res.panic e2 g2) :
    g2.implsOfBinding.lookup key = none ∧
    ((g2.typMap.lookup key).isSome = true → (g.typMap.lookup key).isSome = true) ∧
    (∀ i fn, g2.mod.get? i = some fn → fn.sig = (bnd.Name, ts.map Ty.llvm) →
      g.mod.get? i = some fn) := by
  have hkey : sigKey (bnd.Name, ts.map Ty.llvm) = key := by
    obtain ⟨ts1, hts1, hkey⟩ := genKeyByArg_some _ _ _ hk
    rw [hts] at hts1
    injection hts1 with hts1
    subst hts1
    rw [hkey]
    exact sigKey_request bnd.Name argList ts hts
  have hbcf : ∀ k e, binds.lookup k = some e → e.callFree = true :=
    bindArgs_callFree _ _ _ [] [] _ hba (by intro k e hke; simp [Map.lookup] at hke)
      (typesOf_callFree argList ts hts)
  have hO := (run_once rank fuel).2.1 g bind [] binds typeMap (rank bnd.Name) hg
    (by
      intro bnd1 hb1
      rw [hb] at hb1
      injection hb1 with hb1
      subst hb1
      exact ⟨hpos, rfl⟩) hbcf
  rw [hinf] at hO
  obtain ⟨hO2, hnew⟩ := hO
  have hF := (run_frame fuel).2.1 g bind [] binds typeMap
  rw [hinf] at hF
  have hname : '(' ∉ bnd.Name.data := hg.table.2.1 bind bnd hb
  have hold : ∀ i fn, g2.mod.get? i = some fn → sigKey fn.sig = key →
      g.mod.get? i = some fn := by
    intro i fn hfn hs
    have hsig := sigKey_injective fn.name bnd.Name (fn.Params.map Param.typ) (ts.map Ty.llvm)
      (hO2.declNames i fn hfn) hname (hs.trans hkey.symm)
    have hn : fn.name = bnd.Name := congrArg Prod.fst hsig
    by_cases hi : i < g.mod.length
    · obtain ⟨fn0, hfn0⟩ : ∃ fn0, g.mod.get? i = some fn0 :=
        ⟨g.mod.get ⟨i, hi⟩, List.get?_eq_get hi⟩
      have := hF.2.2.2.1 i fn0 hfn0
      rw [hfn] at this
      injection this with this
      rw [this]
      exact hfn0
    · have := hnew i fn (by omega) hfn
      rw [hn] at this
      exact absurd this (Nat.lt_irrefl _)
  refine ⟨?_, ?_, ?_⟩
  · cases hl : g2.implsOfBinding.lookup key with
    | none => rfl
    | some f =>
      exfalso
      obtain ⟨fn, hfn, hfin, hs⟩ := hO2.cachedFinished key f hl
      have h0 := hg.finishedCached f fn (hold f fn hfn hs) hfin
      rw [hs, hc] at h0
      cases h0
  · intro h
    rcases hF.2.2.2.2.2.2.1 key h with h0 | ⟨i, fn, hi, hfn, hs⟩
    · exact h0
    · have := (List.get?_eq_some.mp (hold i fn hfn hs)).1
      omega
  · intro i fn hfn hs
    exact hold i fn hfn (by rw [hs]; exact hkey)

/-- C5 (amended): a request (key not cached) that fails in its argument validation (arity,
argument name) or, for a body that makes no call, before lowering starts (unknown identifier,
unresolved operator during inference) retains nothing: the panic is raised in the state the
request started in, which has no entry for the key in the implementation cache.  For any body, a
panic raised while the body is inferred ends the request in the very state in which inference
stopped: the request itself has registered no type, declared no function and cached no
handle.  And for any body, a request that panics after its body was inferred, that is during
lowering, has registered its return type and appended its declaration: the type cache holds
the key and the module holds an unfinished declaration for it.  Last, when the bindings are
the entries of a Binding Table without call cycles and the state was reached from a fresh
generator by requests, a request whose body fails to be inferred, nested requests included,
leaves nothing for its key: no entry in the implementation cache, no entry in the type
cache that was not there before, no declaration for it that was not there before. -/
theorem C5_failure_before_lowering_retains_nothing (fuel : Nat) (g g1 : Generator) (bind : Nat)
    (argList : List Arg) (bnd : Binding) (key : String) (e : Err)
    (hb : g.heap.get? bind = some bnd)
    (hk : genKeyByArg bnd.Name argList = some key)
    (hc : g.implsOfBinding.lookup key = none)
    (hres : mustGetImpl (fuel + 1) g bind argList = Res.panic e g1) :
    ((argList.length ≠ bnd.ParamList.length ∨ labelMismatch bnd.ParamList argList ∨
        (bnd.Expr.callFree = true ∧ e.lowering = false)) →
      mustGetImpl (fuel + 1) g bind argList = Res.panic e g) ∧
    (∀ (ts : List Ty) (binds : Map Expr) (params : List Param) (typeMap : Map Ty)
        (e2 : Err) (g2 : Generator),
      argList.length = bnd.ParamList.length →
      typesOf (argList.map Expr.ofArg) = some ts →
      bindArgs bnd.ParamList ts argList [] [] = Except.ok (binds, params) →
      bindTypes bnd.ParamList ts [] = Except.ok typeMap →
      inferReturnType fuel g bind [] binds typeMap = Res.panic e2 g2 →
      e = e2 ∧ g1 = g2) ∧
    (∀ (ts : List Ty) (binds : Map Expr) (params : List Param) (typeMap : Map Ty)
        (inferT : Ty) (gI : Generator),
      argList.length = bnd.ParamList.length →
      typesOf (argList.map Expr.ofArg) = some ts →
      bindArgs bnd.ParamList ts argList [] [] = Except.ok (binds, params) →
      bindTypes bnd.ParamList ts [] = Except.ok typeMap →
      inferReturnType fuel g bind [] binds typeMap = Res.ok inferT gI →
      (g1.typMap.lookup key).isSome = true ∧ g.mod.length ≤ gI.mod.length ∧
      ∃ fn, g1.mod.get? gI.mod.length = some fn ∧ fn.sig = (bnd.Name, ts.map Ty.llvm) ∧
        fn.finished = false) ∧
    (∀ (rank : String → Nat) (heap : List Binding) (bindMap : Map Nat) (ts : List Ty)
        (binds : Map Expr) (params : List Param) (typeMap : Map Ty) (e2 : Err)
        (g2 : Generator),
      rankedTable rank heap bindMap → ReachesRanked rank (New heap bindMap) g →
      0 < rank bnd.Name →
      argList.length = bnd.ParamList.length →
      typesOf (argList.map Expr.ofArg) = some ts →
      bindArgs bnd.ParamList ts argList [] [] = Except.ok (binds, params) →
      bindTypes bnd.ParamList ts [] = Except.ok typeMap →
      inferReturnType fuel g bind [] binds typeMap = Res.panic e2 g2 →
      g1.implsOfBinding.lookup key = none ∧
      ((g1.typMap.lookup key).isSome = true → (g.typMap.lookup key).isSome = true) ∧
      (∀ i fn, g1.mod.get? i = some fn → fn.sig = (bnd.Name, ts.map Ty.llvm) →
        g.mod.get? i = some fn)) := by
  have harity : argList.length ≠ bnd.ParamList.length → g1 = g := by
    intro hlen
    simp only [mustGetImpl, hb, hk, hc] at hres
    rw [if_pos hlen] at hres
    injection hres with _ h2
    exact h2.symm
  refine ⟨?_, ?_, ?_, ?_⟩
  · intro hcase
    have hg : g1 = g := by
      rcases hcase with hlen | hm | ⟨hcf, hlow⟩
      · exact harity hlen
      · by_cases hlen : argList.length ≠ bnd.ParamList.length
        · exact harity hlen
        · have hlen' : argList.length = bnd.ParamList.length := by
            by_contra h; exact hlen h
          obtain ⟨ts, hts, _⟩ := genKeyByArg_some _ _ _ hk
          have htl : ts.length = argList.length := by simpa using typesOf_length _ _ hts
          simp only [mustGetImpl, hb, hk, hc] at hres
          rw [if_neg hlen] at hres
          simp only [hts, bindArgs_mismatch _ _ _ [] [] hlen' htl hm] at hres
          injection hres with _ h2
          exact h2.symm
      · rcases mustGetImpl_callFree fuel g bind argList bnd key hb hk hc hcf with
          h | ⟨f, g2, ts, h, _⟩ | ⟨h, _⟩ | ⟨h, _⟩ | ⟨e', h, _⟩ | ⟨e', g2, h, he⟩
        · rw [h] at hres; cases hres
        · rw [h] at hres; cases hres
        · rw [h] at hres; injection hres with _ h2; exact h2.symm
        · rw [h] at hres; injection hres with _ h2; exact h2.symm
        · rw [h] at hres; injection hres with _ h2; exact h2.symm
        · rw [h] at hres
          injection hres with h1 _
          subst h1
          rw [hlow] at he
          cases he
    rw [hres, hg]
  · intro ts binds params typeMap e2 g2 hlen hts hba hbt hinf
    simp only [mustGetImpl, hb, hk, hc] at hres
    rw [if_neg (by simp [hlen])] at hres
    simp only [hts, hba, hbt, hinf] at hres
    injection hres with h1 h2
    exact ⟨h1.symm, h2.symm⟩
  · intro ts binds params typeMap inferT gI hlen hts hba hbt hinf
    exact mustGetImpl_panic_in_lowering fuel g g1 gI bind argList bnd key e ts binds params
      typeMap inferT hb hk hc hres hlen hts hba hbt hinf
  · intro rank heap bindMap ts binds params typeMap e2 g2 htable hreach hpos hlen hts hba hbt
      hinf
    have hO := ReachesRanked_orderly rank _ g (New_orderly rank heap bindMap htable) hreach
    have h4 := infer_panic_creates_nothing rank fuel g g2 bind argList bnd key e2 ts binds
      params typeMap hO hb hpos hk hc hts hba hinf
    simp only [mustGetImpl, hb, hk, hc] at hres
    rw [if_neg (by simp [hlen])] at hres
    simp only [hts, hba, hbt, hinf] at hres
    injection hres with _ h2
    rw [← h2]
    exact h4

theorem zRank_table : rankedTable zRank zStart.heap zStart.bindMap := by
  apply rankedTable_intro
  · intro p hp bnd hb
    simp only [zStart, New, List.mem_cons, List.mem_singleton] at hp
    rcases hp with rfl | rfl | hp
    · simp [zStart, New] at hb; subst hb; rfl
    · simp [zStart, New] at hb; subst hb; rfl
    · simp at hp
  · intro bnd hb
    simp only [zStart, New, List.mem_cons, List.mem_singleton] at hb
    rcases hb with rfl | rfl | hb
    · exact ⟨by decide, fun _ => Expr.Ranked.ident _⟩
    · refine ⟨by decide, fun _ => Expr.Ranked.call _ _ (by decide) (by decide) ?_⟩
      intro a ha
      simp only [List.mem_singleton] at ha
      subst ha
      exact Expr.Ranked.ident _
    · simp at hb

/-- C5 witness: `useZ x = z` and `viaZ x = useZ(x)` on a fresh generator.  `Call(useZ, 1)`
panics with the unknown-identifier error and leaves the state it started in, with no entry
for `useZ(int)`.  `Call(viaZ, 1)` panics with the error of the nested request and leaves
nothing for `viaZ(int)`. -/
theorem C5_failure_before_lowering_retains_nothing_witness :
    zStart.implsOfBinding.lookup "useZ(int)" = none ∧
    mustGetImpl 2 zStart 0 [intArg "1"] = Res.panic (Err.unknownIdent "z") zStart ∧
    mustGetImpl 4 zStart 1 [intArg "1"] = Res.panic (Err.unknownIdent "z") zFailed ∧
    zFailed.implsOfBinding.lookup "viaZ(int)" = none ∧
    ((zFailed.typMap.lookup "viaZ(int)").isSome = true →
      (zStart.typMap.lookup "viaZ(int)").isSome = true) ∧
    (∀ i fn, zFailed.mod.get? i = some fn → fn.sig = ("viaZ", [LLVMType.I64]) →
      zStart.mod.get? i = some fn) :=
  ⟨by decide,
   (C5_failure_before_lowering_retains_nothing 1 zStart zStart 0 [intArg "1"] useZ
     "useZ(int)" (Err.unknownIdent "z") (by rfl) (by decide) (by decide) (by rfl)).1
     (Or.inr (Or.inr ⟨by rfl, by rfl⟩)),
   by rfl,
   (C5_failure_before_lowering_retains_nothing 3 zStart zFailed 1 [intArg "1"] viaZ
     "viaZ(int)" (Err.unknownIdent "z") (by rfl) (by decide) (by decide) (by rfl)).2.2.2
     zRank zStart.heap zStart.bindMap [Ty.Int] [("x", NewInt "1")] [⟨"", LLVMType.I64⟩]
     [("x", Ty.Int)] (Err.unknownIdent "z") zFailed zRank_table ReachesRanked.refl
     (by decide) (by rfl) (by rfl) (by rfl) (by rfl) (by rfl)⟩

/-- C5 counterexample: the table holds the user-defined operator `% x y = x + y` and
`rem x y = x % y`; `remReady` is the state after `Call(%, 1, 2)`.  `Call(rem, 1, 2)` then
passes inference, because the type of `%(int,int)` is registered, and panics during lowering
with the unresolved-operator error in its lowering form (`unsupported operator`), because `%`
has no lowering rule.  After the failure the type cache holds an entry for the key
`rem(int,int)`, which it did not hold before, and the module holds a declaration created for
it, without instructions and without return. -/
theorem C5_failed_request_keeps_type_and_declaration :
    mustGetImpl 8 remStart 0 [intArg "1", intArg "2"] = Res.ok 0 remReady ∧
    genKeyByArg remBinding.Name [intArg "1", intArg "2"] = some "rem(int,int)" ∧
    mustGetImpl 8 remReady 1 [intArg "1", intArg "2"] =
      Res.panic (Err.unsupportedOperator "%") remFailed ∧
    remReady.typMap.lookup "rem(int,int)" = none ∧
    remFailed.typMap.lookup "rem(int,int)" = some Ty.Int ∧
    remFailed.implsOfBinding.lookup "rem(int,int)" = none ∧
    declsFor remReady.mod "rem" [Ty.Int, Ty.Int] = [] ∧
    declsFor remFailed.mod "rem" [Ty.Int, Ty.Int] = [remDecl] ∧
    remDecl.finished = false :=
  ⟨by rfl, by decide, by rfl, by decide, by decide, by decide, by decide, by decide, by decide⟩

/-! ## C20: a binding that calls itself -/

theorem selfAfterSum_snared : (New [selfAfterSum] [("f", 0)]).snared ["f"] := by
  refine ⟨?_, ?_, ?_, fun _ _ _ => rfl⟩
  · intro n i bnd hl hb
    simp only [New, Map.lookup] at hl
    split at hl
    · next h =>
      injection hl with hl
      subst hl
      simp only [New, List.get?_cons_zero, Option.some.injEq] at hb
      subst hb
      exact h
    · cases hl
  · intro i bnd hb
    cases i with
    | zero =>
      simp only [New, List.get?_cons_zero, Option.some.injEq] at hb
      subst hb
      decide
    | succ i => simp [New] at hb
  · intro m hm
    simp only [List.mem_singleton] at hm
    subst hm
    exact ⟨0, selfAfterSum, by decide, rfl, by decide⟩

/-- C20 (amended): take a binding that is the entry of its name in the Binding Table.  First,
when it belongs to a list of bindings that call each other (the table is well formed, every
listed binding has a body that calls a listed binding outside the arguments of a call, no key
of a listed name is in the implementation cache; a binding that calls itself is such a list on
its own), a request for it never returns a function: whatever the bound on nested calls and
whatever the arguments, the evaluation ends in a panic or exhausts the bound, because a key is
written to the cache only after the body has been inferred and lowered, so every re-entry
misses the cache.  Second, when it belongs to a family of bindings each with a body that
reaches a call of a member before anything that can fail (the body is such a call, with one
argument per parameter of the called member, each labelled with its parameter or not at all
and each a parameter of the caller or an integer literal; or a binary expression whose left
operand is such a body, or whose left operand is a parameter and whose right operand is such a
body), none with its key for integer arguments in the implementation cache, a request for it
with integer arguments, as many as its parameters and with agreeing labels, never completes:
whatever the bound, the evaluation exhausts it without returning a handle or a panic. -/
theorem C20_self_call_never_returns (fuel : Nat) (g : Generator) (n : String) (bp : Nat)
    (argList : List Arg) (hn : g.bindMap.lookup n = some bp) :
    (∀ names : List String, g.snared names → n ∈ names →
      ∀ f g1, mustGetImpl fuel g bp argList ≠ Res.ok f g1) ∧
    (∀ (fam : List (String × List String)) (ps : List String) (ts : List Ty),
      g.cyclic fam → (n, ps) ∈ fam → argList.length = ps.length →
      typesOf (argList.map Expr.ofArg) = some ts → ¬ labelMismatch ps argList →
      mustGetImpl fuel g bp argList = Res.diverge) :=
  ⟨fun names hg hm f g1 => mustGetImpl_snared names fuel g n bp argList hg hm hn f g1,
   fun fam ps ts hfam hmem hlen hts hlab =>
    (reentry_diverges fam fuel).1 g n ps bp argList hfam hmem hn hlen
      (typed_of_typesOf argList ts hts) hlab⟩

/-- C20 witness: on fresh generators and with the bound 1000.  `f x = (x + x) + f(x)` requested
with `1` returns no function.  `f x = f(x)` and `f x = x + f(x: x)` requested with `1`, and
`ping x = pong(x, 1)` with `pong a b = a + ping(b)` requested as `ping(1)`, exhaust the
bound. -/
theorem C20_self_call_never_returns_witness :
    (∀ f g1, mustGetImpl 1000 (New [selfAfterSum] [("f", 0)]) 0 [intArg "1"] ≠ Res.ok f g1) ∧
    mustGetImpl 1000 (New [selfCallF] [("f", 0)]) 0 [intArg "1"] = Res.diverge ∧
    mustGetImpl 1000 (New [selfAfterParam] [("f", 0)]) 0 [intArg "1"] = Res.diverge ∧
    mustGetImpl 1000 pingStart 0 [intArg "1"] = Res.diverge :=
  ⟨(C20_self_call_never_returns 1000 (New [selfAfterSum] [("f", 0)]) "f" 0 [intArg "1"]
      (by decide)).1 ["f"]
      selfAfterSum_snared
      (by simp),
   (C20_self_call_never_returns 1000 (New [selfCallF] [("f", 0)]) "f" 0 [intArg "1"]
      (by decide)).2 [("f", ["x"])] ["x"] [Ty.Int]
      (by
        intro m ps h
        simp only [List.mem_singleton, Prod.mk.injEq] at h
        obtain ⟨rfl, rfl⟩ := h
        exact ⟨0, selfCallF, by decide, rfl, rfl, rfl, by decide, by decide⟩)
      (by simp) (by rfl) (by rfl)
      (labels_agree_unlabelled _ _ (by intro a ha; simp at ha; subst ha; rfl)),
   (C20_self_call_never_returns 1000 (New [selfAfterParam] [("f", 0)]) "f" 0 [intArg "1"]
      (by decide)).2 [("f", ["x"])] ["x"] [Ty.Int]
      (by
        intro m ps h
        simp only [List.mem_singleton, Prod.mk.injEq] at h
        obtain ⟨rfl, rfl⟩ := h
        exact ⟨0, selfAfterParam, by decide, rfl, rfl, rfl, by decide, by decide⟩)
      (by simp) (by rfl) (by rfl)
      (labels_agree_unlabelled _ _ (by intro a ha; simp at ha; subst ha; rfl)),
   (C20_self_call_never_returns 1000 pingStart "ping" 0 [intArg "1"]
      (by decide)).2 [("ping", ["x"]), ("pong", ["a", "b"])] ["x"] [Ty.Int]
      (by
        intro m ps h
        simp only [List.mem_cons, Prod.mk.injEq, List.mem_singleton] at h
        rcases h with ⟨rfl, rfl⟩ | ⟨rfl, rfl⟩ | h
        · exact ⟨0, pingBinding, by decide, rfl, rfl, rfl, by decide, by decide⟩
        · exact ⟨1, pongBinding, by decide, rfl, rfl, rfl, by decide, by decide⟩
        · simp at h)
      (by simp) (by rfl) (by rfl)
      (labels_agree_unlabelled _ _ (by intro a ha; simp at ha; subst ha; rfl))⟩

/-- C20 counterexample: two bindings that call themselves with an argument of the same type and
whose request completes, with an error.  `f x = z + f(x)`, requested with `1`, fails with the
unknown-identifier error at the left operand, before the call is reached; `f x = f(y: x)`
fails with the argument-name error at the first re-entry.  Both hold for every bound from 3
on. -/
theorem C20_self_call_fails_before_reentry :
    (∀ fuel, mustGetImpl (fuel + 3) (New [selfAfterZ] [("f", 0)]) 0 [intArg "1"] =
      Res.panic (Err.unknownIdent "z") (New [selfAfterZ] [("f", 0)])) ∧
    (∀ fuel, mustGetImpl (fuel + 3) (New [selfMislabeled] [("f", 0)]) 0 [intArg "1"] =
      Res.panic Err.argName
        (New [{ selfMislabeled with Expr := Expr.FuncCall "f" [NewArg "y" (NewInt "1")] }]
          [("f", 0)])) :=
  ⟨fun _ => by rfl, fun _ => by rfl⟩

end Elz
